import Mathlib

/-!
# Linked-list drawing (`src/lib/draw_list.h`)

A shallow embedding of `generateLinkedListSVG` and of the helpers it calls
(`addressToText`, `drawArrow`, `drawPath`, `drawNode`,
`TreeNode::addPredecessorUnique`), followed by theorems about the layout the
function computes and the text it returns.

Modelling conventions.

* A pointer `NodeT*` is its address, a natural number; `0` is `nullptr`.
* The memory the function reads is a `Heap`: a finite list of cells
  `(address, node)`.  Reading an address with no cell gives a node with an
  empty value and a null successor.
* The value `dane` of a node is kept as the text `operator<<` writes for it,
  the only use the function makes of it.
* `std::map<NodeT*, TreeNode>` is a `TreeMap`: the ascending duplicate-free
  list of its keys and a total value function whose value at a key that was
  never touched is the default-constructed `TreeNode`, which is what
  `operator[]` inserts.
* `std::set<NodeT*>` is an ascending duplicate-free list.
* `std::priority_queue<Qt, std::vector<Qt>, std::greater<Qt>>` is a list kept
  ascending for the lexicographic order on pairs, its head being `top()`.
* `int` values are unbounded integers.
* Every `while` loop is a recursion on a fuel counter and gives `none` when
  the fuel runs out.  `layout` supplies the fuel: the number of heap cells
  plus two for each walk, the number of map keys plus one for each sweep.
  This is enough on every acyclic heap (`layout_ok`); on a heap with a cycle
  the walk of the source does not end.
* `operator<<` on a non-null pointer is taken to write `0x` and the address in
  hexadecimal.  `none` as the result of `addressToText`, and then of
  `generateLinkedListSVG`, stands for the `std::out_of_range` that
  `std::string::substr` throws when that text has fewer than four characters
  (an address below `0x10`).
-/

namespace DrawList

/-! ## Memory -/

/-- A node pointer, `0` being `nullptr`. -/
abbrev Ptr := Nat

/-- `struct Node`: the printed value and the successor pointer. -/
structure Node where
  dane : String := ""
  nast : Ptr := 0
deriving Repr, DecidableEq, Inhabited

/-- The memory read by the function: finitely many cells. -/
structure Heap where
  cells : List (Ptr × Node)
deriving Repr

/-- `*p`. -/
def Heap.deref (h : Heap) (p : Ptr) : Node :=
  (h.cells.lookup p).getD {}

/-- `p->nast`. -/
def Heap.nast (h : Heap) (p : Ptr) : Ptr := (h.deref p).nast

/-- `p->dane`, as printed. -/
def Heap.dane (h : Heap) (p : Ptr) : String := (h.deref p).dane

/-- The first `n` nodes met from `p` along successor links. -/
def Heap.chain (h : Heap) : Nat → Ptr → List Ptr
  | 0, _ => []
  | n + 1, p => if p = 0 then [] else p :: Heap.chain h n (h.nast p)

/-- Node `q` is reached from `p` through successor links (in zero or more hops). -/
def Heap.Reach (h : Heap) (p q : Ptr) : Prop := ∃ n, q ∈ h.chain n p

/-- Every successor chain is finite and free of cycles: some rank strictly
decreases along every successor link. -/
def Heap.Acyclic (h : Heap) : Prop :=
  ∃ rank : Ptr → Nat, ∀ p, p ≠ 0 → h.nast p ≠ 0 → rank (h.nast p) < rank p

/-! ## Layout entries -/

/-- `TreeNode::Edge`. -/
structure Edge where
  from_ : Ptr
  to_ : Ptr
  label : String
  j : Int := 0
deriving Repr, DecidableEq

/-- `struct TreeNode`. -/
structure TreeNode where
  predecessors : List Edge := []
  p : Ptr := 0
  i : Int := 0
  j : Int := 0
deriving Repr, DecidableEq

/-- `TreeNode::addPredecessorUnique`. -/
def TreeNode.addPredecessorUnique (t : TreeNode) (e : Edge) : TreeNode :=
  let not_in := !(t.predecessors.any fun pred => pred.from_ == e.from_)
  if not_in then { t with predecessors := t.predecessors ++ [e] } else t

/-- `std::set<NodeT*>::insert`. -/
def setInsert (p : Ptr) (s : List Ptr) : List Ptr :=
  if p ∈ s then s else s.orderedInsert (· ≤ ·) p

/-- `std::map<NodeT*, TreeNode<NodeT>>`. -/
structure TreeMap where
  keys : List Ptr := []
  val : Ptr → TreeNode := fun _ => {}

/-- The value of `tree_nodes[p]`. -/
def TreeMap.entry (m : TreeMap) (p : Ptr) : TreeNode := m.val p

/-- The map after `tree_nodes[p]` was evaluated and the entry replaced by `f` of it. -/
def TreeMap.upd (m : TreeMap) (p : Ptr) (f : TreeNode → TreeNode) : TreeMap :=
  { keys := setInsert p m.keys, val := Function.update m.val p (f (m.val p)) }

/-- The map after `tree_nodes[p]` was evaluated for reading. -/
def TreeMap.touch (m : TreeMap) (p : Ptr) : TreeMap := m.upd p id

/-- The key/value pairs in iteration order. -/
def TreeMap.toList (m : TreeMap) : List (Ptr × TreeNode) :=
  m.keys.map fun p => (p, m.val p)

/-! ## Graph discovery (lines 217-269) -/

/-- The locals of `generateLinkedListSVG` that the first loop fills. -/
structure Discovery where
  tree_nodes : TreeMap := {}
  last_elements : List Ptr := []
  null_pointers : List (Ptr × String) := []
  deepest_node : Ptr := 0
  deepest_i : Int := -1

/-- The body of the loop `while(p)` (lines 247-266) for the node `p`, `i`
being the counter before `++i`. -/
def walkStep (h : Heap) (p : Ptr) (i : Int) (st : Discovery) : Discovery :=
  let i := i + 1
  let pn := h.nast p
  if pn ≠ 0 then
    let t1 := st.tree_nodes.upd pn (fun t => { t with p := pn })
    let t2 := if i > (t1.entry pn).i then t1.upd pn (fun t => { t with i := i }) else t1.touch pn
    let t3 := t2.upd pn (fun t => t.addPredecessorUnique ⟨p, pn, "nast", 0⟩)
    let st1 := { st with tree_nodes := t3 }
    if st1.deepest_i < i then { st1 with deepest_node := pn, deepest_i := i } else st1
  else
    { st with last_elements := setInsert p st.last_elements }

/-- The loop `while(p)` of lines 245-268, entered with the counter `i`. -/
def walk (h : Heap) : Nat → Ptr → Int → Discovery → Option Discovery
  | 0, p, _, st => if p = 0 then some st else none
  | fuel + 1, p, i, st =>
    if p = 0 then some st else walk h fuel (h.nast p) (i + 1) (walkStep h p i st)

/-- Lines 233-243: the state in which the walk from the non-null root `pp` starts. -/
def rootInit (st : Discovery) (pp : Ptr × String) : Discovery :=
  let p := pp.1
  let st1 := if st.deepest_node = 0 then { st with deepest_node := p, deepest_i := 0 } else st
  let t1 := st1.tree_nodes.upd p (fun t => { t with p := p })
  let t2 := t1.upd p (fun t => { t with predecessors := t.predecessors ++ [⟨0, p, pp.2, 0⟩] })
  { st1 with tree_nodes := t2 }

/-- One iteration of the loop over `pointers` (lines 224-269). -/
def discoverRoot (h : Heap) (fuel : Nat) (st : Discovery) (pp : Ptr × String) :
    Option Discovery :=
  if pp.1 = 0 then some { st with null_pointers := st.null_pointers ++ [pp] }
  else walk h fuel pp.1 0 (rootInit st pp)

/-- The loop over `pointers` (lines 224-269). -/
def discover (h : Heap) (fuel : Nat) : List (Ptr × String) → Discovery → Option Discovery
  | [], st => some st
  | pp :: rest, st => (discoverRoot h fuel st pp).bind (discover h fuel rest)

/-! ## Row resolution (lines 271-315) -/

/-- The order of `std::pair<int, NodeT*>`. -/
def pairLe (a b : Int × Ptr) : Prop := a.1 < b.1 ∨ (a.1 = b.1 ∧ a.2 ≤ b.2)

instance : DecidableRel pairLe := fun a b => by unfold pairLe; exact inferInstance

/-- The priority queue: ascending, the head is `top()`. -/
abbrev Queue := List (Int × Ptr)

/-- `queue.push`. -/
def Queue.push (q : Queue) (x : Int × Ptr) : Queue := q.orderedInsert pairLe x

/-- The loop over `tree_nodes[p].predecessors` (lines 301-307): the edges with
their rows, the final `pred_j` and the queue. -/
def assignRows : List Edge → Int → Queue → List Edge × Int × Queue
  | [], pred_j, q => ([], pred_j, q)
  | pred :: rest, pred_j, q =>
    let pred1 := { pred with j := pred_j }
    let q1 := if pred1.from_ ≠ 0 then Queue.push q (pred1.j, pred1.from_) else q
    let r := assignRows rest (pred_j + 1) q1
    (pred1 :: r.1, r.2.1, r.2.2)

/-- The body of the loop `while(!queue.empty())` (lines 293-309) when
`queue.top()` is `(pjp, p)` and `q` is the queue after `queue.pop()`: the
queue, the map and `pj_max` after the iteration. -/
def popStep (h : Heap) (pjp : Int) (p : Ptr) (q : Queue) (m : TreeMap) (pj_max : Int) :
    Queue × TreeMap × Int :=
  let m1 := m.upd p (fun t => { t with j := pjp })
  let m2 :=
    if h.nast p ≠ 0 then
      let m' := m1.touch (h.nast p)
      m'.upd p (fun t => { t with i := (m'.entry (h.nast p)).i - 1 })
    else m1
  let r := assignRows (m2.entry p).predecessors pjp q
  let m3 := m2.upd p (fun t => { t with predecessors := r.1 })
  (r.2.2, m3, if r.2.1 > pj_max then r.2.1 else pj_max)

/-- The loop `while(!queue.empty())` of lines 290-310. -/
def sweep (h : Heap) : Nat → Queue → TreeMap → Int → Option (TreeMap × Int)
  | _, [], m, pj_max => some (m, pj_max)
  | 0, _ :: _, _, _ => none
  | fuel + 1, (pjp, p) :: q, m, pj_max =>
    let r := popStep h pjp p q m pj_max
    sweep h fuel r.1 r.2.1 r.2.2

/-- The loop of lines 277-280 filling `depth_pointer_pairs`. -/
def depthPairs : List Ptr → TreeMap → List (Int × Ptr) × TreeMap
  | [], m => ([], m)
  | p :: rest, m =>
    let m1 := m.touch p
    let r := depthPairs rest m1
    (((m1.entry p).i, p) :: r.1, r.2)

/-- `std::sort(depth_pointer_pairs.rbegin(), depth_pointer_pairs.rend())`:
descending order. -/
def sortDesc (l : List (Int × Ptr)) : List (Int × Ptr) :=
  l.insertionSort (fun a b => pairLe b a)

/-- The loop over `depth_pointer_pairs` (lines 284-313), entered with `pj` and `nr`. -/
def resolveTails (h : Heap) : List (Int × Ptr) → TreeMap → Int → Int → Option (TreeMap × Int)
  | [], m, _, nr => some (m, nr)
  | pp :: rest, m, pj, nr =>
    match sweep h (m.keys.length + 1) [(pj, pp.2)] m 0 with
    | none => none
    | some (m1, pj_max) =>
      resolveTails h rest m1 pj_max (if pj_max > nr then pj_max else nr)

/-- The locals of `generateLinkedListSVG` when the drawing starts (line 317). -/
structure Layout where
  tree_nodes : TreeMap
  last_elements : List Ptr
  null_pointers : List (Ptr × String)
  deepest_node : Ptr
  deepest_i : Int
  nc : Int
  nr : Int

/-- Lines 271-315, from the result of the discovery. -/
def resolveRows (h : Heap) (d : Discovery) : Option Layout :=
  let nc := if d.deepest_i > 1 then d.deepest_i else 1
  if d.last_elements ≠ [] then
    let dp := depthPairs d.last_elements d.tree_nodes
    match resolveTails h (sortDesc dp.1) dp.2 0 0 with
    | none => none
    | some (m, nr) =>
      some ⟨m, d.last_elements, d.null_pointers, d.deepest_node, d.deepest_i, nc, nr⟩
  else
    some ⟨d.tree_nodes, d.last_elements, d.null_pointers, d.deepest_node, d.deepest_i, nc, 0⟩

/-- The state of `generateLinkedListSVG` at line 317: discovery, then row resolution. -/
def layout (h : Heap) (pointers : List (Ptr × String)) : Option Layout :=
  (discover h (h.cells.length + 2) pointers {}).bind (resolveRows h)

/-! ## Drawing (lines 104-177 and 317-388) -/

/-- The text `operator<<` writes for a non-null pointer: `0x` and the address
in hexadecimal. -/
def ptrText (p : Ptr) : String := "0x" ++ String.mk (Nat.toDigits 16 p)

/-- `std::string::substr(pos, n)` called with `int` arguments; `none` is
`std::out_of_range`. -/
def substr (s : String) (pos n : Int) : Option String :=
  if pos < 0 ∨ (s.length : Int) < pos then none
  else some (String.mk ((s.data.drop pos.toNat).take (if n < 0 then s.length else n.toNat)))

/-- `addressToText`. -/
def addressToText (p : Ptr) : Option String :=
  if p ≠ 0 then
    let addr_out := ptrText p
    let addr_len : Int := addr_out.length
    match substr addr_out 0 3, substr addr_out (addr_len - 4) addr_len with
    | some a, some b => some (a ++ ".." ++ b)
    | _, _ => none
  else some "NULL"

/-- `drawArrow`: the text it appends to `out`. -/
def drawArrow (x_start x_end y : Int) (addr : Ptr) (label : String) : Option String :=
  let spacing := x_end - x_start
  (addressToText addr).map fun a =>
    "  <text x='" ++ toString (x_start + spacing.tdiv 2) ++ "' y='" ++ toString (y + 15)
      ++ "' text-anchor='middle' font-size='10'>" ++ a ++ "</text>\n"
    ++ "  <line x1='" ++ toString x_start ++ "' y1='" ++ toString y
      ++ "' x2='" ++ toString x_end ++ "' y2='" ++ toString y
      ++ "' stroke='black' marker-end='url(#sll_arrow)'/>\n"
    ++ "  <text x='" ++ toString (x_start + spacing.tdiv 2)
      ++ "' y='" ++ toString (y - 10)
      ++ "' text-anchor='middle'>" ++ label ++ "</text>\n"

/-- The loop over the segments of a path in `drawPath` (lines 148-158). -/
def pathLines : List (Int × Int) → String
  | p1 :: p2 :: rest =>
    "  <line x1='" ++ toString p1.1 ++ "' y1='" ++ toString p1.2
      ++ "' x2='" ++ toString p2.1 ++ "' y2='" ++ toString p2.2
      ++ (if rest ≠ [] then "' stroke='black' />\n"
          else "' stroke='black' marker-end='url(#sll_arrow)'/>\n")
      ++ pathLines (p2 :: rest)
  | _ => ""

/-- `drawPath`: the text it appends to `out` (`none` on an empty path, whose
`front()` is undefined). -/
def drawPath (path : List (Int × Int)) (addr : Ptr) (label : String) : Option String :=
  match path.head?, path.getLast? with
  | some front, some back =>
    let spacing := back.1 - front.1
    let x_start := front.1
    let y := front.2
    (addressToText addr).map fun a =>
      "  <text x='" ++ toString (x_start + spacing.tdiv 2) ++ "' y='" ++ toString (y + 15)
        ++ "' text-anchor='middle' font-size='10'>" ++ a ++ "</text>\n"
      ++ pathLines path
      ++ "  <text x='" ++ toString (x_start + spacing.tdiv 2)
        ++ "' y='" ++ toString (y - 10)
        ++ "' text-anchor='middle'>" ++ label ++ "</text>\n"
  | _, _ => none

/-- `drawNode`: the text it appends to `out`. -/
def drawNode (h : Heap) (x y dataWidth nodeHeight : Int) (p : Ptr) : String :=
  if p = 0 then "" else
  "  <rect x='" ++ toString x ++ "' y='" ++ toString y
    ++ "' width='" ++ toString dataWidth ++ "' height='" ++ toString nodeHeight
    ++ "' fill='white' stroke='black'/>\n"
  ++ "  <text x='" ++ toString (x + dataWidth.tdiv 2) ++ "' y='"
    ++ toString (y + nodeHeight.tdiv 2 + 5)
    ++ "' text-anchor='middle'>" ++ h.dane p ++ "</text>\n"

/-- The calls of the drawing helpers made by lines 351-388, one constructor
for each call site. -/
inductive Draw where
  /-- Line 358: `drawNode(out, x, y, dataWidth, nodeHeight, p)`. -/
  | node (x y dataWidth nodeHeight : Int) (p : Ptr)
  /-- Line 360: `drawArrow(out, x_start, x_end, y, p->nast, "nast")`, made for the node `p`. -/
  | tailArrow (x_start x_end y : Int) (p : Ptr)
  /-- Line 367: `drawArrow(out, x_start, x_end, y, p, pred.label)`. -/
  | predArrow (x_start x_end y : Int) (p : Ptr) (label : String)
  /-- Line 373: `drawPath(out, path, p, pred.label)`. -/
  | predPath (path : List (Int × Int)) (p : Ptr) (label : String)
  /-- Line 386: `drawArrow<NodeT>(out, x_start, x_end, y, nullptr, pp.second)`. -/
  | nullArrow (x_start x_end y : Int) (label : String)
deriving Repr, DecidableEq

/-- The text a call appends to `out`. -/
def Draw.emit (h : Heap) : Draw → Option String
  | .node x y dataWidth nodeHeight p => some (drawNode h x y dataWidth nodeHeight p)
  | .tailArrow x_start x_end y p => drawArrow x_start x_end y (h.nast p) "nast"
  | .predArrow x_start x_end y p label => drawArrow x_start x_end y p label
  | .predPath path p label => drawPath path p label
  | .nullArrow x_start x_end y label => drawArrow x_start x_end y 0 label

/-- The loop of lines 319-326: the length of the longest printed value. -/
def dataLength (h : Heap) : List Ptr → Int → Int
  | [], data_length => data_length
  | p :: rest, data_length =>
    let size : Int := (h.dane p).utf8ByteSize
    dataLength h rest (if size > data_length then size else data_length)

/-- The pixel constants and sizes of lines 330-335. -/
structure Metrics where
  dataWidth : Int
  nodeHeight : Int := 40
  spacing : Int := 70
  height : Int
  width : Int
  startX : Int := 0
  startY : Int := 10
deriving Repr, DecidableEq

/-- Lines 317-335 and 348-349. -/
def metrics (h : Heap) (l : Layout) : Metrics :=
  let data_length := dataLength h l.tree_nodes.keys 0
  let char_length : Int := 7
  let dataWidth := 30 + data_length * char_length
  let nodeHeight : Int := 40
  let spacing : Int := 70
  { dataWidth := dataWidth
    height := (l.nr + (l.null_pointers.length : Int)) * (nodeHeight + 20)
    width := (l.nc + 2) * (dataWidth + spacing) }

/-- The calls made for one predecessor edge (lines 365-376). -/
def drawPred (g : Metrics) (p : Ptr) (pi pj : Int) (y : Int) (pred : Edge) : Draw :=
  let x_arrow := g.startX + (g.dataWidth + g.spacing) * pi
  if pj = pred.j then
    .predArrow x_arrow (x_arrow + g.spacing) (y + g.nodeHeight.tdiv 2) p pred.label
  else
    let y_arrow := g.startY + (g.nodeHeight + 20) * pred.j
    let y_arrow_parent := g.startY + (g.nodeHeight + 20) * pj
    .predPath [(x_arrow, y_arrow + g.nodeHeight.tdiv 2),
               (x_arrow + g.spacing + g.dataWidth.tdiv 2, y_arrow + g.nodeHeight.tdiv 2),
               (x_arrow + g.spacing + g.dataWidth.tdiv 2, y_arrow_parent + g.nodeHeight)]
      p pred.label

/-- The calls made for one map entry (the body of the loop of lines 351-379). -/
def drawEntry (h : Heap) (g : Metrics) (pp : Ptr × TreeNode) : List Draw :=
  let p := pp.1
  let pi := pp.2.i
  let pj := pp.2.j
  let x := g.startX + g.spacing + (g.dataWidth + g.spacing) * pi
  let y := g.startY + (g.nodeHeight + 20) * pj
  [Draw.node x y g.dataWidth g.nodeHeight p]
  ++ (if h.nast p = 0 then
        [Draw.tailArrow (x + g.dataWidth) (x + g.dataWidth + g.spacing) (y + g.nodeHeight.tdiv 2) p]
      else [])
  ++ pp.2.predecessors.map (drawPred g p pi pj y)

/-- The calls made by the loop over `null_pointers` (lines 381-388), entered with `pj`. -/
def drawNulls (g : Metrics) : List (Ptr × String) → Int → List Draw
  | [], _ => []
  | pp :: rest, pj =>
    let x_arrow := g.startX
    let y := g.startY + (g.nodeHeight + 20) * pj
    Draw.nullArrow x_arrow (x_arrow + g.spacing) (y + g.nodeHeight.tdiv 2) pp.2
      :: drawNulls g rest (pj + 1)

/-- All calls of the drawing helpers, in the order they are made (lines 351-388). -/
def drawCalls (h : Heap) (l : Layout) : List Draw :=
  let g := metrics h l
  (l.tree_nodes.toList.map (drawEntry h g)).flatten ++ drawNulls g l.null_pointers l.nr

/-- The text written before the first call (lines 337-346). -/
def svgHeader (g : Metrics) : String :=
  "<svg xmlns='http://www.w3.org/2000/svg' "
    ++ "width='" ++ toString g.width ++ "' height='" ++ toString g.height ++ "'>\n"
  ++ "  <defs>\n"
    ++ "    <marker id='sll_arrow' viewBox='0 0 10 10' refX='9' refY='5' "
    ++ "markerWidth='6' markerHeight='6' orient='auto-start-reverse'>\n"
    ++ "      <path d='M 0 0 L 10 5 L 0 10 z' fill='black'/>\n"
    ++ "    </marker>\n"
    ++ "  </defs>\n\n"

/-- The texts of a list of calls, appended in order. -/
def emitAll (h : Heap) : List Draw → Option String
  | [] => some ""
  | d :: rest =>
    match d.emit h, emitAll h rest with
    | some a, some b => some (a ++ b)
    | _, _ => none

/-- Lines 329-423: the text returned for a layout. -/
def svgText (h : Heap) (l : Layout) : Option String :=
  (emitAll h (drawCalls h l)).map fun body => svgHeader (metrics h l) ++ body

/-- `generateLinkedListSVG`: the returned text. -/
def generateLinkedListSVG (h : Heap) (pointers : List (Ptr × String)) : Option String :=
  (layout h pointers).bind (svgText h)

/-! ## Definitions used by the proofs -/

/-- The sources of the edges recorded in an entry. -/
def TreeNode.srcs (t : TreeNode) : List Ptr := t.predecessors.map (·.from_)

/-- The sources of the edges recorded for node `n`. -/
def TreeMap.srcs (m : TreeMap) (n : Ptr) : List Ptr := (m.val n).srcs

/-- The invariant of the discovery loops: `R` lists the roots taken so far and
`cur` is the node the walk stands on (`0` between two walks). -/
structure DInv (h : Heap) (R : List (Ptr × String)) (cur : Ptr) (st : Discovery) : Prop where
  keys_nodup : st.tree_nodes.keys.Nodup
  key_ne : ∀ k ∈ st.tree_nodes.keys, k ≠ 0
  cur_key : cur ≠ 0 → cur ∈ st.tree_nodes.keys
  closed : ∀ k ∈ st.tree_nodes.keys, k ≠ cur → h.nast k ≠ 0 →
    h.nast k ∈ st.tree_nodes.keys ∧ k ∈ st.tree_nodes.srcs (h.nast k)
  src_ok : ∀ n f, f ∈ st.tree_nodes.srcs n → f ≠ 0 → h.nast f = n ∧ f ∈ st.tree_nodes.keys
  src_nodup : ∀ n, ((st.tree_nodes.srcs n).filter (· ≠ 0)).Nodup
  src_ne : ∀ k ∈ st.tree_nodes.keys, st.tree_nodes.srcs k ≠ []
  tails_nodup : st.last_elements.Nodup
  tails_ok : ∀ t ∈ st.last_elements, t ∈ st.tree_nodes.keys ∧ h.nast t = 0
  tails_all : ∀ k ∈ st.tree_nodes.keys, k ≠ cur → h.nast k = 0 → k ∈ st.last_elements
  reach : ∀ k ∈ st.tree_nodes.keys, ∃ pp ∈ R, pp.1 ≠ 0 ∧ h.Reach pp.1 k
  roots : ∀ pp ∈ R, pp.1 ≠ 0 → pp.1 ∈ st.tree_nodes.keys
  nulls : st.null_pointers = R.filter (fun pp => pp.1 = 0)
  root_count : ∀ n, n ≠ 0 →
    (st.tree_nodes.srcs n).count 0 = (R.filter (fun pp => pp.1 = n)).length

/-- An edge without its row. -/
def Edge.skel (e : Edge) : Edge := { e with j := 0 }

/-- The pairs the loop over the predecessors pushes on the queue. -/
def pushed : List Edge → Int → List (Int × Ptr)
  | [], _ => []
  | e :: es, r => (if e.from_ ≠ 0 then [(r, e.from_)] else []) ++ pushed es (r + 1)

/-- What the discovery establishes about the map and the sweeps rely on. -/
structure Graph (h : Heap) (m : TreeMap) : Prop where
  keys_nodup : m.keys.Nodup
  key_ne : ∀ k ∈ m.keys, k ≠ 0
  closed : ∀ k ∈ m.keys, h.nast k ≠ 0 → h.nast k ∈ m.keys ∧ k ∈ m.srcs (h.nast k)
  src_ok : ∀ n f, f ∈ m.srcs n → f ≠ 0 → h.nast f = n ∧ f ∈ m.keys
  src_nodup : ∀ n, ((m.srcs n).filter (· ≠ 0)).Nodup
  src_ne : ∀ k ∈ m.keys, m.srcs k ≠ []

/-- What the sweeps leave unchanged in the map: the keys, the edges up to their
rows, the `p` fields and the columns of the tails. -/
structure Same (h : Heap) (m m' : TreeMap) : Prop where
  keys : m'.keys = m.keys
  skel : ∀ n, (m'.val n).predecessors.map Edge.skel = (m.val n).predecessors.map Edge.skel
  pfield : ∀ n, (m'.val n).p = (m.val n).p
  tail_i : ∀ n, h.nast n = 0 → (m'.val n).i = (m.val n).i

/-- The invariant of the sweeps: `D` lists the nodes popped so far, in all
sweeps, `T` the seeds `(row, tail)` pushed so far and `q` is the queue. -/
structure SInv (h : Heap) (m : TreeMap) (T : List (Int × Ptr)) (D : List Ptr) (q : Queue) :
    Prop where
  d_nodup : D.Nodup
  d_keys : ∀ p ∈ D, p ∈ m.keys
  d_succ : ∀ p ∈ D, h.nast p ≠ 0 → h.nast p ∈ D ∧ (m.val p).i = (m.val (h.nast p)).i - 1
  d_rows : ∀ p ∈ D, ∀ (k : Nat) (e : Edge),
    (m.val p).predecessors[k]? = some e → e.j = (m.val p).j + k
  d_edge : ∀ p ∈ D, h.nast p ≠ 0 →
    ∃ e ∈ (m.val (h.nast p)).predecessors, e.from_ = p ∧ e.j = (m.val p).j
  d_seed : ∀ p ∈ D, h.nast p = 0 → ((m.val p).j, p) ∈ T
  q_nodup : (q.map Prod.snd).Nodup
  q_ok : ∀ x ∈ q, x.2 ∈ m.keys ∧ x.2 ∉ D ∧
    (h.nast x.2 ≠ 0 → h.nast x.2 ∈ D ∧
      ∃ e ∈ (m.val (h.nast x.2)).predecessors, e.from_ = x.2 ∧ e.j = x.1) ∧
    (h.nast x.2 = 0 → x ∈ T)
  q_all : ∀ k ∈ m.keys, h.nast k ≠ 0 → h.nast k ∈ D → k ∈ D ∨ k ∈ q.map Prod.snd

/-- What holds of the layout `l` computed from the discovery `d`. -/
structure LayoutOK (h : Heap) (pointers : List (Ptr × String)) (d : Discovery) (l : Layout) :
    Prop where
  dinv : DInv h pointers 0 d
  same : Same h d.tree_nodes l.tree_nodes
  last : l.last_elements = d.last_elements
  nullp : l.null_pointers = d.null_pointers
  deepest : l.deepest_i = d.deepest_i
  nc : l.nc = if d.deepest_i > 1 then d.deepest_i else 1
  graph : Graph h l.tree_nodes
  col : ∀ k ∈ l.tree_nodes.keys, h.nast k ≠ 0 →
    (l.tree_nodes.val k).i = (l.tree_nodes.val (h.nast k)).i - 1
  rows : ∀ k ∈ l.tree_nodes.keys, ∀ (idx : Nat) (e : Edge),
    (l.tree_nodes.val k).predecessors[idx]? = some e → e.j = (l.tree_nodes.val k).j + idx
  edge : ∀ k ∈ l.tree_nodes.keys, h.nast k ≠ 0 →
    ∃ e ∈ (l.tree_nodes.val (h.nast k)).predecessors,
      e.from_ = k ∧ e.j = (l.tree_nodes.val k).j
  seeds : ∃ T : List (Int × Ptr), List.Perm (T.map Prod.snd) l.last_elements ∧
    (∀ x ∈ T.head?, x.1 = 0) ∧ ∀ t ∈ l.last_elements, ((l.tree_nodes.val t).j, t) ∈ T

/-- Node `q` is met after exactly `k` successor hops from `p`. -/
def Heap.Hops (h : Heap) (p q : Ptr) (k : Nat) : Prop := ∃ n, (h.chain n p)[k]? = some q

/-- The text ends with a line feed. -/
def EndsWithLineFeed (s : String) : Prop := ∃ t : String, s = t ++ "\n"

/-! ## What the calls draw -/

/-- The node for which a call draws a rectangle: only `drawNode` draws one,
and it returns at once on a null pointer. -/
def Draw.rectOf : Draw → Option Ptr
  | .node _ _ _ _ p => if p = 0 then none else some p
  | _ => none

/-- The nodes for which a rectangle is drawn, in drawing order. -/
def rectangles (ds : List Draw) : List Ptr := ds.filterMap Draw.rectOf

/-- The node after which a call draws a terminating arrow. -/
def Draw.tailOf : Draw → Option Ptr
  | .tailArrow _ _ _ p => some p
  | _ => none

/-- The nodes after which a terminating arrow is drawn, in drawing order. -/
def tailArrows (ds : List Draw) : List Ptr := ds.filterMap Draw.tailOf

/-- The label of a standalone null arrow. -/
def Draw.nullLabel : Draw → Option String
  | .nullArrow _ _ _ label => some label
  | _ => none

/-- The labels of the standalone null arrows, in drawing order. -/
def nullArrows (ds : List Draw) : List String := ds.filterMap Draw.nullLabel

/-- The node a call is made for (`0` for a standalone null arrow). -/
def Draw.subject : Draw → Ptr
  | .node _ _ _ _ p => p
  | .tailArrow _ _ _ p => p
  | .predArrow _ _ _ p _ => p
  | .predPath _ p _ => p
  | .nullArrow _ _ _ _ => 0

/-! ## The lists of the demonstration and of the tests -/

/-- The list of `DRAW_LIST_DEMO`: `glowa` (10) at `0x1020`, `n2` (20) at
`0x1010`, `n3` (30) at `0x1000`. -/
def demoHeap : Heap :=
  ⟨[(0x1000, ⟨"30", 0⟩), (0x1010, ⟨"20", 0x1000⟩), (0x1020, ⟨"10", 0x1010⟩)]⟩

/-- The pointers `DRAW_LIST_DEMO` draws: `glowa`. -/
def demoPointers : List (Ptr × String) := [(0x1020, "glowa")]

/-- The lists of `drawList_TEST_1`: `n3` (3000) at `0x1000`, `n2` (20) at
`0x1010`, `n1` (10) at `0x1020`, then the nodes 50, 40 and 30 of the chain of
`n4` at `0x1030`, `0x1040` and `0x1050`. -/
def test1Heap : Heap :=
  ⟨[(0x1000, ⟨"3000", 0⟩), (0x1010, ⟨"20", 0x1000⟩), (0x1020, ⟨"10", 0x1010⟩),
    (0x1030, ⟨"50", 0x1000⟩), (0x1040, ⟨"40", 0x1030⟩), (0x1050, ⟨"30", 0x1040⟩)]⟩

/-- The pointers `drawList_TEST_1` draws: `glowa, n1, n2, n3, n4, n5, nx`. -/
def test1Pointers : List (Ptr × String) :=
  [(0x1020, "glowa"), (0x1020, "n1"), (0x1010, "n2"), (0x1000, "n3"), (0x1050, "n4"),
    (0x1000, "n5"), (0, "nx")]

/-- The text `generateLinkedListSVG` returns for `DRAW_LIST_DEMO`. -/
def demoOutput : String :=
  "<svg xmlns='http://www.w3.org/2000/svg' width='456' height='60'>\n"
    ++ "  <defs>\n"
    ++ "    <marker id='sll_arrow' viewBox='0 0 10 10' refX='9' refY='5' markerWidth='6' markerHeight='6' orient='auto-start-reverse'>\n"
    ++ "      <path d='M 0 0 L 10 5 L 0 10 z' fill='black'/>\n"
    ++ "    </marker>\n"
    ++ "  </defs>\n"
    ++ "\n"
    ++ "  <rect x='298' y='10' width='44' height='40' fill='white' stroke='black'/>\n"
    ++ "  <text x='320' y='35' text-anchor='middle'>30</text>\n"
    ++ "  <text x='377' y='45' text-anchor='middle' font-size='10'>NULL</text>\n"
    ++ "  <line x1='342' y1='30' x2='412' y2='30' stroke='black' marker-end='url(#sll_arrow)'/>\n"
    ++ "  <text x='377' y='20' text-anchor='middle'>nast</text>\n"
    ++ "  <text x='263' y='45' text-anchor='middle' font-size='10'>0x1..1000</text>\n"
    ++ "  <line x1='228' y1='30' x2='298' y2='30' stroke='black' marker-end='url(#sll_arrow)'/>\n"
    ++ "  <text x='263' y='20' text-anchor='middle'>nast</text>\n"
    ++ "  <rect x='184' y='10' width='44' height='40' fill='white' stroke='black'/>\n"
    ++ "  <text x='206' y='35' text-anchor='middle'>20</text>\n"
    ++ "  <text x='149' y='45' text-anchor='middle' font-size='10'>0x1..1010</text>\n"
    ++ "  <line x1='114' y1='30' x2='184' y2='30' stroke='black' marker-end='url(#sll_arrow)'/>\n"
    ++ "  <text x='149' y='20' text-anchor='middle'>nast</text>\n"
    ++ "  <rect x='70' y='10' width='44' height='40' fill='white' stroke='black'/>\n"
    ++ "  <text x='92' y='35' text-anchor='middle'>10</text>\n"
    ++ "  <text x='35' y='45' text-anchor='middle' font-size='10'>0x1..1020</text>\n"
    ++ "  <line x1='0' y1='30' x2='70' y2='30' stroke='black' marker-end='url(#sll_arrow)'/>\n"
    ++ "  <text x='35' y='20' text-anchor='middle'>glowa</text>\n"

/-- Five nodes: the tail `A` at `0x1000`, its two predecessors `B` at `0x1010`
and `C` at `0x1020`, `E` at `0x1030` before `B` and `F` at `0x1040` before `C`. -/
def overlapHeap : Heap :=
  ⟨[(0x1000, ⟨"A", 0⟩), (0x1010, ⟨"B", 0x1000⟩), (0x1020, ⟨"C", 0x1000⟩),
    (0x1030, ⟨"E", 0x1010⟩), (0x1040, ⟨"F", 0x1020⟩)]⟩

/-- Three pointers into `overlapHeap`: `b` to `B`, `e` to `E` and `f` to `F`. -/
def overlapPointers : List (Ptr × String) := [(0x1010, "b"), (0x1030, "e"), (0x1040, "f")]

/-- Two one-node chains into a common tail: `T` at `0x1000`, `a` at `0x1010`
and `b` at `0x1020`, both with successor `T`. -/
def convergeHeap : Heap :=
  ⟨[(0x1000, ⟨"T", 0⟩), (0x1010, ⟨"a", 0x1000⟩), (0x1020, ⟨"b", 0x1000⟩)]⟩

/-! ## Definitions used by the proofs about depths -/

/-- The nodes met from `p` along successor links, each with its depth, `p`
being met at depth `k`. -/
def Heap.visits (h : Heap) : Nat → Ptr → Nat → List (Ptr × Nat)
  | 0, _, _ => []
  | n + 1, p, k => if p = 0 then [] else (p, k) :: Heap.visits h n (h.nast p) (k + 1)

/-- The order of discovery: for each root in turn, the nodes of its chain with
their depths from that root (nothing for a null root). -/
def discoveryOrder (h : Heap) (pointers : List (Ptr × String)) : List (Ptr × Nat) :=
  (pointers.map fun pp => h.visits (h.cells.length + 3) pp.1 0).flatten

/-- The invariant of the discovery on `deepest_node` and `deepest_i`. -/
structure DeepInv (st : Discovery) : Prop where
  nonneg : ∀ q, 0 ≤ (st.tree_nodes.val q).i
  le : ∀ q, (st.tree_nodes.val q).i ≤ max st.deepest_i 0
  none : st.deepest_node = 0 → st.deepest_i = -1 ∧ st.tree_nodes.keys = []
  some : st.deepest_node ≠ 0 → st.deepest_node ∈ st.tree_nodes.keys ∧
    st.deepest_i ≤ (st.tree_nodes.val st.deepest_node).i ∧ 0 ≤ st.deepest_i

/-- The invariant of the discovery on the visits `V` made so far: the deepest
node is the first one visited at the deepest depth. -/
structure VInv (V : List (Ptr × Nat)) (st : Discovery) : Prop where
  empty : V = [] → st.deepest_node = 0 ∧ st.deepest_i = -1
  first : V ≠ [] → ∃ D : Nat, st.deepest_i = D ∧
    V.find? (fun v => v.2 = D) = some (st.deepest_node, D)
  le : ∀ v ∈ V, (v.2 : Int) ≤ st.deepest_i
  ne : ∀ v ∈ V, v.1 ≠ 0

/-- The invariant of the discovery on the columns, `R` being the roots whose
walk is over: the column of a node is the greatest number of hops from such a
root to it. -/
structure ColInv (h : Heap) (R : List (Ptr × String)) (st : Discovery) : Prop where
  upper : ∀ pp ∈ R, pp.1 ≠ 0 → ∀ (q : Ptr) (k : Nat), h.Hops pp.1 q k →
    (k : Int) ≤ (st.tree_nodes.val q).i
  attained : ∀ q, (st.tree_nodes.val q).i = 0 ∨
    ∃ pp ∈ R, pp.1 ≠ 0 ∧ ∃ k : Nat, h.Hops pp.1 q k ∧ (st.tree_nodes.val q).i = k

/-! ## The statements the sweeps execute -/

/-- A statement of the row resolution executed for a node: a `queue.push` of
the node (line 288 for the tail of a sweep, line 305 for the source of a
predecessor edge), the `queue.pop()` that gives the node, the assignment of its
row `tree_nodes[p].j = pjp`, the correction of its column
`tree_nodes[p].i = tree_nodes[p->nast].i - 1`. -/
inductive Event where
  | push (p : Ptr)
  | pop (p : Ptr)
  | row (p : Ptr)
  | col (p : Ptr)
deriving Repr, DecidableEq

/-- The pushes of the loop over `tree_nodes[p].predecessors` (lines 301-307),
made under the guard `if(pred.from!=0)`. -/
def pushEvents : List Edge → List Event
  | [] => []
  | pred :: rest => (if pred.from_ ≠ 0 then [Event.push pred.from_] else []) ++ pushEvents rest

/-- The statements one iteration of the loop `while(!queue.empty())` executes
when `queue.top()` holds the node `p` (lines 293-308): the column is corrected
under the guard `if(p->nast)`. -/
def popEvents (h : Heap) (m : TreeMap) (p : Ptr) : List Event :=
  [Event.pop p, Event.row p] ++ (if h.nast p ≠ 0 then [Event.col p] else [])
    ++ pushEvents (m.entry p).predecessors

/-- The statements a run of `sweep` executes, in order. -/
def sweepEvents (h : Heap) : Nat → Queue → TreeMap → Int → List Event
  | _, [], _, _ => []
  | 0, _ :: _, _, _ => []
  | fuel + 1, (pjp, p) :: q, m, pj_max =>
    let r := popStep h pjp p q m pj_max
    popEvents h m p ++ sweepEvents h fuel r.1 r.2.1 r.2.2

/-- The statements a run of `resolveTails` executes, in order. -/
def resolveEvents (h : Heap) : List (Int × Ptr) → TreeMap → Int → Int → List Event
  | [], _, _, _ => []
  | pp :: rest, m, pj, nr =>
    Event.push pp.2 :: (sweepEvents h (m.keys.length + 1) [(pj, pp.2)] m 0 ++
      match sweep h (m.keys.length + 1) [(pj, pp.2)] m 0 with
      | none => []
      | some (m1, pj_max) =>
        resolveEvents h rest m1 pj_max (if pj_max > nr then pj_max else nr))

/-- The statements the row resolution of `layout` executes, in order. -/
def layoutEvents (h : Heap) (pointers : List (Ptr × String)) : List Event :=
  match discover h (h.cells.length + 2) pointers {} with
  | none => []
  | some d =>
    if d.last_elements ≠ [] then
      let dp := depthPairs d.last_elements d.tree_nodes
      resolveEvents h (sortDesc dp.1) dp.2 0 0
    else []

/-! ## The rows of the sweeps -/

/-- Consecutive row intervals `(tail, lo, hi)`, each from its `lo` up to but
not including its `hi`, non-empty, the first starting at row `s`, each next
one where the one before it ends, the last ending at row `e`. -/
def Stacked : Int → List (Ptr × Int × Int) → Int → Prop
  | s, [], e => s = e
  | s, x :: xs, e => x.2.1 = s ∧ s < x.2.2 ∧ Stacked x.2.2 xs e

/-- What the sweeps establish about the rows: `iv` lists the tails in the
order of their sweeps, each with the rows `lo, ..., hi - 1` its sweep consumed,
and `N` the nodes popped, the last one first; the statements executed are, up
to their order, one push for each tail and the statements of one iteration of
the sweep for each node. -/
structure RowsOK (h : Heap) (pointers : List (Ptr × String)) (d : Discovery) (l : Layout)
    (iv : List (Ptr × Int × Int)) (N : List Ptr) : Prop where
  order : iv.map (fun x => ((d.tree_nodes.val x.1).i, x.1))
    = sortDesc (depthPairs d.last_elements d.tree_nodes).1
  stacked : Stacked 0 iv l.nr
  seed : ∀ x ∈ iv, (l.tree_nodes.val x.1).j = x.2.1
  own : ∀ k ∈ l.tree_nodes.keys, ∃ x ∈ iv, h.Reach k x.1 ∧ x.2.1 ≤ (l.tree_nodes.val k).j ∧
    (l.tree_nodes.val k).j + (l.tree_nodes.val k).predecessors.length ≤ x.2.2
  top : ∀ x ∈ iv, ∃ k ∈ l.tree_nodes.keys, h.Reach k x.1 ∧
    (l.tree_nodes.val k).j + (l.tree_nodes.val k).predecessors.length = x.2.2
  nodup : N.Nodup
  popped : ∀ k, k ∈ N ↔ k ∈ l.tree_nodes.keys
  events : List.Perm (layoutEvents h pointers)
    (d.last_elements.map Event.push ++ l.tree_nodes.keys.flatMap (popEvents h l.tree_nodes))

/-- Two chains with a tail each: `B` at `0x1010` before the tail `A` at
`0x1000`, and `E` at `0x1040` before `D` at `0x1030` before the tail `C` at
`0x1020`. -/
def stackHeap : Heap :=
  ⟨[(0x1000, ⟨"A", 0⟩), (0x1010, ⟨"B", 0x1000⟩), (0x1020, ⟨"C", 0⟩),
    (0x1030, ⟨"D", 0x1020⟩), (0x1040, ⟨"E", 0x1030⟩)]⟩

/-- Pointers into `stackHeap`: `b` to `B`, `e` to `E`, `d` to `D` and a null pointer `z`. -/
def stackPointers : List (Ptr × String) :=
  [(0x1010, "b"), (0x1040, "e"), (0x1030, "d"), (0, "z")]

/-- Pointers into `demoHeap`: `glowa` between two null pointers `x` and `y`. -/
def demoNullPointers : List (Ptr × String) := [(0, "x"), (0x1020, "glowa"), (0, "y")]

/-! ## The points the calls draw -/

/-- The points whose coordinates `drawArrow` writes: the anchor of the address
text, the two ends of the line, the anchor of the label. -/
def arrowPoints (x_start x_end y : Int) : List (Int × Int) :=
  let spacing := x_end - x_start
  [(x_start + spacing.tdiv 2, y + 15), (x_start, y), (x_end, y),
    (x_start + spacing.tdiv 2, y - 10)]

/-- The points whose coordinates `drawPath` writes: the anchor of the address
text, the points of the path, the anchor of the label. -/
def pathPoints (path : List (Int × Int)) : List (Int × Int) :=
  match path.head?, path.getLast? with
  | some front, some back =>
    let spacing := back.1 - front.1
    (front.1 + spacing.tdiv 2, front.2 + 15) :: path
      ++ [(front.1 + spacing.tdiv 2, front.2 - 10)]
  | _, _ => []

/-- The points whose coordinates a call writes; for `drawNode` the two corners
of the rectangle and the anchor of the text, and nothing on a null pointer. -/
def Draw.points : Draw → List (Int × Int)
  | .node x y dataWidth nodeHeight p =>
    if p = 0 then []
    else [(x, y), (x + dataWidth, y + nodeHeight),
      (x + dataWidth.tdiv 2, y + nodeHeight.tdiv 2 + 5)]
  | .tailArrow x_start x_end y _ => arrowPoints x_start x_end y
  | .predArrow x_start x_end y _ _ => arrowPoints x_start x_end y
  | .predPath path _ _ => pathPoints path
  | .nullArrow x_start x_end y _ => arrowPoints x_start x_end y

/-- The memory of `DRAW_LIST_DEMO` at a later time: the three nodes of the list
as they were, and two other nodes allocated since, at `0x2000` and `0x3000`,
that no node of the list points to. -/
def demoHeapLater : Heap :=
  ⟨[(0x2000, ⟨"99", 0x1000⟩), (0x1020, ⟨"10", 0x1010⟩), (0x1010, ⟨"20", 0x1000⟩),
    (0x1000, ⟨"30", 0⟩), (0x3000, ⟨"7", 0⟩)]⟩

/-! ## Sets and maps -/

theorem mem_setInsert {p q : Ptr} {s : List Ptr} : q ∈ setInsert p s ↔ q = p ∨ q ∈ s := by
  unfold setInsert
  split
  · constructor
    · exact Or.inr
    · rintro (rfl | hq) <;> assumption
  · simp [List.mem_orderedInsert]

theorem nodup_setInsert {p : Ptr} {s : List Ptr} (hs : s.Nodup) : (setInsert p s).Nodup := by
  unfold setInsert
  split
  · exact hs
  · rename_i hp
    exact (List.perm_orderedInsert _ _ _).nodup_iff.mpr (List.nodup_cons.mpr ⟨hp, hs⟩)

theorem setInsert_of_mem {p : Ptr} {s : List Ptr} (hp : p ∈ s) : setInsert p s = s := if_pos hp

@[simp] theorem keys_upd (m : TreeMap) (p : Ptr) (f : TreeNode → TreeNode) :
    (m.upd p f).keys = setInsert p m.keys := rfl

theorem val_upd (m : TreeMap) (p q : Ptr) (f : TreeNode → TreeNode) :
    (m.upd p f).val q = if q = p then f (m.val p) else m.val q := by
  simp [TreeMap.upd, Function.update_apply]

@[simp] theorem val_upd_self (m : TreeMap) (p : Ptr) (f : TreeNode → TreeNode) :
    (m.upd p f).val p = f (m.val p) := by simp [val_upd]

theorem val_upd_ne (m : TreeMap) {p q : Ptr} (f : TreeNode → TreeNode) (hq : q ≠ p) :
    (m.upd p f).val q = m.val q := by simp [val_upd, hq]

theorem keys_upd_of_mem (m : TreeMap) {p : Ptr} (f : TreeNode → TreeNode) (hp : p ∈ m.keys) :
    (m.upd p f).keys = m.keys := setInsert_of_mem hp

/-! ## Successor chains -/

@[simp] theorem chain_zero (h : Heap) (p : Ptr) : h.chain 0 p = [] := rfl

@[simp] theorem chain_null (h : Heap) (n : Nat) : h.chain n 0 = [] := by
  cases n <;> simp [Heap.chain]

theorem chain_succ (h : Heap) (n : Nat) {p : Ptr} (hp : p ≠ 0) :
    h.chain (n + 1) p = p :: h.chain n (h.nast p) := by
  simp [Heap.chain, hp]

theorem chain_ne_zero (h : Heap) : ∀ (n : Nat) (p x : Ptr), x ∈ h.chain n p → x ≠ 0
  | 0, _, _, hx => by simp at hx
  | n + 1, p, x, hx => by
    by_cases hp : p = 0
    · subst hp; simp at hx
    · rw [chain_succ h n hp] at hx
      rcases List.mem_cons.mp hx with rfl | hx
      · exact hp
      · exact chain_ne_zero h n _ x hx

theorem reach_refl (h : Heap) {p : Ptr} (hp : p ≠ 0) : h.Reach p p :=
  ⟨1, by simp [chain_succ h 0 hp]⟩

theorem chain_step (h : Heap) : ∀ (n : Nat) (p x : Ptr), x ∈ h.chain n p → h.nast x ≠ 0 →
    h.nast x ∈ h.chain (n + 1) p
  | 0, _, _, hx, _ => by simp at hx
  | n + 1, p, x, hx, hn => by
    by_cases hp : p = 0
    · subst hp; simp at hx
    · rw [chain_succ h n hp] at hx
      rw [chain_succ h (n + 1) hp]
      rcases List.mem_cons.mp hx with rfl | hx
      · rw [chain_succ h n hn]; simp
      · exact List.mem_cons_of_mem _ (chain_step h n _ x hx hn)

theorem reach_step (h : Heap) {p x : Ptr} (hx : h.Reach p x) (hn : h.nast x ≠ 0) :
    h.Reach p (h.nast x) :=
  let ⟨n, hmem⟩ := hx
  ⟨n + 1, chain_step h n p x hmem hn⟩

theorem chain_rank_le (h : Heap) (rank : Ptr → Nat)
    (hr : ∀ p, p ≠ 0 → h.nast p ≠ 0 → rank (h.nast p) < rank p) :
    ∀ (n : Nat) (p x : Ptr), x ∈ h.chain n p → rank x ≤ rank p
  | 0, _, _, hx => by simp at hx
  | n + 1, p, x, hx => by
    by_cases hp : p = 0
    · subst hp; simp at hx
    · rw [chain_succ h n hp] at hx
      rcases List.mem_cons.mp hx with rfl | hx
      · exact le_refl _
      · have hq : h.nast p ≠ 0 := by
          intro h0; rw [h0] at hx; simp at hx
        exact le_trans (chain_rank_le h rank hr n _ x hx) (le_of_lt (hr p hp hq))

theorem chain_nodup (h : Heap) (rank : Ptr → Nat)
    (hr : ∀ p, p ≠ 0 → h.nast p ≠ 0 → rank (h.nast p) < rank p) :
    ∀ (n : Nat) (p : Ptr), (h.chain n p).Nodup
  | 0, _ => by simp
  | n + 1, p => by
    by_cases hp : p = 0
    · subst hp; simp
    · rw [chain_succ h n hp]
      refine List.nodup_cons.mpr ⟨?_, chain_nodup h rank hr n _⟩
      intro hmem
      have hq : h.nast p ≠ 0 := by
        intro h0; rw [h0] at hmem; simp at hmem
      have h1 := chain_rank_le h rank hr n _ p hmem
      have h2 := hr p hp hq
      omega

theorem nast_eq_zero_of_not_cell (h : Heap) {p : Ptr} (hp : p ∉ h.cells.map Prod.fst) :
    h.nast p = 0 := by
  have : h.cells.lookup p = none := by
    rw [List.lookup_eq_none_iff]
    intro a ha
    simp only [bne_iff_ne, ne_eq]
    intro hpa
    apply hp
    exact List.mem_map.mpr ⟨a, ha, hpa.symm⟩
  simp [Heap.nast, Heap.deref, this]

theorem chain_dropLast_cells (h : Heap) : ∀ (n : Nat) (p x : Ptr),
    x ∈ (h.chain n p).dropLast → x ∈ h.cells.map Prod.fst
  | 0, _, _, hx => by simp at hx
  | n + 1, p, x, hx => by
    by_cases hp : p = 0
    · subst hp; simp at hx
    · rw [chain_succ h n hp] at hx
      by_cases hq : h.chain n (h.nast p) = []
      · rw [hq] at hx; simp at hx
      · obtain ⟨y, ys, hys⟩ := List.exists_cons_of_ne_nil hq
        rw [hys, List.dropLast_cons₂] at hx
        rcases List.mem_cons.mp hx with rfl | hx
        · by_contra hc
          have h0 := nast_eq_zero_of_not_cell h hc
          rw [h0] at hq; simp at hq
        · rw [← hys] at hx
          exact chain_dropLast_cells h n _ x hx

theorem chain_length_le (h : Heap) (hac : h.Acyclic) (n : Nat) (p : Ptr) :
    (h.chain n p).length ≤ h.cells.length + 1 := by
  obtain ⟨rank, hr⟩ := hac
  have hnd : (h.chain n p).dropLast.Nodup :=
    (chain_nodup h rank hr n p).sublist (List.dropLast_sublist _)
  have hsub : (h.chain n p).dropLast ⊆ h.cells.map Prod.fst :=
    fun x hx => chain_dropLast_cells h n p x hx
  have hle := (List.subperm_of_subset hnd hsub).length_le
  simp only [List.length_dropLast, List.length_map] at hle
  omega

/-! ## Invariants of the discovery -/

theorem srcs_addPredecessorUnique (t : TreeNode) (e : Edge) :
    (t.addPredecessorUnique e).srcs
      = if e.from_ ∈ t.srcs then t.srcs else t.srcs ++ [e.from_] := by
  unfold TreeNode.addPredecessorUnique TreeNode.srcs
  by_cases hmem : e.from_ ∈ t.predecessors.map (·.from_)
  · have hany : (t.predecessors.any fun pred => pred.from_ == e.from_) = true := by
      rw [List.any_eq_true]
      obtain ⟨x, hx, hxe⟩ := List.mem_map.mp hmem
      exact ⟨x, hx, by simpa using hxe⟩
    simp [hany, hmem]
  · have hany : (t.predecessors.any fun pred => pred.from_ == e.from_) = false := by
      rw [Bool.eq_false_iff]
      intro hc
      rw [List.any_eq_true] at hc
      obtain ⟨x, hx, hxe⟩ := hc
      exact hmem (List.mem_map.mpr ⟨x, hx, by simpa using hxe⟩)
    simp [hany, hmem]

theorem walkStep_tail (h : Heap) (p : Ptr) (i : Int) (st : Discovery) (hn : h.nast p = 0) :
    walkStep h p i st = { st with last_elements := setInsert p st.last_elements } := by
  simp [walkStep, hn]

theorem walkStep_keys (h : Heap) (p : Ptr) (i : Int) (st : Discovery) (hn : h.nast p ≠ 0) :
    (walkStep h p i st).tree_nodes.keys = setInsert (h.nast p) st.tree_nodes.keys := by
  have hidem : ∀ s : List Ptr, setInsert (h.nast p) (setInsert (h.nast p) s)
      = setInsert (h.nast p) s :=
    fun s => setInsert_of_mem (mem_setInsert.mpr (Or.inl rfl))
  simp only [walkStep, hn, ne_eq, not_false_eq_true, if_true]
  split <;> split <;> simp [TreeMap.touch, hidem]

theorem walkStep_val_ne (h : Heap) (p : Ptr) (i : Int) (st : Discovery) {q : Ptr}
    (hq : q ≠ h.nast p) :
    (walkStep h p i st).tree_nodes.val q = st.tree_nodes.val q := by
  by_cases hn : h.nast p = 0
  · rw [walkStep_tail h p i st hn]
  · simp only [walkStep, hn, ne_eq, not_false_eq_true, if_true]
    split <;> split <;> simp [TreeMap.touch, val_upd_ne _ _ hq]

theorem walkStep_val_self (h : Heap) (p : Ptr) (i : Int) (st : Discovery) (hn : h.nast p ≠ 0) :
    (walkStep h p i st).tree_nodes.val (h.nast p)
      = TreeNode.addPredecessorUnique
          { predecessors := (st.tree_nodes.val (h.nast p)).predecessors
            p := h.nast p
            i := if i + 1 > (st.tree_nodes.val (h.nast p)).i then i + 1
                 else (st.tree_nodes.val (h.nast p)).i
            j := (st.tree_nodes.val (h.nast p)).j }
          ⟨p, h.nast p, "nast", 0⟩ := by
  simp only [walkStep, hn, ne_eq, not_false_eq_true, if_true]
  split <;> split <;> rename_i h1 h2 <;>
    simp only [TreeMap.entry, val_upd_self] at h2 <;>
    simp [TreeMap.touch, h2]

theorem walkStep_srcs (h : Heap) (p : Ptr) (i : Int) (st : Discovery) (hn : h.nast p ≠ 0) :
    (walkStep h p i st).tree_nodes.srcs (h.nast p)
      = if p ∈ st.tree_nodes.srcs (h.nast p) then st.tree_nodes.srcs (h.nast p)
        else st.tree_nodes.srcs (h.nast p) ++ [p] := by
  unfold TreeMap.srcs
  rw [walkStep_val_self h p i st hn, srcs_addPredecessorUnique]
  rfl

theorem walkStep_last (h : Heap) (p : Ptr) (i : Int) (st : Discovery) (hn : h.nast p ≠ 0) :
    (walkStep h p i st).last_elements = st.last_elements := by
  simp only [walkStep, hn, ne_eq, not_false_eq_true, if_true]
  split <;> rfl

theorem walkStep_nulls (h : Heap) (p : Ptr) (i : Int) (st : Discovery) :
    (walkStep h p i st).null_pointers = st.null_pointers := by
  unfold walkStep
  simp only
  split
  · split <;> rfl
  · rfl

theorem dinv_init (h : Heap) : DInv h [] 0 {} where
  keys_nodup := List.nodup_nil
  key_ne := fun k hk => by cases hk
  cur_key := fun hc => absurd rfl hc
  closed := fun k hk => by cases hk
  src_ok := fun n f hf => by simp [TreeMap.srcs, TreeNode.srcs] at hf
  src_nodup := fun n => by simp [TreeMap.srcs, TreeNode.srcs]
  src_ne := fun k hk => by cases hk
  tails_nodup := List.nodup_nil
  tails_ok := fun t ht => by cases ht
  tails_all := fun k hk => by cases hk
  reach := fun k hk => by cases hk
  roots := fun pp hpp => by cases hpp
  nulls := rfl
  root_count := fun n _ => by simp [TreeMap.srcs, TreeNode.srcs]

theorem dinv_walkStep (h : Heap) (R : List (Ptr × String)) (p : Ptr) (i : Int) (st : Discovery)
    (hp : p ≠ 0) (inv : DInv h R p st) : DInv h R (h.nast p) (walkStep h p i st) := by
  by_cases hn : h.nast p = 0
  · rw [walkStep_tail h p i st hn, hn]
    exact {
      keys_nodup := inv.keys_nodup
      key_ne := inv.key_ne
      cur_key := fun hc => absurd rfl hc
      closed := fun k hk _ hk0 => inv.closed k hk (fun hkp => hk0 (hkp ▸ hn)) hk0
      src_ok := inv.src_ok
      src_nodup := inv.src_nodup
      src_ne := inv.src_ne
      tails_nodup := nodup_setInsert inv.tails_nodup
      tails_ok := fun t ht => by
        rcases mem_setInsert.mp ht with rfl | ht
        · exact ⟨inv.cur_key hp, hn⟩
        · exact inv.tails_ok t ht
      tails_all := fun k hk _ hk0 => by
        by_cases hkp : k = p
        · exact mem_setInsert.mpr (Or.inl hkp)
        · exact mem_setInsert.mpr (Or.inr (inv.tails_all k hk hkp hk0))
      reach := inv.reach
      roots := inv.roots
      nulls := inv.nulls
      root_count := inv.root_count }
  · have hkeys := walkStep_keys h p i st hn
    have hsrcs := walkStep_srcs h p i st hn
    have hval : ∀ q, q ≠ h.nast p →
        (walkStep h p i st).tree_nodes.srcs q = st.tree_nodes.srcs q := fun q hq => by
      unfold TreeMap.srcs; rw [walkStep_val_ne h p i st hq]
    have hmono : ∀ q f, f ∈ st.tree_nodes.srcs q → f ∈ (walkStep h p i st).tree_nodes.srcs q := by
      intro q f hf
      by_cases hq : q = h.nast p
      · subst hq; rw [hsrcs]; split
        · exact hf
        · exact List.mem_append_left _ hf
      · rw [hval q hq]; exact hf
    have hkmono : ∀ k, k ∈ st.tree_nodes.keys → k ∈ (walkStep h p i st).tree_nodes.keys :=
      fun k hk => by rw [hkeys]; exact mem_setInsert.mpr (Or.inr hk)
    have hpsrc : p ∈ (walkStep h p i st).tree_nodes.srcs (h.nast p) := by
      rw [hsrcs]; split
      · assumption
      · simp
    exact {
      keys_nodup := by rw [hkeys]; exact nodup_setInsert inv.keys_nodup
      key_ne := fun k hk => by
        rw [hkeys] at hk
        rcases mem_setInsert.mp hk with rfl | hk
        · exact hn
        · exact inv.key_ne k hk
      cur_key := fun _ => by rw [hkeys]; exact mem_setInsert.mpr (Or.inl rfl)
      closed := fun k hk hkn hk0 => by
        rw [hkeys] at hk
        rcases mem_setInsert.mp hk with hk | hk
        · exact absurd hk hkn
        · by_cases hkp : k = p
          · subst hkp
            exact ⟨by rw [hkeys]; exact mem_setInsert.mpr (Or.inl rfl), hpsrc⟩
          · obtain ⟨h1, h2⟩ := inv.closed k hk hkp hk0
            exact ⟨hkmono _ h1, hmono _ _ h2⟩
      src_ok := fun n f hf hf0 => by
        by_cases hq : n = h.nast p
        · subst hq
          rw [hsrcs] at hf
          split at hf
          · obtain ⟨h1, h2⟩ := inv.src_ok _ f hf hf0
            exact ⟨h1, hkmono _ h2⟩
          · rcases List.mem_append.mp hf with hf | hf
            · obtain ⟨h1, h2⟩ := inv.src_ok _ f hf hf0
              exact ⟨h1, hkmono _ h2⟩
            · rw [List.mem_singleton] at hf
              subst hf
              exact ⟨rfl, hkmono _ (inv.cur_key hp)⟩
        · rw [hval n hq] at hf
          obtain ⟨h1, h2⟩ := inv.src_ok _ f hf hf0
          exact ⟨h1, hkmono _ h2⟩
      src_nodup := fun n => by
        by_cases hq : n = h.nast p
        · subst hq
          rw [hsrcs]
          split
          · exact inv.src_nodup _
          · rename_i hnot
            rw [List.filter_append]
            have : List.filter (fun x => decide (x ≠ 0)) [p] = [p] := by simp [hp]
            rw [this]
            refine List.Nodup.append (inv.src_nodup _) (List.nodup_singleton p) ?_
            intro x hx hx'
            rw [List.mem_singleton] at hx'
            subst hx'
            exact hnot (List.mem_of_mem_filter hx)
        · rw [hval n hq]; exact inv.src_nodup n
      src_ne := fun k hk => by
        by_cases hq : k = h.nast p
        · subst hq
          exact List.ne_nil_of_mem hpsrc
        · rw [hval k hq]
          rw [hkeys] at hk
          rcases mem_setInsert.mp hk with hk | hk
          · exact absurd hk hq
          · exact inv.src_ne k hk
      tails_nodup := by rw [walkStep_last h p i st hn]; exact inv.tails_nodup
      tails_ok := fun t ht => by
        rw [walkStep_last h p i st hn] at ht
        exact ⟨hkmono _ (inv.tails_ok t ht).1, (inv.tails_ok t ht).2⟩
      tails_all := fun k hk hkn hk0 => by
        rw [walkStep_last h p i st hn]
        rw [hkeys] at hk
        rcases mem_setInsert.mp hk with hk | hk
        · exact absurd hk hkn
        · exact inv.tails_all k hk (fun hkp => hn (hkp ▸ hk0)) hk0
      reach := fun k hk => by
        rw [hkeys] at hk
        rcases mem_setInsert.mp hk with hk | hk
        · subst hk
          obtain ⟨pp, hpp, hpp0, hr⟩ := inv.reach p (inv.cur_key hp)
          exact ⟨pp, hpp, hpp0, reach_step h hr hn⟩
        · exact inv.reach k hk
      roots := fun pp hpp hpp0 => hkmono _ (inv.roots pp hpp hpp0)
      nulls := by rw [walkStep_nulls]; exact inv.nulls
      root_count := fun n hn0 => by
        by_cases hq : n = h.nast p
        · subst hq
          rw [hsrcs]
          split
          · exact inv.root_count _ hn0
          · rw [List.count_append, List.count_singleton]
            simp only [beq_iff_eq, hp, if_false, Nat.add_zero]
            exact inv.root_count _ hn0
        · rw [hval n hq]; exact inv.root_count n hn0 }

theorem dinv_walk (h : Heap) (R : List (Ptr × String)) :
    ∀ (fuel : Nat) (p : Ptr) (i : Int) (st st' : Discovery),
      DInv h R p st → walk h fuel p i st = some st' → DInv h R 0 st'
  | 0, p, i, st, st', inv, hw => by
    unfold walk at hw
    split at hw
    · rename_i hp; subst hp
      cases hw; exact inv
    · cases hw
  | fuel + 1, p, i, st, st', inv, hw => by
    unfold walk at hw
    split at hw
    · rename_i hp; subst hp
      cases hw; exact inv
    · rename_i hp
      exact dinv_walk h R fuel _ _ _ st' (dinv_walkStep h R p i st hp inv) hw

theorem discoverRoot_null (h : Heap) (fuel : Nat) (st : Discovery) (pp : Ptr × String)
    (hp : pp.1 = 0) :
    discoverRoot h fuel st pp = some { st with null_pointers := st.null_pointers ++ [pp] } := by
  simp [discoverRoot, hp]

theorem discoverRoot_node (h : Heap) (fuel : Nat) (st : Discovery) (pp : Ptr × String)
    (hp : pp.1 ≠ 0) :
    discoverRoot h fuel st pp = walk h fuel pp.1 0 (rootInit st pp) := by
  simp [discoverRoot, hp, rootInit]

theorem rootInit_keys (st : Discovery) (pp : Ptr × String) :
    (rootInit st pp).tree_nodes.keys = setInsert pp.1 st.tree_nodes.keys := by
  have hidem : ∀ s : List Ptr, setInsert pp.1 (setInsert pp.1 s) = setInsert pp.1 s :=
    fun s => setInsert_of_mem (mem_setInsert.mpr (Or.inl rfl))
  unfold rootInit
  simp only
  split <;> simp [hidem]

theorem rootInit_val_ne (st : Discovery) (pp : Ptr × String) {q : Ptr} (hq : q ≠ pp.1) :
    (rootInit st pp).tree_nodes.val q = st.tree_nodes.val q := by
  unfold rootInit
  simp only
  split <;> simp [val_upd_ne _ _ hq]

theorem rootInit_val_self (st : Discovery) (pp : Ptr × String) :
    (rootInit st pp).tree_nodes.val pp.1
      = { predecessors := (st.tree_nodes.val pp.1).predecessors ++ [⟨0, pp.1, pp.2, 0⟩]
          p := pp.1
          i := (st.tree_nodes.val pp.1).i
          j := (st.tree_nodes.val pp.1).j } := by
  unfold rootInit
  simp only
  split <;> simp

theorem rootInit_last (st : Discovery) (pp : Ptr × String) :
    (rootInit st pp).last_elements = st.last_elements := by
  unfold rootInit
  simp only
  split <;> rfl

theorem rootInit_nulls (st : Discovery) (pp : Ptr × String) :
    (rootInit st pp).null_pointers = st.null_pointers := by
  unfold rootInit
  simp only
  split <;> rfl

theorem dinv_rootInit (h : Heap) (R : List (Ptr × String)) (st : Discovery) (pp : Ptr × String)
    (hp : pp.1 ≠ 0) (inv : DInv h R 0 st) : DInv h (R ++ [pp]) pp.1 (rootInit st pp) := by
  have hkeys := rootInit_keys st pp
  have hself : (rootInit st pp).tree_nodes.srcs pp.1 = st.tree_nodes.srcs pp.1 ++ [0] := by
    unfold TreeMap.srcs; rw [rootInit_val_self]; simp [TreeNode.srcs]
  have hval : ∀ q, q ≠ pp.1 → (rootInit st pp).tree_nodes.srcs q = st.tree_nodes.srcs q :=
    fun q hq => by unfold TreeMap.srcs; rw [rootInit_val_ne st pp hq]
  have hmono : ∀ q f, f ∈ st.tree_nodes.srcs q → f ∈ (rootInit st pp).tree_nodes.srcs q := by
    intro q f hf
    by_cases hq : q = pp.1
    · subst hq; rw [hself]; exact List.mem_append_left _ hf
    · rw [hval q hq]; exact hf
  have hkmono : ∀ k, k ∈ st.tree_nodes.keys → k ∈ (rootInit st pp).tree_nodes.keys :=
    fun k hk => by rw [hkeys]; exact mem_setInsert.mpr (Or.inr hk)
  have hold : ∀ n f, f ∈ (rootInit st pp).tree_nodes.srcs n → f ≠ 0 → f ∈ st.tree_nodes.srcs n := by
    intro n f hf hf0
    by_cases hq : n = pp.1
    · subst hq
      rw [hself] at hf
      rcases List.mem_append.mp hf with hf | hf
      · exact hf
      · rw [List.mem_singleton] at hf; exact absurd hf hf0
    · rw [hval n hq] at hf; exact hf
  exact {
    keys_nodup := by rw [hkeys]; exact nodup_setInsert inv.keys_nodup
    key_ne := fun k hk => by
      rw [hkeys] at hk
      rcases mem_setInsert.mp hk with rfl | hk
      · exact hp
      · exact inv.key_ne k hk
    cur_key := fun _ => by rw [hkeys]; exact mem_setInsert.mpr (Or.inl rfl)
    closed := fun k hk hkn hk0 => by
      rw [hkeys] at hk
      rcases mem_setInsert.mp hk with hk | hk
      · exact absurd hk hkn
      · obtain ⟨h1, h2⟩ := inv.closed k hk (inv.key_ne k hk) hk0
        exact ⟨hkmono _ h1, hmono _ _ h2⟩
    src_ok := fun n f hf hf0 => by
      obtain ⟨h1, h2⟩ := inv.src_ok n f (hold n f hf hf0) hf0
      exact ⟨h1, hkmono _ h2⟩
    src_nodup := fun n => by
      by_cases hq : n = pp.1
      · subst hq
        rw [hself, List.filter_append]
        simpa using inv.src_nodup _
      · rw [hval n hq]; exact inv.src_nodup n
    src_ne := fun k hk => by
      by_cases hq : k = pp.1
      · subst hq; rw [hself]; simp
      · rw [hval k hq]
        rw [hkeys] at hk
        rcases mem_setInsert.mp hk with hk | hk
        · exact absurd hk hq
        · exact inv.src_ne k hk
    tails_nodup := by rw [rootInit_last]; exact inv.tails_nodup
    tails_ok := fun t ht => by
      rw [rootInit_last] at ht
      exact ⟨hkmono _ (inv.tails_ok t ht).1, (inv.tails_ok t ht).2⟩
    tails_all := fun k hk hkn hk0 => by
      rw [rootInit_last]
      rw [hkeys] at hk
      rcases mem_setInsert.mp hk with hk | hk
      · exact absurd hk hkn
      · exact inv.tails_all k hk (inv.key_ne k hk) hk0
    reach := fun k hk => by
      rw [hkeys] at hk
      rcases mem_setInsert.mp hk with hk | hk
      · subst hk
        exact ⟨pp, List.mem_append_right _ (List.mem_singleton.mpr rfl), hp, reach_refl h hp⟩
      · obtain ⟨r, hr, hr0, hreach⟩ := inv.reach k hk
        exact ⟨r, List.mem_append_left _ hr, hr0, hreach⟩
    roots := fun r hr hr0 => by
      rcases List.mem_append.mp hr with hr | hr
      · exact hkmono _ (inv.roots r hr hr0)
      · rw [List.mem_singleton] at hr
        subst hr
        rw [hkeys]; exact mem_setInsert.mpr (Or.inl rfl)
    nulls := by
      rw [rootInit_nulls, List.filter_append, inv.nulls]
      simp [hp]
    root_count := fun n hn0 => by
      by_cases hq : n = pp.1
      · subst hq
        rw [hself, List.count_append, List.filter_append, List.length_append,
          inv.root_count _ hn0]
        simp
      · rw [hval n hq, List.filter_append, List.length_append, inv.root_count n hn0]
        have : ¬ pp.1 = n := fun hc => hq hc.symm
        simp [this] }

theorem dinv_discoverRoot (h : Heap) (fuel : Nat) (R : List (Ptr × String)) (st st' : Discovery)
    (pp : Ptr × String) (inv : DInv h R 0 st) (hd : discoverRoot h fuel st pp = some st') :
    DInv h (R ++ [pp]) 0 st' := by
  by_cases hp : pp.1 = 0
  · rw [discoverRoot_null h fuel st pp hp] at hd
    cases hd
    exact {
      keys_nodup := inv.keys_nodup
      key_ne := inv.key_ne
      cur_key := inv.cur_key
      closed := inv.closed
      src_ok := inv.src_ok
      src_nodup := inv.src_nodup
      src_ne := inv.src_ne
      tails_nodup := inv.tails_nodup
      tails_ok := inv.tails_ok
      tails_all := inv.tails_all
      reach := fun k hk => by
        obtain ⟨r, hr, hr0, hreach⟩ := inv.reach k hk
        exact ⟨r, List.mem_append_left _ hr, hr0, hreach⟩
      roots := fun r hr hr0 => by
        rcases List.mem_append.mp hr with hr | hr
        · exact inv.roots r hr hr0
        · rw [List.mem_singleton] at hr
          subst hr
          exact absurd hp hr0
      nulls := by
        show st.null_pointers ++ [pp] = _
        rw [List.filter_append, inv.nulls]
        simp [hp]
      root_count := fun n hn0 => by
        rw [List.filter_append, List.length_append, inv.root_count n hn0]
        have : ¬ pp.1 = n := fun hc => hn0 (hc ▸ hp)
        simp [this] }
  · rw [discoverRoot_node h fuel st pp hp] at hd
    exact dinv_walk h _ fuel _ _ _ st' (dinv_rootInit h R st pp hp inv) hd

theorem dinv_discover (h : Heap) (fuel : Nat) :
    ∀ (pointers R : List (Ptr × String)) (st st' : Discovery),
      DInv h R 0 st → discover h fuel pointers st = some st' → DInv h (R ++ pointers) 0 st'
  | [], R, st, st', inv, hd => by
    simp only [discover, Option.some.injEq] at hd
    subst hd
    simpa using inv
  | pp :: rest, R, st, st', inv, hd => by
    simp only [discover] at hd
    cases hr : discoverRoot h fuel st pp with
    | none => rw [hr] at hd; cases hd
    | some st1 =>
      rw [hr] at hd
      have := dinv_discover h fuel rest (R ++ [pp]) st1 st' (dinv_discoverRoot h fuel R st st1 pp inv hr) hd
      simpa using this

/-! ## The discovery terminates -/

theorem walk_some (h : Heap) :
    ∀ (fuel : Nat) (p : Ptr) (i : Int) (st : Discovery),
      (h.chain (fuel + 1) p).length ≤ fuel → ∃ st', walk h fuel p i st = some st'
  | 0, p, i, st, hl => by
    by_cases hp : p = 0
    · exact ⟨st, by simp [walk, hp]⟩
    · rw [chain_succ h 0 hp] at hl; simp at hl
  | fuel + 1, p, i, st, hl => by
    by_cases hp : p = 0
    · exact ⟨st, by simp [walk, hp]⟩
    · rw [chain_succ h (fuel + 1) hp] at hl
      have hl' : (h.chain (fuel + 1) (h.nast p)).length ≤ fuel := by
        simp only [List.length_cons] at hl; omega
      obtain ⟨st', hst'⟩ := walk_some h fuel (h.nast p) (i + 1) (walkStep h p i st) hl'
      exact ⟨st', by simp only [walk, hp, if_false]; exact hst'⟩

theorem discoverRoot_some (h : Heap) (hac : h.Acyclic) (st : Discovery) (pp : Ptr × String) :
    ∃ st', discoverRoot h (h.cells.length + 2) st pp = some st' := by
  by_cases hp : pp.1 = 0
  · exact ⟨_, discoverRoot_null h _ st pp hp⟩
  · rw [discoverRoot_node h _ st pp hp]
    apply walk_some
    have := chain_length_le h hac (h.cells.length + 2 + 1) pp.1
    omega

theorem discover_some (h : Heap) (hac : h.Acyclic) :
    ∀ (pointers : List (Ptr × String)) (st : Discovery),
      ∃ st', discover h (h.cells.length + 2) pointers st = some st'
  | [], st => ⟨st, rfl⟩
  | pp :: rest, st => by
    obtain ⟨st1, h1⟩ := discoverRoot_some h hac st pp
    obtain ⟨st2, h2⟩ := discover_some h hac rest st1
    exact ⟨st2, by simp [discover, h1, h2]⟩

/-! ## Row resolution: the loop over the predecessors -/

theorem assignRows_skel : ∀ (es : List Edge) (r : Int) (q : Queue),
    (assignRows es r q).1.map Edge.skel = es.map Edge.skel
  | [], _, _ => rfl
  | e :: es, r, q => by
    simp only [assignRows, List.map_cons]
    rw [assignRows_skel es]
    rfl

theorem assignRows_srcs (es : List Edge) (r : Int) (q : Queue) :
    (assignRows es r q).1.map (·.from_) = es.map (·.from_) := by
  have := congrArg (List.map (·.from_)) (assignRows_skel es r q)
  simpa [List.map_map, Function.comp_def, Edge.skel] using this

theorem assignRows_rows : ∀ (es : List Edge) (r : Int) (q : Queue) (k : Nat) (e : Edge),
    (assignRows es r q).1[k]? = some e → e.j = r + k
  | [], _, _, k, e, hk => by simp [assignRows] at hk
  | e0 :: es, r, q, 0, e, hk => by
    simp only [assignRows, List.getElem?_cons_zero, Option.some.injEq] at hk
    subst hk; simp
  | e0 :: es, r, q, k + 1, e, hk => by
    simp only [assignRows, List.getElem?_cons_succ] at hk
    have := assignRows_rows es (r + 1) _ k e hk
    rw [this]; push_cast; ring

theorem assignRows_count : ∀ (es : List Edge) (r : Int) (q : Queue),
    (assignRows es r q).2.1 = r + es.length
  | [], _, _ => by simp [assignRows]
  | e :: es, r, q => by
    simp only [assignRows, List.length_cons]
    rw [assignRows_count es]; push_cast; ring

theorem assignRows_queue : ∀ (es : List Edge) (r : Int) (q : Queue),
    List.Perm (assignRows es r q).2.2 (pushed es r ++ q)
  | [], _, _ => by simp [assignRows, pushed]
  | e :: es, r, q => by
    simp only [assignRows, pushed]
    refine (assignRows_queue es (r + 1) _).trans ?_
    by_cases he : e.from_ = 0
    · simp [he]
    · simp only [ne_eq, he, not_false_eq_true, if_true, Queue.push]
      refine (List.Perm.append_left _ (List.perm_orderedInsert _ _ _)).trans ?_
      simp only [List.singleton_append]
      exact List.perm_middle

theorem pushed_snd : ∀ (es : List Edge) (r : Int),
    (pushed es r).map Prod.snd = (es.map (·.from_)).filter (· ≠ 0)
  | [], _ => rfl
  | e :: es, r => by
    simp only [pushed, List.map_append, List.map_cons, List.filter_cons]
    rw [pushed_snd es]
    by_cases he : e.from_ = 0 <;> simp [he]

theorem pushed_edge : ∀ (es : List Edge) (r : Int) (q : Queue) (x : Int × Ptr),
    x ∈ pushed es r → ∃ e ∈ (assignRows es r q).1, e.from_ = x.2 ∧ e.j = x.1
  | [], _, _, x, hx => by simp [pushed] at hx
  | e :: es, r, q, x, hx => by
    simp only [pushed] at hx
    rcases List.mem_append.mp hx with hx | hx
    · by_cases he : e.from_ = 0
      · simp [he] at hx
      · simp only [ne_eq, he, not_false_eq_true, if_true, List.mem_singleton] at hx
        subst hx
        exact ⟨{ e with j := r }, by simp [assignRows], rfl, rfl⟩
    · obtain ⟨e', he', h1, h2⟩ := pushed_edge es (r + 1) _ x hx
      exact ⟨e', by simp only [assignRows]; exact List.mem_cons_of_mem _ he', h1, h2⟩

/-! ## Row resolution: one iteration of the sweep -/

theorem touch_of_mem (m : TreeMap) {p : Ptr} (hp : p ∈ m.keys) : m.touch p = m := by
  unfold TreeMap.touch TreeMap.upd
  cases m with
  | mk keys val =>
    simp only [id, Function.update_eq_self]
    congr 1
    exact setInsert_of_mem hp

@[simp] theorem val_touch (m : TreeMap) (p q : Ptr) : (m.touch p).val q = m.val q := by
  unfold TreeMap.touch
  rw [val_upd]
  split
  · rename_i hq; subst hq; rfl
  · rfl

@[simp] theorem keys_touch (m : TreeMap) (p : Ptr) : (m.touch p).keys = setInsert p m.keys := rfl

theorem popStep_queue (h : Heap) (pjp : Int) (p : Ptr) (q : Queue) (m : TreeMap) (pj_max : Int)
    :
    (popStep h pjp p q m pj_max).1 = (assignRows (m.val p).predecessors pjp q).2.2 := by
  unfold popStep
  simp only [TreeMap.entry]
  split <;> simp

theorem popStep_max (h : Heap) (pjp : Int) (p : Ptr) (q : Queue) (m : TreeMap) (pj_max : Int) :
    (popStep h pjp p q m pj_max).2.2
      = if pjp + (m.val p).predecessors.length > pj_max then pjp + (m.val p).predecessors.length
        else pj_max := by
  unfold popStep
  simp only [TreeMap.entry, assignRows_count]
  split <;> simp

theorem popStep_keys (h : Heap) (pjp : Int) (p : Ptr) (q : Queue) (m : TreeMap) (pj_max : Int)
    (hp : p ∈ m.keys) (hn : h.nast p ≠ 0 → h.nast p ∈ m.keys) :
    (popStep h pjp p q m pj_max).2.1.keys = m.keys := by
  unfold popStep
  simp only [keys_upd]
  split
  · rename_i h0
    simp [TreeMap.touch, setInsert_of_mem hp, setInsert_of_mem (hn h0)]
  · simp [setInsert_of_mem hp]

theorem popStep_val_ne (h : Heap) (pjp : Int) (p : Ptr) (q : Queue) (m : TreeMap) (pj_max : Int)
    {x : Ptr} (hx : x ≠ p) :
    (popStep h pjp p q m pj_max).2.1.val x = m.val x := by
  unfold popStep
  simp only [val_upd_ne _ _ hx]
  split
  · simp [val_upd_ne _ _ hx]
  · simp [val_upd_ne _ _ hx]

theorem popStep_val_self (h : Heap) (pjp : Int) (p : Ptr) (q : Queue) (m : TreeMap) (pj_max : Int)
    (hnp : h.nast p ≠ p) :
    (popStep h pjp p q m pj_max).2.1.val p
      = { predecessors := (assignRows (m.val p).predecessors pjp q).1
          p := (m.val p).p
          i := if h.nast p ≠ 0 then (m.val (h.nast p)).i - 1 else (m.val p).i
          j := pjp } := by
  unfold popStep
  simp only [TreeMap.entry]
  split <;> simp [val_upd_ne _ _ hnp]

/-! ## Row resolution: invariants of the sweep -/

theorem DInv.graph {h : Heap} {R : List (Ptr × String)} {st : Discovery} (inv : DInv h R 0 st) :
    Graph h st.tree_nodes where
  keys_nodup := inv.keys_nodup
  key_ne := inv.key_ne
  closed := fun k hk => inv.closed k hk (inv.key_ne k hk)
  src_ok := inv.src_ok
  src_nodup := inv.src_nodup
  src_ne := inv.src_ne

theorem Same.refl (h : Heap) (m : TreeMap) : Same h m m :=
  ⟨rfl, fun _ => rfl, fun _ => rfl, fun _ _ => rfl⟩

theorem Same.trans {h : Heap} {m1 m2 m3 : TreeMap} (a : Same h m1 m2) (b : Same h m2 m3) :
    Same h m1 m3 :=
  ⟨b.keys.trans a.keys, fun n => (b.skel n).trans (a.skel n),
    fun n => (b.pfield n).trans (a.pfield n), fun n hn => (b.tail_i n hn).trans (a.tail_i n hn)⟩

theorem Same.srcs {h : Heap} {m m' : TreeMap} (s : Same h m m') (n : Ptr) :
    m'.srcs n = m.srcs n := by
  have := congrArg (List.map (·.from_)) (s.skel n)
  simpa [TreeMap.srcs, TreeNode.srcs, List.map_map, Function.comp_def, Edge.skel] using this

theorem Same.length {h : Heap} {m m' : TreeMap} (s : Same h m m') (n : Ptr) :
    (m'.val n).predecessors.length = (m.val n).predecessors.length := by
  have := congrArg List.length (s.skel n)
  simpa using this

theorem Graph.same {h : Heap} {m m' : TreeMap} (g : Graph h m) (s : Same h m m') :
    Graph h m' where
  keys_nodup := by rw [s.keys]; exact g.keys_nodup
  key_ne := by rw [s.keys]; exact g.key_ne
  closed := fun k hk hn => by
    rw [s.keys] at hk ⊢
    rw [s.srcs]
    exact g.closed k hk hn
  src_ok := fun n f hf hf0 => by
    rw [s.srcs] at hf
    rw [s.keys]
    exact g.src_ok n f hf hf0
  src_nodup := fun n => by rw [s.srcs]; exact g.src_nodup n
  src_ne := fun k hk => by
    rw [s.keys] at hk
    rw [s.srcs]
    exact g.src_ne k hk

theorem popStep_same (h : Heap) (pjp : Int) (p : Ptr) (q : Queue) (m : TreeMap) (pj_max : Int)
    (g : Graph h m) (hp : p ∈ m.keys) (hnp : h.nast p ≠ p) :
    Same h m (popStep h pjp p q m pj_max).2.1 where
  keys := popStep_keys h pjp p q m pj_max hp (fun hn => (g.closed p hp hn).1)
  skel := fun n => by
    by_cases hn : n = p
    · subst hn
      rw [popStep_val_self h pjp n q m pj_max hnp]
      exact assignRows_skel _ _ _
    · rw [popStep_val_ne h pjp p q m pj_max hn]
  pfield := fun n => by
    by_cases hn : n = p
    · subst hn
      rw [popStep_val_self h pjp n q m pj_max hnp]
    · rw [popStep_val_ne h pjp p q m pj_max hn]
  tail_i := fun n hn0 => by
    by_cases hn : n = p
    · subst hn
      rw [popStep_val_self h pjp n q m pj_max hnp]
      simp [hn0]
    · rw [popStep_val_ne h pjp p q m pj_max hn]

theorem sinv_popStep (h : Heap) (rank : Ptr → Nat)
    (hr : ∀ p, p ≠ 0 → h.nast p ≠ 0 → rank (h.nast p) < rank p)
    (pjp : Int) (p : Ptr) (q : Queue) (m : TreeMap) (pj_max : Int) (T : List (Int × Ptr))
    (D : List Ptr) (g : Graph h m) (inv : SInv h m T D ((pjp, p) :: q)) :
    SInv h (popStep h pjp p q m pj_max).2.1 T (p :: D) (popStep h pjp p q m pj_max).1 := by
  obtain ⟨hpk, hpD, hpn, hpseed⟩ := inv.q_ok (pjp, p) (List.mem_cons_self _ _)
  simp only at hpk hpD hpn hpseed
  have hp0 : p ≠ 0 := g.key_ne p hpk
  have hnp : h.nast p ≠ p := by
    intro heq
    have hn0 : h.nast p ≠ 0 := by rw [heq]; exact hp0
    have := hr p hp0 hn0
    rw [heq] at this
    exact lt_irrefl _ this
  have hkeys := popStep_keys h pjp p q m pj_max hpk (fun hn => (g.closed p hpk hn).1)
  have hself := popStep_val_self h pjp p q m pj_max hnp
  have hne : ∀ x, x ≠ p → (popStep h pjp p q m pj_max).2.1.val x = m.val x :=
    fun x hx => popStep_val_ne h pjp p q m pj_max hx
  have hperm : List.Perm (popStep h pjp p q m pj_max).1 (pushed (m.val p).predecessors pjp ++ q) := by
    rw [popStep_queue]; exact assignRows_queue _ _ _
  have hpq : p ∉ q.map Prod.snd := by
    have := inv.q_nodup
    simp only [List.map_cons, List.nodup_cons] at this
    exact this.1
  have hqnd : (q.map Prod.snd).Nodup := by
    have := inv.q_nodup
    simp only [List.map_cons, List.nodup_cons] at this
    exact this.2
  have hDp : ∀ x ∈ D, x ≠ p := fun x hx hxp => hpD (hxp ▸ hx)
  have hpushed : ∀ x ∈ pushed (m.val p).predecessors pjp,
      x.2 ≠ 0 ∧ x.2 ∈ m.srcs p := by
    intro x hx
    have : x.2 ∈ (pushed (m.val p).predecessors pjp).map Prod.snd := List.mem_map_of_mem _ hx
    rw [pushed_snd] at this
    have h2 := List.mem_filter.mp this
    exact ⟨by simpa using h2.2, h2.1⟩
  exact {
    d_nodup := List.nodup_cons.mpr ⟨hpD, inv.d_nodup⟩
    d_keys := fun x hx => by
      rw [hkeys]
      rcases List.mem_cons.mp hx with rfl | hx
      · exact hpk
      · exact inv.d_keys x hx
    d_succ := fun x hx hx0 => by
      rcases List.mem_cons.mp hx with rfl | hx
      · have hnD := (hpn hx0).1
        refine ⟨List.mem_cons_of_mem _ hnD, ?_⟩
        rw [hself, hne _ hnp]
        simp [hx0]
      · obtain ⟨h1, h2⟩ := inv.d_succ x hx hx0
        refine ⟨List.mem_cons_of_mem _ h1, ?_⟩
        rw [hne _ (hDp x hx), hne _ (hDp _ h1)]
        exact h2
    d_rows := fun x hx k e hk => by
      rcases List.mem_cons.mp hx with rfl | hx
      · rw [hself] at hk ⊢
        exact assignRows_rows _ _ _ k e hk
      · rw [hne _ (hDp x hx)] at hk ⊢
        exact inv.d_rows x hx k e hk
    d_edge := fun x hx hx0 => by
      rcases List.mem_cons.mp hx with rfl | hx
      · obtain ⟨_, e, he, h1, h2⟩ := hpn hx0
        refine ⟨e, ?_, h1, ?_⟩
        · rw [hne _ hnp]; exact he
        · rw [hself]; exact h2
      · obtain ⟨e, he, h1, h2⟩ := inv.d_edge x hx hx0
        have hnD := (inv.d_succ x hx hx0).1
        refine ⟨e, ?_, h1, ?_⟩
        · rw [hne _ (hDp _ hnD)]; exact he
        · rw [hne _ (hDp x hx)]; exact h2
    d_seed := fun x hx hx0 => by
      rcases List.mem_cons.mp hx with rfl | hx
      · rw [hself]; exact hpseed hx0
      · rw [hne _ (hDp x hx)]; exact inv.d_seed x hx hx0
    q_nodup := by
      refine ((hperm.map Prod.snd).nodup_iff).mpr ?_
      rw [List.map_append, pushed_snd]
      refine List.Nodup.append (g.src_nodup p) hqnd ?_
      intro f hf hfq
      have h2 := List.mem_filter.mp hf
      have hf0 : f ≠ 0 := by simpa using h2.2
      have hnf := (g.src_ok p f h2.1 hf0).1
      obtain ⟨x, hx, hxf⟩ := List.mem_map.mp hfq
      have hq := (inv.q_ok x (List.mem_cons_of_mem _ hx)).2.2.1
      rw [hxf, hnf] at hq
      exact hpD (hq hp0).1
    q_ok := fun x hx => by
      rw [hkeys]
      rcases List.mem_append.mp (hperm.mem_iff.mp hx) with hx | hx
      · obtain ⟨hx0, hxs⟩ := hpushed x hx
        obtain ⟨hnx, hxk⟩ := g.src_ok p x.2 hxs hx0
        have hxp : x.2 ≠ p := fun heq => hnp (heq ▸ hnx)
        refine ⟨hxk, ?_, ?_, ?_⟩
        · intro hmem
          rcases List.mem_cons.mp hmem with hmem | hmem
          · exact hxp hmem
          · exact hpD (hnx ▸ (inv.d_succ x.2 hmem (hnx ▸ hp0)).1)
        · intro _
          rw [hnx]
          refine ⟨List.mem_cons_self _ _, ?_⟩
          rw [hself]
          exact pushed_edge _ _ q x hx
        · intro h0; rw [hnx] at h0; exact absurd h0 hp0
      · obtain ⟨h1, h2, h3, h4⟩ := inv.q_ok x (List.mem_cons_of_mem _ hx)
        have hxp : x.2 ≠ p := fun heq => hpq (heq ▸ List.mem_map_of_mem _ hx)
        refine ⟨h1, ?_, ?_, h4⟩
        · intro hmem
          rcases List.mem_cons.mp hmem with hmem | hmem
          · exact hxp hmem
          · exact h2 hmem
        · intro hx0
          obtain ⟨hnD, e, he, h5, h6⟩ := h3 hx0
          refine ⟨List.mem_cons_of_mem _ hnD, e, ?_, h5, h6⟩
          rw [hne _ (hDp _ hnD)]; exact he
    q_all := fun k hk hk0 hkD => by
      rw [hkeys] at hk
      rcases List.mem_cons.mp hkD with hkp | hkD
      · right
        have hks := (g.closed k hk hk0).2
        rw [hkp] at hks
        refine ((hperm.map Prod.snd).mem_iff).mpr ?_
        rw [List.map_append, pushed_snd]
        refine List.mem_append_left _ (List.mem_filter.mpr ⟨hks, ?_⟩)
        simpa using g.key_ne k hk
      · rcases inv.q_all k hk hk0 hkD with hD | hq
        · exact Or.inl (List.mem_cons_of_mem _ hD)
        · simp only [List.map_cons, List.mem_cons] at hq
          rcases hq with hq | hq
          · exact Or.inl (hq ▸ List.mem_cons_self _ _)
          · right
            refine ((hperm.map Prod.snd).mem_iff).mpr ?_
            rw [List.map_append]
            exact List.mem_append_right _ hq }

/-! ## Row resolution: the sweeps terminate and keep the invariant -/

theorem sweep_nil (h : Heap) (fuel : Nat) (m : TreeMap) (pj_max : Int) :
    sweep h fuel [] m pj_max = some (m, pj_max) := by
  cases fuel <;> rfl

theorem sweep_spec (h : Heap) (rank : Ptr → Nat)
    (hr : ∀ p, p ≠ 0 → h.nast p ≠ 0 → rank (h.nast p) < rank p) (T : List (Int × Ptr)) :
    ∀ (fuel : Nat) (q : Queue) (m : TreeMap) (pj_max : Int) (D : List Ptr),
      Graph h m → SInv h m T D q → m.keys.length + 1 ≤ fuel + D.length →
      ∃ m' r D', sweep h fuel q m pj_max = some (m', r) ∧ Same h m m' ∧ SInv h m' T D' [] ∧
        (∀ x ∈ D, x ∈ D') ∧ (∀ x ∈ q, x.2 ∈ D')
  | fuel, [], m, pj_max, D, _, inv, _ =>
    ⟨m, pj_max, D, sweep_nil h fuel m pj_max, Same.refl h m, inv, fun _ hx => hx,
      fun x hx => by cases hx⟩
  | 0, (pjp, p) :: q, m, pj_max, D, g, inv, hfuel => by
    exfalso
    have hle := (List.subperm_of_subset inv.d_nodup (fun x hx => inv.d_keys x hx)).length_le
    omega
  | fuel + 1, (pjp, p) :: q, m, pj_max, D, g, inv, hfuel => by
    obtain ⟨hpk, hpD, -, -⟩ := inv.q_ok (pjp, p) (List.mem_cons_self _ _)
    simp only at hpk hpD
    have hp0 : p ≠ 0 := g.key_ne p hpk
    have hnp : h.nast p ≠ p := by
      intro heq
      have hn0 : h.nast p ≠ 0 := by rw [heq]; exact hp0
      have := hr p hp0 hn0
      rw [heq] at this
      exact lt_irrefl _ this
    have hs := popStep_same h pjp p q m pj_max g hpk hnp
    have inv' := sinv_popStep h rank hr pjp p q m pj_max T D g inv
    have hfuel' : (popStep h pjp p q m pj_max).2.1.keys.length + 1 ≤ fuel + (p :: D).length := by
      rw [hs.keys]; simp only [List.length_cons]; omega
    obtain ⟨m', r, D', hsw, hs', hinv', hD, hq⟩ :=
      sweep_spec h rank hr T fuel _ _ (popStep h pjp p q m pj_max).2.2 (p :: D) (g.same hs) inv' hfuel'
    refine ⟨m', r, D', ?_, hs.trans hs', hinv', fun x hx => hD x (List.mem_cons_of_mem _ hx), ?_⟩
    · simp only [sweep]; exact hsw
    · intro x hx
      rcases List.mem_cons.mp hx with rfl | hx
      · exact hD _ (List.mem_cons_self _ _)
      · have hperm : List.Perm (popStep h pjp p q m pj_max).1
            (pushed (m.val p).predecessors pjp ++ q) := by
          rw [popStep_queue]; exact assignRows_queue _ _ _
        exact hq x (hperm.mem_iff.mpr (List.mem_append_right _ hx))

theorem sinv_seed (h : Heap) (m : TreeMap) (T : List (Int × Ptr)) (D : List Ptr) (pj : Int)
    (t : Ptr) (inv : SInv h m T D []) (htk : t ∈ m.keys) (ht0 : h.nast t = 0)
    (htT : t ∉ T.map Prod.snd) : SInv h m (T ++ [(pj, t)]) D [(pj, t)] where
  d_nodup := inv.d_nodup
  d_keys := inv.d_keys
  d_succ := inv.d_succ
  d_rows := inv.d_rows
  d_edge := inv.d_edge
  d_seed := fun p hp hp0 => List.mem_append_left _ (inv.d_seed p hp hp0)
  q_nodup := by simp
  q_ok := fun x hx => by
    rw [List.mem_singleton] at hx
    subst hx
    refine ⟨htk, ?_, fun hn => absurd ht0 hn, fun _ => by simp⟩
    intro htD
    exact htT (List.mem_map.mpr ⟨_, inv.d_seed t htD ht0, rfl⟩)
  q_all := fun k hk hk0 hkD => by
    rcases inv.q_all k hk hk0 hkD with hD | hq
    · exact Or.inl hD
    · simp at hq

theorem resolveTails_spec (h : Heap) (rank : Ptr → Nat)
    (hr : ∀ p, p ≠ 0 → h.nast p ≠ 0 → rank (h.nast p) < rank p) :
    ∀ (pairs : List (Int × Ptr)) (m : TreeMap) (pj nr : Int) (T : List (Int × Ptr))
      (D : List Ptr),
      Graph h m → SInv h m T D [] → (pairs.map Prod.snd).Nodup →
      (∀ t ∈ pairs.map Prod.snd, t ∈ m.keys ∧ h.nast t = 0 ∧ t ∉ T.map Prod.snd) →
      ∃ m' nr' Tn D', resolveTails h pairs m pj nr = some (m', nr') ∧ Same h m m' ∧
        SInv h m' (T ++ Tn) D' [] ∧ (∀ x ∈ D, x ∈ D') ∧ (∀ t ∈ pairs.map Prod.snd, t ∈ D') ∧
        Tn.map Prod.snd = pairs.map Prod.snd ∧ (∀ x ∈ Tn.head?, x.1 = pj)
  | [], m, pj, nr, T, D, _, inv, _, _ =>
    ⟨m, nr, [], D, rfl, Same.refl h m, (by simpa using inv), fun _ hx => hx,
      fun t ht => (by cases ht), rfl, fun x hx => (by cases hx)⟩
  | pp :: rest, m, pj, nr, T, D, g, inv, hnd, hts => by
    simp only [List.map_cons, List.nodup_cons] at hnd
    obtain ⟨htk, ht0, htT⟩ := hts pp.2 (by simp)
    have inv0 := sinv_seed h m T D pj pp.2 inv htk ht0 htT
    obtain ⟨m1, r, D1, hsw, hs1, inv1, hD1, hq1⟩ :=
      sweep_spec h rank hr (T ++ [(pj, pp.2)]) (m.keys.length + 1) [(pj, pp.2)] m 0 D g inv0
        (by omega)
    have hts' : ∀ t ∈ rest.map Prod.snd,
        t ∈ m1.keys ∧ h.nast t = 0 ∧ t ∉ (T ++ [(pj, pp.2)]).map Prod.snd := by
      intro t ht
      obtain ⟨h1, h2, h3⟩ := hts t (by simp only [List.map_cons]; exact List.mem_cons_of_mem _ ht)
      refine ⟨by rw [hs1.keys]; exact h1, h2, ?_⟩
      simp only [List.map_append, List.map_cons, List.map_nil, List.mem_append,
        List.mem_singleton, not_or]
      exact ⟨h3, fun heq => hnd.1 (heq ▸ ht)⟩
    obtain ⟨m2, nr2, Tn, D2, hres, hs2, inv2, hD2, ht2, hTn, -⟩ :=
      resolveTails_spec h rank hr rest m1 r (if r > nr then r else nr) (T ++ [(pj, pp.2)]) D1
        (g.same hs1) inv1 hnd.2 hts'
    refine ⟨m2, nr2, (pj, pp.2) :: Tn, D2, ?_, hs1.trans hs2, ?_, fun x hx => hD2 x (hD1 x hx),
      ?_, ?_, ?_⟩
    · simp only [resolveTails, hsw]; exact hres
    · simpa using inv2
    · intro t ht
      simp only [List.map_cons] at ht
      rcases List.mem_cons.mp ht with rfl | ht
      · exact hD2 _ (hq1 (pj, pp.2) (List.mem_singleton.mpr rfl))
      · exact ht2 t ht
    · simp [hTn]
    · intro x hx
      simp only [List.head?_cons, Option.mem_def, Option.some.injEq] at hx
      subst hx; rfl

theorem all_popped (h : Heap) (rank : Ptr → Nat)
    (hr : ∀ p, p ≠ 0 → h.nast p ≠ 0 → rank (h.nast p) < rank p) (m : TreeMap) (D : List Ptr)
    (g : Graph h m) (htails : ∀ t ∈ m.keys, h.nast t = 0 → t ∈ D)
    (hall : ∀ k ∈ m.keys, h.nast k ≠ 0 → h.nast k ∈ D → k ∈ D) :
    ∀ k ∈ m.keys, k ∈ D := by
  have key : ∀ (n : Nat) (k : Ptr), rank k = n → k ∈ m.keys → k ∈ D := by
    intro n
    induction n using Nat.strong_induction_on with
    | _ n ih =>
      intro k hn hk
      by_cases hk0 : h.nast k = 0
      · exact htails k hk hk0
      · have hlt := hr k (g.key_ne k hk) hk0
        rw [hn] at hlt
        exact hall k hk hk0 (ih _ hlt _ rfl (g.closed k hk hk0).1)
  exact fun k hk => key _ k rfl hk

theorem depthPairs_eq : ∀ (l : List Ptr) (m : TreeMap), (∀ p ∈ l, p ∈ m.keys) →
    depthPairs l m = (l.map (fun p => ((m.val p).i, p)), m)
  | [], _, _ => rfl
  | p :: rest, m, hl => by
    simp only [depthPairs, touch_of_mem m (hl p (List.mem_cons_self _ _)), List.map_cons]
    rw [depthPairs_eq rest m (fun x hx => hl x (List.mem_cons_of_mem _ hx))]
    rfl

theorem sortDesc_perm (l : List (Int × Ptr)) : List.Perm (sortDesc l) l :=
  List.perm_insertionSort _ l

/-! ## The layout of an acyclic heap -/

theorem sinv_init (h : Heap) (m : TreeMap) : SInv h m [] [] [] where
  d_nodup := List.nodup_nil
  d_keys := fun p hp => by cases hp
  d_succ := fun p hp => by cases hp
  d_rows := fun p hp => by cases hp
  d_edge := fun p hp => by cases hp
  d_seed := fun p hp => by cases hp
  q_nodup := List.nodup_nil
  q_ok := fun x hx => by cases hx
  q_all := fun k _ _ hk => by cases hk

theorem layout_ok (h : Heap) (hac : h.Acyclic) (pointers : List (Ptr × String)) :
    ∃ d l, discover h (h.cells.length + 2) pointers {} = some d ∧ layout h pointers = some l ∧
      LayoutOK h pointers d l := by
  obtain ⟨d, hd⟩ := discover_some h hac pointers {}
  have dinv : DInv h pointers 0 d := by
    simpa using dinv_discover h _ pointers [] {} d (dinv_init h) hd
  have g := dinv.graph
  obtain ⟨rank, hr⟩ := hac
  -- the sweeps
  have key : ∃ m nr T D, resolveRows h d = some ⟨m, d.last_elements, d.null_pointers,
      d.deepest_node, d.deepest_i, if d.deepest_i > 1 then d.deepest_i else 1, nr⟩ ∧
      Same h d.tree_nodes m ∧ SInv h m T D [] ∧ (∀ t ∈ d.last_elements, t ∈ D) ∧
      List.Perm (T.map Prod.snd) d.last_elements ∧ (∀ x ∈ T.head?, x.1 = 0) := by
    by_cases hl : d.last_elements = []
    · refine ⟨d.tree_nodes, 0, [], [], ?_, Same.refl h _, sinv_init h _, ?_, ?_, ?_⟩
      · simp [resolveRows, hl]
      · rw [hl]; intro t ht; cases ht
      · rw [hl]; exact List.Perm.refl _
      · intro x hx; cases hx
    · have hdp := depthPairs_eq d.last_elements d.tree_nodes
        (fun p hp => (dinv.tails_ok p hp).1)
      have hperm : List.Perm
          ((sortDesc (d.last_elements.map fun p => ((d.tree_nodes.val p).i, p))).map Prod.snd)
          d.last_elements := by
        refine ((sortDesc_perm _).map Prod.snd).trans ?_
        simp [List.map_map, Function.comp_def]
      obtain ⟨m', nr', Tn, D', hres, hs, inv, -, htails, hTn, hhead⟩ :=
        resolveTails_spec h rank hr
          (sortDesc (d.last_elements.map fun p => ((d.tree_nodes.val p).i, p)))
          d.tree_nodes 0 0 [] [] g (sinv_init h _) (hperm.nodup_iff.mpr dinv.tails_nodup)
          (fun t ht => ⟨(dinv.tails_ok t (hperm.mem_iff.mp ht)).1,
            (dinv.tails_ok t (hperm.mem_iff.mp ht)).2, by simp⟩)
      refine ⟨m', nr', Tn, D', ?_, hs, by simpa using inv,
        fun t ht => htails _ (hperm.mem_iff.mpr ht), ?_, hhead⟩
      · simp only [resolveRows, ne_eq, hl, not_false_eq_true, if_true, hdp, hres]
      · rw [hTn]; exact hperm
  obtain ⟨m, nr, T, D, hres, hs, inv, htD, hTperm, hhead⟩ := key
  have g' := g.same hs
  have hall : ∀ k ∈ m.keys, k ∈ D := by
    refine all_popped h rank hr m D g' ?_ ?_
    · intro t ht ht0
      rw [hs.keys] at ht
      exact htD t (dinv.tails_all t ht (dinv.key_ne t ht) ht0)
    · intro k hk hk0 hkD
      rcases inv.q_all k hk hk0 hkD with hD | hq
      · exact hD
      · simp at hq
  refine ⟨d, ⟨m, d.last_elements, d.null_pointers, d.deepest_node, d.deepest_i,
    if d.deepest_i > 1 then d.deepest_i else 1, nr⟩, hd, ?_, ?_⟩
  · simp only [layout, hd, Option.bind]
    exact hres
  · exact {
      dinv := dinv
      same := hs
      last := rfl
      nullp := rfl
      deepest := rfl
      nc := rfl
      graph := g'
      col := fun k hk hk0 => (inv.d_succ k (hall k hk) hk0).2
      rows := fun k hk => inv.d_rows k (hall k hk)
      edge := fun k hk hk0 => inv.d_edge k (hall k hk) hk0
      seeds := ⟨T, hTperm, hhead, fun t ht =>
        inv.d_seed t (htD t ht) (dinv.tails_ok t ht).2⟩ }

/-! ## Acyclic heaps given by their cells -/

theorem lookup_mem {α : Type} : ∀ (l : List (Ptr × α)) (p : Ptr) (a : α),
    l.lookup p = some a → (p, a) ∈ l
  | [], _, _, hl => by simp at hl
  | (k, v) :: rest, p, a, hl => by
    by_cases hk : p = k
    · subst hk
      simp only [List.lookup_cons, beq_self_eq_true, Option.some.injEq] at hl
      subst hl
      exact List.mem_cons_self _ _
    · have hb : (p == k) = false := by simpa using hk
      simp only [List.lookup_cons, hb] at hl
      exact List.mem_cons_of_mem _ (lookup_mem rest p a hl)

theorem acyclic_of_cells (h : Heap) (rank : Ptr → Nat)
    (hc : ∀ c ∈ h.cells, c.2.nast ≠ 0 → rank c.2.nast < rank c.1) : h.Acyclic := by
  refine ⟨rank, fun p _ hn => ?_⟩
  cases hl : h.cells.lookup p with
  | none => simp [Heap.nast, Heap.deref, hl] at hn
  | some a =>
    have hmem := lookup_mem h.cells p a hl
    have hna : h.nast p = a.nast := by simp [Heap.nast, Heap.deref, hl]
    rw [hna] at hn ⊢
    exact hc (p, a) hmem hn

/-! ## The calls made for a layout -/

theorem filterMap_drawCalls {α : Type} (f : Draw → Option α) (h : Heap) (l : Layout) :
    (drawCalls h l).filterMap f
      = (l.tree_nodes.keys.map fun p =>
          (drawEntry h (metrics h l) (p, l.tree_nodes.val p)).filterMap f).flatten
        ++ (drawNulls (metrics h l) l.null_pointers l.nr).filterMap f := by
  simp [drawCalls, TreeMap.toList, List.filterMap_append, List.filterMap_flatten, List.map_map,
    Function.comp_def]

theorem filterMap_drawPred_nil {α : Type} (f : Draw → Option α) (g : Metrics) (p : Ptr)
    (pi pj y : Int) (hf1 : ∀ a b c d e, f (.predArrow a b c d e) = none)
    (hf2 : ∀ a b c, f (.predPath a b c) = none) :
    ∀ es : List Edge, (es.map (drawPred g p pi pj y)).filterMap f = []
  | [] => rfl
  | e :: es => by
    have he : f (drawPred g p pi pj y e) = none := by
      unfold drawPred
      simp only
      split
      · exact hf1 _ _ _ _ _
      · exact hf2 _ _ _
    simp only [List.map_cons, List.filterMap_cons, he]
    exact filterMap_drawPred_nil f g p pi pj y hf1 hf2 es

theorem filterMap_drawNulls_nil {α : Type} (f : Draw → Option α) (g : Metrics)
    (hf : ∀ a b c d, f (.nullArrow a b c d) = none) :
    ∀ (ps : List (Ptr × String)) (pj : Int), (drawNulls g ps pj).filterMap f = []
  | [], _ => rfl
  | pp :: rest, pj => by
    simp only [drawNulls, List.filterMap_cons, hf]
    exact filterMap_drawNulls_nil f g hf rest _

theorem flatten_map_ite (P : Ptr → Prop) [DecidablePred P] :
    ∀ ks : List Ptr, (ks.map fun p => if P p then [p] else []).flatten = ks.filter (fun p => P p)
  | [] => rfl
  | k :: ks => by
    simp only [List.map_cons, List.flatten_cons, List.filter_cons]
    rw [flatten_map_ite P ks]
    by_cases hk : P k <;> simp [hk]

theorem rectangles_drawCalls (h : Heap) (l : Layout) (hk : ∀ k ∈ l.tree_nodes.keys, k ≠ 0) :
    rectangles (drawCalls h l) = l.tree_nodes.keys := by
  unfold rectangles
  rw [filterMap_drawCalls, filterMap_drawNulls_nil _ _ (fun _ _ _ _ => rfl), List.append_nil]
  have hent : ∀ p, (drawEntry h (metrics h l) (p, l.tree_nodes.val p)).filterMap Draw.rectOf
      = if p ≠ 0 then [p] else [] := by
    intro p
    unfold drawEntry
    simp only [List.filterMap_append,
      filterMap_drawPred_nil Draw.rectOf _ _ _ _ _ (fun _ _ _ _ _ => rfl) (fun _ _ _ => rfl)]
    by_cases hp : p = 0 <;> by_cases hn : h.nast p = 0 <;> simp [Draw.rectOf, hp, hn]
  simp only [hent]
  rw [flatten_map_ite (fun p => p ≠ 0)]
  exact List.filter_eq_self.mpr (fun k hkm => by simpa using hk k hkm)

theorem tailArrows_drawCalls (h : Heap) (l : Layout) :
    tailArrows (drawCalls h l) = l.tree_nodes.keys.filter (fun p => h.nast p = 0) := by
  unfold tailArrows
  rw [filterMap_drawCalls, filterMap_drawNulls_nil _ _ (fun _ _ _ _ => rfl), List.append_nil]
  have hent : ∀ p, (drawEntry h (metrics h l) (p, l.tree_nodes.val p)).filterMap Draw.tailOf
      = if h.nast p = 0 then [p] else [] := by
    intro p
    unfold drawEntry
    simp only [List.filterMap_append,
      filterMap_drawPred_nil Draw.tailOf _ _ _ _ _ (fun _ _ _ _ _ => rfl) (fun _ _ _ => rfl)]
    by_cases hn : h.nast p = 0 <;> simp [Draw.tailOf, hn]
  simp only [hent]
  exact flatten_map_ite (fun p => h.nast p = 0) _

theorem nullLabel_drawNulls (g : Metrics) :
    ∀ (ps : List (Ptr × String)) (pj : Int),
      (drawNulls g ps pj).filterMap Draw.nullLabel = ps.map Prod.snd
  | [], _ => rfl
  | pp :: rest, pj => by
    simp only [drawNulls, List.filterMap_cons, Draw.nullLabel, List.map_cons]
    rw [nullLabel_drawNulls g rest]

theorem nullArrows_drawCalls (h : Heap) (l : Layout) :
    nullArrows (drawCalls h l) = l.null_pointers.map Prod.snd := by
  unfold nullArrows
  rw [filterMap_drawCalls, nullLabel_drawNulls]
  have hent : ∀ p, (drawEntry h (metrics h l) (p, l.tree_nodes.val p)).filterMap Draw.nullLabel
      = [] := by
    intro p
    unfold drawEntry
    simp only [List.filterMap_append,
      filterMap_drawPred_nil Draw.nullLabel _ _ _ _ _ (fun _ _ _ _ _ => rfl) (fun _ _ _ => rfl)]
    by_cases hn : h.nast p = 0 <;> simp [Draw.nullLabel, hn]
  simp only [hent]
  have : ∀ ks : List Ptr, (ks.map fun _ => ([] : List String)).flatten = [] := by
    intro ks; induction ks with
    | nil => rfl
    | cons k ks ih => simp
  rw [this, List.nil_append]

/-! ## The grid is the reachable set -/

theorem chain_mem_keys (h : Heap) (m : TreeMap) (g : Graph h m) :
    ∀ (n : Nat) (p x : Ptr), p ∈ m.keys → x ∈ h.chain n p → x ∈ m.keys
  | 0, _, _, _, hx => by simp at hx
  | n + 1, p, x, hp, hx => by
    rw [chain_succ h n (g.key_ne p hp)] at hx
    rcases List.mem_cons.mp hx with rfl | hx
    · exact hp
    · have hq : h.nast p ≠ 0 := by
        intro h0; rw [h0] at hx; simp at hx
      exact chain_mem_keys h m g n _ x (g.closed p hp hq).1 hx

theorem LayoutOK.reach_iff {h : Heap} {pointers : List (Ptr × String)} {d : Discovery}
    {l : Layout} (ok : LayoutOK h pointers d l) (k : Ptr) :
    k ∈ l.tree_nodes.keys ↔ ∃ pp ∈ pointers, pp.1 ≠ 0 ∧ h.Reach pp.1 k := by
  constructor
  · intro hk
    rw [ok.same.keys] at hk
    exact ok.dinv.reach k hk
  · rintro ⟨pp, hpp, hpp0, n, hn⟩
    have hroot := ok.dinv.roots pp hpp hpp0
    rw [← ok.same.keys] at hroot
    exact chain_mem_keys h _ ok.graph n pp.1 k hroot hn

theorem LayoutOK.tails_iff {h : Heap} {pointers : List (Ptr × String)} {d : Discovery}
    {l : Layout} (ok : LayoutOK h pointers d l) (t : Ptr) :
    t ∈ l.last_elements ↔ t ∈ l.tree_nodes.keys ∧ h.nast t = 0 := by
  rw [ok.last, ok.same.keys]
  constructor
  · exact ok.dinv.tails_ok t
  · rintro ⟨h1, h2⟩
    exact ok.dinv.tails_all t h1 (ok.dinv.key_ne t h1) h2

/-! ## Claims C1, C2, C6 and C7 -/

/-- Claim C1: for every finite acyclic heap and every root list the function
reaches line 317 with a map whose keys are exactly the nodes reachable through
successor links from some non-null root, each key once, and the rectangles
drawn are exactly these keys, one rectangle for each. -/
theorem C1_grid_is_reachable_set (h : Heap) (pointers : List (Ptr × String))
    (hac : h.Acyclic) :
    ∃ l, layout h pointers = some l ∧
      (∀ k, k ∈ l.tree_nodes.keys ↔ ∃ pp ∈ pointers, pp.1 ≠ 0 ∧ h.Reach pp.1 k) ∧
      l.tree_nodes.keys.Nodup ∧
      rectangles (drawCalls h l) = l.tree_nodes.keys := by
  obtain ⟨d, l, -, hl, ok⟩ := layout_ok h hac pointers
  exact ⟨l, hl, ok.reach_iff, ok.graph.keys_nodup,
    rectangles_drawCalls h l ok.graph.key_ne⟩

set_option maxRecDepth 100000 in
/-- Claim C1 on `drawList_TEST_1`: seven pointers, six distinct nodes, six rectangles. -/
theorem C1_grid_is_reachable_set_witness :
    test1Heap.Acyclic ∧ test1Pointers.length = 7 ∧
    (∃ l, layout test1Heap test1Pointers = some l ∧
      (∀ k, k ∈ l.tree_nodes.keys ↔ ∃ pp ∈ test1Pointers, pp.1 ≠ 0 ∧ test1Heap.Reach pp.1 k) ∧
      l.tree_nodes.keys.Nodup ∧
      rectangles (drawCalls test1Heap l) = l.tree_nodes.keys) ∧
    (layout test1Heap test1Pointers).map (fun l => rectangles (drawCalls test1Heap l))
      = some [0x1000, 0x1010, 0x1020, 0x1030, 0x1040, 0x1050] :=
  ⟨acyclic_of_cells test1Heap id (by decide), rfl,
    C1_grid_is_reachable_set test1Heap test1Pointers (acyclic_of_cells test1Heap id (by decide)),
    by decide⟩

/-- Claim C2: for every finite acyclic input, after row resolution every grid
node that has a successor has its successor in the grid and a final column
strictly smaller than the final column of its successor. -/
theorem C2_column_below_successor (h : Heap) (pointers : List (Ptr × String))
    (hac : h.Acyclic) :
    ∃ l, layout h pointers = some l ∧
      ∀ p ∈ l.tree_nodes.keys, h.nast p ≠ 0 →
        h.nast p ∈ l.tree_nodes.keys ∧
        (l.tree_nodes.entry p).i < (l.tree_nodes.entry (h.nast p)).i := by
  obtain ⟨d, l, -, hl, ok⟩ := layout_ok h hac pointers
  refine ⟨l, hl, fun p hp hn => ⟨(ok.graph.closed p hp hn).1, ?_⟩⟩
  have := ok.col p hp hn
  simp only [TreeMap.entry]
  omega

/-- Claim C2 on `drawList_TEST_1`. -/
theorem C2_column_below_successor_witness :
    test1Heap.Acyclic ∧
    ∃ l, layout test1Heap test1Pointers = some l ∧
      ∀ p ∈ l.tree_nodes.keys, test1Heap.nast p ≠ 0 →
        test1Heap.nast p ∈ l.tree_nodes.keys ∧
        (l.tree_nodes.entry p).i < (l.tree_nodes.entry (test1Heap.nast p)).i :=
  ⟨acyclic_of_cells test1Heap id (by decide),
    C2_column_below_successor test1Heap test1Pointers
      (acyclic_of_cells test1Heap id (by decide))⟩

/-- Claim C6: for every finite acyclic input the terminating arrows are as
many as the tails in `last_elements`, no node carries two, and the nodes
carrying one are exactly the nodes without successor reachable from a non-null
root (a root whose own successor is null included, as it reaches itself). -/
theorem C6_terminating_arrows (h : Heap) (pointers : List (Ptr × String))
    (hac : h.Acyclic) :
    ∃ l, layout h pointers = some l ∧
      (tailArrows (drawCalls h l)).length = l.last_elements.length ∧
      (tailArrows (drawCalls h l)).Nodup ∧
      ∀ p, p ∈ tailArrows (drawCalls h l) ↔
        (h.nast p = 0 ∧ ∃ pp ∈ pointers, pp.1 ≠ 0 ∧ h.Reach pp.1 p) := by
  obtain ⟨d, l, -, hl, ok⟩ := layout_ok h hac pointers
  have hnd : (tailArrows (drawCalls h l)).Nodup := by
    rw [tailArrows_drawCalls]; exact ok.graph.keys_nodup.filter _
  have hmem : ∀ p, p ∈ tailArrows (drawCalls h l) ↔ p ∈ l.tree_nodes.keys ∧ h.nast p = 0 := by
    intro p
    rw [tailArrows_drawCalls, List.mem_filter]
    simp
  refine ⟨l, hl, ?_, hnd, ?_⟩
  · refine List.Perm.length_eq ((List.perm_ext_iff_of_nodup hnd ?_).mpr ?_)
    · rw [ok.last]; exact ok.dinv.tails_nodup
    · intro p; rw [hmem, ok.tails_iff]
  · intro p
    rw [hmem, ok.reach_iff]
    exact and_comm

set_option maxRecDepth 100000 in
/-- Claim C6 on `drawList_TEST_1`, whose only tail is `n3`. -/
theorem C6_terminating_arrows_witness :
    test1Heap.Acyclic ∧
    (∃ l, layout test1Heap test1Pointers = some l ∧
      (tailArrows (drawCalls test1Heap l)).length = l.last_elements.length ∧
      (tailArrows (drawCalls test1Heap l)).Nodup ∧
      ∀ p, p ∈ tailArrows (drawCalls test1Heap l) ↔
        (test1Heap.nast p = 0 ∧ ∃ pp ∈ test1Pointers, pp.1 ≠ 0 ∧ test1Heap.Reach pp.1 p)) ∧
    (layout test1Heap test1Pointers).map (fun l => tailArrows (drawCalls test1Heap l))
      = some [0x1000] :=
  ⟨acyclic_of_cells test1Heap id (by decide),
    C6_terminating_arrows test1Heap test1Pointers (acyclic_of_cells test1Heap id (by decide)),
    by decide⟩

/-- Claim C7: for every root list (on a finite acyclic heap) the labels of the
standalone null arrows, in the order they are drawn, are the labels of the
roots whose pointer is null, in input order; so there are as many such arrows
as null roots. -/
theorem C7_null_arrows (h : Heap) (pointers : List (Ptr × String)) (hac : h.Acyclic) :
    ∃ l, layout h pointers = some l ∧
      nullArrows (drawCalls h l) = (pointers.filter fun pp => pp.1 = 0).map Prod.snd ∧
      (nullArrows (drawCalls h l)).length = (pointers.filter fun pp => pp.1 = 0).length := by
  obtain ⟨d, l, -, hl, ok⟩ := layout_ok h hac pointers
  have heq : nullArrows (drawCalls h l) = (pointers.filter fun pp => pp.1 = 0).map Prod.snd := by
    rw [nullArrows_drawCalls, ok.nullp, ok.dinv.nulls]
  exact ⟨l, hl, heq, by rw [heq, List.length_map]⟩

/-- Claim C7 on `drawList_TEST_1`, whose only null root is `nx`. -/
theorem C7_null_arrows_witness :
    test1Heap.Acyclic ∧
    (∃ l, layout test1Heap test1Pointers = some l ∧
      nullArrows (drawCalls test1Heap l)
        = (test1Pointers.filter fun pp => pp.1 = 0).map Prod.snd ∧
      (nullArrows (drawCalls test1Heap l)).length
        = (test1Pointers.filter fun pp => pp.1 = 0).length) ∧
    (test1Pointers.filter fun pp => pp.1 = 0).map Prod.snd = ["nx"] :=
  ⟨acyclic_of_cells test1Heap id (by decide),
    C7_null_arrows test1Heap test1Pointers (acyclic_of_cells test1Heap id (by decide)),
    by decide⟩

/-! ## Claims C3, C4, C5 and C10 -/

set_option maxRecDepth 100000 in
/-- Claim C3 on `DRAW_LIST_DEMO`: the returned text starts with the opening
`<svg ...>` tag carrying `width` and `height`, but it does not end with
`</svg>`: the last thing written is the label of the last arrow. -/
theorem C3_demo_text_is_not_closed :
    demoHeap.Acyclic ∧
    generateLinkedListSVG demoHeap demoPointers = some demoOutput ∧
    "<svg xmlns='http://www.w3.org/2000/svg' width='456' height='60'>\n".data <+: demoOutput.data ∧
    "  <text x='35' y='20' text-anchor='middle'>glowa</text>\n".data <:+ demoOutput.data ∧
    ¬ "</svg>".data <:+ demoOutput.data :=
  ⟨acyclic_of_cells demoHeap id (by decide), by rfl, by decide, by decide, by decide⟩

set_option maxRecDepth 100000 in
/-- Claim C4 fails on `drawList_TEST_1`: `glowa` and `n1` point at the same
node, whose entry then holds two edges with the source `none`. -/
theorem C4_counterexample :
    ¬ ∀ l, layout test1Heap test1Pointers = some l →
      ∀ n ∈ l.tree_nodes.keys, ((l.tree_nodes.entry n).predecessors.map (·.from_)).Nodup := by
  intro hall
  have h1 : (layout test1Heap test1Pointers).map (fun l =>
      (decide (0x1020 ∈ l.tree_nodes.keys),
        (l.tree_nodes.entry 0x1020).predecessors.map (fun e => (e.from_, e.label))))
      = some (true, [(0, "glowa"), (0, "n1")]) := by decide
  cases hl : layout test1Heap test1Pointers with
  | none => rw [hl] at h1; cases h1
  | some l =>
    rw [hl] at h1
    simp only [Option.map_some', Option.some.injEq, Prod.mk.injEq, decide_eq_true_eq] at h1
    have hnd := hall l hl 0x1020 h1.1
    have hsrc : (l.tree_nodes.entry 0x1020).predecessors.map (·.from_) = [0, 0] := by
      have := congrArg (List.map Prod.fst) h1.2
      simpa [List.map_map, Function.comp_def] using this
    rw [hsrc] at hnd
    simp at hnd

/-- Claim C4, amended: for every finite acyclic input no layout entry holds two
edges with the same source node; the edges with the source `none` of an entry
are as many as the roots pointing at its node; and `addPredecessorUnique`
leaves an entry as it is when it holds an edge with the source of the
candidate, so the edge recorded first is kept, and appends the candidate
otherwise. -/
theorem C4_unique_node_sources (h : Heap) (pointers : List (Ptr × String)) (hac : h.Acyclic) :
    ∃ l, layout h pointers = some l ∧
      (∀ n, (((l.tree_nodes.entry n).predecessors.map (·.from_)).filter (· ≠ 0)).Nodup) ∧
      (∀ n, n ≠ 0 → ((l.tree_nodes.entry n).predecessors.map (·.from_)).count 0
        = (pointers.filter fun pp => pp.1 = n).length) ∧
      (∀ (t : TreeNode) (e : Edge), (∃ e' ∈ t.predecessors, e'.from_ = e.from_) →
        t.addPredecessorUnique e = t) ∧
      (∀ (t : TreeNode) (e : Edge), (∀ e' ∈ t.predecessors, e'.from_ ≠ e.from_) →
        (t.addPredecessorUnique e).predecessors = t.predecessors ++ [e]) := by
  obtain ⟨d, l, -, hl, ok⟩ := layout_ok h hac pointers
  refine ⟨l, hl, ok.graph.src_nodup, ?_, ?_, ?_⟩
  · intro n hn
    have := ok.dinv.root_count n hn
    rw [← ok.same.srcs] at this
    exact this
  · rintro t e ⟨e', he', hee⟩
    have hany : (t.predecessors.any fun pred => pred.from_ == e.from_) = true :=
      List.any_eq_true.mpr ⟨e', he', by simpa using hee⟩
    simp [TreeNode.addPredecessorUnique, hany]
  · intro t e hne
    have hany : (t.predecessors.any fun pred => pred.from_ == e.from_) = false := by
      rw [Bool.eq_false_iff]
      intro hc
      obtain ⟨x, hx, hxe⟩ := List.any_eq_true.mp hc
      exact hne x hx (by simpa using hxe)
    simp [TreeNode.addPredecessorUnique, hany]

set_option maxRecDepth 100000 in
/-- Claim C4, amended, on `drawList_TEST_1`. -/
theorem C4_unique_node_sources_witness :
    test1Heap.Acyclic ∧
    ∃ l, layout test1Heap test1Pointers = some l ∧
      (∀ n, (((l.tree_nodes.entry n).predecessors.map (·.from_)).filter (· ≠ 0)).Nodup) ∧
      (∀ n, n ≠ 0 → ((l.tree_nodes.entry n).predecessors.map (·.from_)).count 0
        = (test1Pointers.filter fun pp => pp.1 = n).length) ∧
      (∀ (t : TreeNode) (e : Edge), (∃ e' ∈ t.predecessors, e'.from_ = e.from_) →
        t.addPredecessorUnique e = t) ∧
      (∀ (t : TreeNode) (e : Edge), (∀ e' ∈ t.predecessors, e'.from_ ≠ e.from_) →
        (t.addPredecessorUnique e).predecessors = t.predecessors ++ [e]) :=
  ⟨acyclic_of_cells test1Heap id (by decide),
    C4_unique_node_sources test1Heap test1Pointers (acyclic_of_cells test1Heap id (by decide))⟩

set_option maxRecDepth 100000 in
/-- Claim C5 fails on `overlapHeap`: the distinct nodes `E` and `F` are both
placed in column 0 of row 1, and their rectangles are drawn at the same place. -/
theorem C5_two_nodes_in_one_cell :
    overlapHeap.Acyclic ∧
    (layout overlapHeap overlapPointers).map (fun l =>
      (l.tree_nodes.keys,
        ((l.tree_nodes.entry 0x1030).i, (l.tree_nodes.entry 0x1030).j),
        ((l.tree_nodes.entry 0x1040).i, (l.tree_nodes.entry 0x1040).j)))
      = some ([0x1000, 0x1010, 0x1020, 0x1030, 0x1040], (0, 1), (0, 1)) ∧
    (layout overlapHeap overlapPointers).map (fun l =>
      (drawCalls overlapHeap l).filter fun c => (Draw.rectOf c).isSome)
      = some [.node 284 10 37 40 0x1000, .node 177 10 37 40 0x1010, .node 177 70 37 40 0x1020,
          .node 70 70 37 40 0x1030, .node 70 70 37 40 0x1040] :=
  ⟨acyclic_of_cells overlapHeap id (by decide), by decide, by decide⟩

set_option maxRecDepth 100000 in
/-- Claim C10: for a single root whose pointer is null, whatever the heap and
the label, no rectangle and no terminating arrow is drawn, the only call is the
standalone null arrow with the label of the root, `nc` is 1 although no node
was found (`deepest_i` is still -1), and the size is 300 by 60, as the opening
tag of the returned text says. -/
theorem C10_single_null_root (h : Heap) (label : String) :
    ∃ l, layout h [(0, label)] = some l ∧
      drawCalls h l = [Draw.nullArrow 0 70 30 label] ∧
      rectangles (drawCalls h l) = [] ∧
      tailArrows (drawCalls h l) = [] ∧
      nullArrows (drawCalls h l) = [label] ∧
      l.deepest_i = -1 ∧ l.nc = 1 ∧ l.nr = 0 ∧
      (metrics h l).width = 300 ∧ (metrics h l).height = 60 ∧
      generateLinkedListSVG h [(0, label)] = some
        ("<svg xmlns='http://www.w3.org/2000/svg' width='300' height='60'>\n"
          ++ "  <defs>\n"
          ++ "    <marker id='sll_arrow' viewBox='0 0 10 10' refX='9' refY='5' "
          ++ "markerWidth='6' markerHeight='6' orient='auto-start-reverse'>\n"
          ++ "      <path d='M 0 0 L 10 5 L 0 10 z' fill='black'/>\n"
          ++ "    </marker>\n"
          ++ "  </defs>\n\n"
          ++ "  <text x='35' y='45' text-anchor='middle' font-size='10'>NULL</text>\n"
          ++ "  <line x1='0' y1='30' x2='70' y2='30' stroke='black' marker-end='url(#sll_arrow)'/>\n"
          ++ "  <text x='35' y='20' text-anchor='middle'>" ++ label ++ "</text>\n") := by
  have hl : layout h [(0, label)] = some ⟨{}, [], [(0, label)], 0, -1, 1, 0⟩ := rfl
  have hd : drawCalls h ⟨{}, [], [(0, label)], 0, -1, 1, 0⟩ = [Draw.nullArrow 0 70 30 label] := rfl
  have hm : metrics h ⟨{}, [], [(0, label)], 0, -1, 1, 0⟩
      = { dataWidth := 30, height := 60, width := 300 } := rfl
  refine ⟨_, hl, hd, ?_, ?_, ?_, rfl, rfl, rfl, ?_, ?_, ?_⟩
  · rw [hd]; rfl
  · rw [hd]; rfl
  · rw [hd]; rfl
  · rw [hm]
  · rw [hm]
  · simp only [generateLinkedListSVG, hl, Option.bind, svgText, hd, hm, emitAll, Draw.emit,
      drawArrow, addressToText]
    simp only [ne_eq, not_true_eq_false, if_false, Option.map_some', Option.some.injEq]
    rw [String.append_empty, ← String.append_assoc, ← String.append_assoc]
    congr 1

/-! ## Hops along a chain -/

theorem hops_null (h : Heap) (q : Ptr) (k : Nat) : ¬ h.Hops 0 q k := by
  rintro ⟨n, hn⟩
  simp at hn

theorem hops_zero (h : Heap) (p q : Ptr) : h.Hops p q 0 ↔ q = p ∧ p ≠ 0 := by
  constructor
  · rintro ⟨n, hn⟩
    cases n with
    | zero => simp at hn
    | succ n =>
      by_cases hp : p = 0
      · subst hp; simp at hn
      · rw [chain_succ h n hp] at hn
        simp only [List.getElem?_cons_zero, Option.some.injEq] at hn
        exact ⟨hn.symm, hp⟩
  · rintro ⟨rfl, hp⟩
    exact ⟨1, by rw [chain_succ h 0 hp]; rfl⟩

theorem hops_succ (h : Heap) (p q : Ptr) (k : Nat) :
    h.Hops p q (k + 1) ↔ p ≠ 0 ∧ h.Hops (h.nast p) q k := by
  constructor
  · rintro ⟨n, hn⟩
    cases n with
    | zero => simp at hn
    | succ n =>
      by_cases hp : p = 0
      · subst hp; simp at hn
      · rw [chain_succ h n hp] at hn
        simp only [List.getElem?_cons_succ] at hn
        exact ⟨hp, n, hn⟩
  · rintro ⟨hp, n, hn⟩
    exact ⟨n + 1, by rw [chain_succ h n hp]; simpa using hn⟩

theorem hops_step (h : Heap) : ∀ (k : Nat) (p c : Ptr), h.Hops p c k → h.nast c ≠ 0 →
    h.Hops p (h.nast c) (k + 1)
  | 0, p, c, hc, hn => by
    obtain ⟨rfl, hp⟩ := (hops_zero h p c).mp hc
    exact (hops_succ h c _ 0).mpr ⟨hp, (hops_zero h _ _).mpr ⟨rfl, hn⟩⟩
  | k + 1, p, c, hc, hn => by
    obtain ⟨hp, hc'⟩ := (hops_succ h p c k).mp hc
    exact (hops_succ h p _ (k + 1)).mpr ⟨hp, hops_step h k _ c hc' hn⟩

theorem hops_reach (h : Heap) {p q : Ptr} {k : Nat} (hk : h.Hops p q k) : h.Reach p q :=
  let ⟨n, hn⟩ := hk
  ⟨n, List.getElem?_mem hn⟩

theorem reach_hops (h : Heap) {p q : Ptr} (hr : h.Reach p q) : ∃ k, h.Hops p q k := by
  obtain ⟨n, hn⟩ := hr
  obtain ⟨k, hk⟩ := List.getElem?_of_mem hn
  exact ⟨k, n, hk⟩

theorem hops_rank (h : Heap) (rank : Ptr → Nat)
    (hr : ∀ p, p ≠ 0 → h.nast p ≠ 0 → rank (h.nast p) < rank p) :
    ∀ (k : Nat) (p q : Ptr), h.Hops p q k → rank q + k ≤ rank p
  | 0, p, q, hq => by
    obtain ⟨rfl, -⟩ := (hops_zero h p q).mp hq
    exact le_refl _
  | k + 1, p, q, hq => by
    obtain ⟨hp, hq'⟩ := (hops_succ h p q k).mp hq
    have hn : h.nast p ≠ 0 := fun h0 => hops_null h q k (h0 ▸ hq')
    have h1 := hops_rank h rank hr k _ q hq'
    have h2 := hr p hp hn
    omega

theorem hops_index_unique (h : Heap) (rank : Ptr → Nat)
    (hr : ∀ p, p ≠ 0 → h.nast p ≠ 0 → rank (h.nast p) < rank p) :
    ∀ (k k' : Nat) (p q : Ptr), h.Hops p q k → h.Hops p q k' → k = k'
  | 0, 0, _, _, _, _ => rfl
  | 0, k' + 1, p, q, h1, h2 => by
    obtain ⟨rfl, -⟩ := (hops_zero h p q).mp h1
    have := hops_rank h rank hr _ _ _ h2
    omega
  | k + 1, 0, p, q, h1, h2 => by
    obtain ⟨rfl, -⟩ := (hops_zero h p q).mp h2
    have := hops_rank h rank hr _ _ _ h1
    omega
  | k + 1, k' + 1, p, q, h1, h2 => by
    have := hops_index_unique h rank hr k k' _ q ((hops_succ h p q k).mp h1).2
      ((hops_succ h p q k').mp h2).2
    omega

theorem hops_node_unique (h : Heap) : ∀ (k : Nat) (p q q' : Ptr),
    h.Hops p q k → h.Hops p q' k → q = q'
  | 0, p, q, q', h1, h2 => by
    rw [((hops_zero h p q).mp h1).1, ((hops_zero h p q').mp h2).1]
  | k + 1, p, q, q', h1, h2 =>
    hops_node_unique h k _ q q' ((hops_succ h p q k).mp h1).2 ((hops_succ h p q' k).mp h2).2

theorem hops_tail_last (h : Heap) : ∀ (k k' : Nat) (p q q' : Ptr),
    h.Hops p q k → h.nast q = 0 → h.Hops p q' k' → k' ≤ k
  | _, 0, _, _, _, _, _, _ => Nat.zero_le _
  | 0, k' + 1, p, q, q', h1, hq, h2 => by
    obtain ⟨rfl, -⟩ := (hops_zero h p q).mp h1
    have := ((hops_succ h q q' k').mp h2).2
    rw [hq] at this
    exact absurd this (hops_null h q' k')
  | k + 1, k' + 1, p, q, q', h1, hq, h2 => by
    have := hops_tail_last h k k' _ q q' ((hops_succ h p q k).mp h1).2 hq
      ((hops_succ h p q' k').mp h2).2
    omega

/-! ## The columns the discovery assigns -/

theorem walk_null (h : Heap) (fuel : Nat) (i : Int) (st : Discovery) :
    walk h fuel 0 i st = some st := by
  cases fuel <;> simp [walk]

theorem walkStep_i_self (h : Heap) (p : Ptr) (i : Int) (st : Discovery) (hn : h.nast p ≠ 0) :
    ((walkStep h p i st).tree_nodes.val (h.nast p)).i
      = max (st.tree_nodes.val (h.nast p)).i (i + 1) := by
  rw [walkStep_val_self h p i st hn]
  unfold TreeNode.addPredecessorUnique
  simp only
  split <;> (simp only [max_def]; split <;> split <;> omega)

theorem walk_col (h : Heap) (rank : Ptr → Nat)
    (hr : ∀ p, p ≠ 0 → h.nast p ≠ 0 → rank (h.nast p) < rank p) :
    ∀ (fuel : Nat) (p : Ptr) (i : Int) (st st' : Discovery),
      walk h fuel p i st = some st' → ∀ q,
        (∀ k, h.Hops p q (k + 1) →
          (st'.tree_nodes.val q).i = max (st.tree_nodes.val q).i (i + (k + 1))) ∧
        ((∀ k, ¬ h.Hops p q (k + 1)) → (st'.tree_nodes.val q).i = (st.tree_nodes.val q).i)
  | 0, p, i, st, st', hw, q => by
    unfold walk at hw
    split at hw
    · rename_i hp; subst hp; cases hw
      exact ⟨fun k hk => absurd hk (hops_null h q _), fun _ => rfl⟩
    · cases hw
  | fuel + 1, p, i, st, st', hw, q => by
    unfold walk at hw
    split at hw
    · rename_i hp; subst hp; cases hw
      exact ⟨fun k hk => absurd hk (hops_null h q _), fun _ => rfl⟩
    · rename_i hp
      by_cases hn : h.nast p = 0
      · rw [hn, walk_null] at hw
        cases hw
        rw [walkStep_tail h p i st hn]
        refine ⟨fun k hk => ?_, fun _ => rfl⟩
        have := ((hops_succ h p q k).mp hk).2
        rw [hn] at this
        exact absurd this (hops_null h q k)
      · have ih := walk_col h rank hr fuel (h.nast p) (i + 1) (walkStep h p i st) st' hw q
        have hself : ∀ k, ¬ h.Hops (h.nast p) (h.nast p) (k + 1) := by
          intro k hk
          have := hops_rank h rank hr _ _ _ hk
          omega
        constructor
        · intro k hk
          have hk' := ((hops_succ h p q k).mp hk).2
          cases k with
          | zero =>
            obtain ⟨rfl, -⟩ := (hops_zero h _ q).mp hk'
            rw [ih.2 hself, walkStep_i_self h p i st hn]
            simp
          | succ k =>
            have hq : q ≠ h.nast p := fun heq => hself k (heq ▸ hk')
            rw [ih.1 k hk', walkStep_val_ne h p i st hq]
            push_cast
            congr 1
            ring
        · intro hno
          have hq : q ≠ h.nast p := by
            intro heq
            exact hno 0 ((hops_succ h p q 0).mpr ⟨hp, (hops_zero h _ _).mpr ⟨heq, hn⟩⟩)
          rw [ih.2 (fun k hk => hno (k + 1) ((hops_succ h p q (k + 1)).mpr ⟨hp, hk⟩)),
            walkStep_val_ne h p i st hq]

/-! ## A single root -/

theorem length_le_one_of_all_eq {α : Type} (a : α) : ∀ (l : List α), l.Nodup →
    (∀ x ∈ l, x = a) → l.length ≤ 1
  | [], _, _ => by simp
  | [_], _, _ => by simp
  | x :: y :: rest, hnd, hall => by
    exfalso
    have hx := hall x (by simp)
    have hy := hall y (by simp)
    rw [List.nodup_cons] at hnd
    exact hnd.1 (by rw [hx, hy]; simp)

theorem eq_singleton_of_all_eq {α : Type} (a : α) (l : List α) (hnd : l.Nodup)
    (hall : ∀ x ∈ l, x = a) (ha : a ∈ l) : l = [a] := by
  have hlen := length_le_one_of_all_eq a l hnd hall
  match l, hlen, ha, hall with
  | [x], _, _, hall => rw [hall x (by simp)]
  | [], _, ha, _ => cases ha
  | _ :: _ :: _, hlen, _, _ => simp at hlen

theorem seed_row_of_single_tail {h : Heap} {pointers : List (Ptr × String)} {d : Discovery}
    {l : Layout} (ok : LayoutOK h pointers d l) (t : Ptr) (ht : l.last_elements = [t]) :
    (l.tree_nodes.val t).j = 0 := by
  obtain ⟨T, hperm, hhead, hmem⟩ := ok.seeds
  rw [ht] at hperm hmem
  have hT := List.perm_singleton.mp hperm
  have hin := hmem t (by simp)
  match T, hT, hhead, hin with
  | [x], _, hhead, hin =>
    have hx := hhead x (by simp)
    rw [List.mem_singleton] at hin
    rw [← hin] at hx
    exact hx
  | [], hT, _, _ => simp at hT
  | _ :: _ :: _, hT, _, _ => simp at hT

theorem discover_single (h : Heap) (fuel : Nat) (p : Ptr) (label : String) (hp : p ≠ 0) :
    discover h fuel [(p, label)] {} = walk h fuel p 0 (rootInit {} (p, label)) := by
  simp only [discover, discoverRoot_node h fuel {} (p, label) hp]
  cases walk h fuel p 0 (rootInit {} (p, label)) <;> rfl

theorem rootInit_empty_i (pp : Ptr × String) (q : Ptr) :
    ((rootInit {} pp).tree_nodes.val q).i = 0 := by
  by_cases hq : q = pp.1
  · subst hq; rw [rootInit_val_self]
  · rw [rootInit_val_ne _ _ hq]

/-- The layout of a single chain: the node `k` hops after the root is in
column `k` of row 0. -/
theorem single_root_layout (h : Heap) (hac : h.Acyclic) (p : Ptr) (label : String) :
    ∃ l, layout h [(p, label)] = some l ∧
      ∀ (k : Nat) (c : Ptr), h.Hops p c k →
        (l.tree_nodes.val c).i = k ∧ (l.tree_nodes.val c).j = 0 := by
  obtain ⟨d, l, hd, hl, ok⟩ := layout_ok h hac [(p, label)]
  refine ⟨l, hl, ?_⟩
  by_cases hp : p = 0
  · subst hp
    intro k c hc
    exact absurd hc (hops_null h c k)
  obtain ⟨rank, hr⟩ := hac
  rw [discover_single h _ p label hp] at hd
  have hkey : ∀ c k, h.Hops p c k → c ∈ l.tree_nodes.keys := fun c k hc =>
    (ok.reach_iff c).mpr ⟨(p, label), by simp, hp, hops_reach h hc⟩
  have hkeyhops : ∀ c, c ∈ l.tree_nodes.keys → ∃ k, h.Hops p c k := by
    intro c hc
    obtain ⟨pp, hpp, -, hreach⟩ := (ok.reach_iff c).mp hc
    rw [List.mem_singleton] at hpp
    subst hpp
    exact reach_hops h hreach
  -- the columns after the discovery
  have hdisc : ∀ c k, h.Hops p c k → (d.tree_nodes.val c).i = k := by
    intro c k hc
    have hw := walk_col h rank hr _ p 0 _ d hd c
    cases k with
    | zero =>
      obtain ⟨rfl, -⟩ := (hops_zero h p c).mp hc
      rw [hw.2 (fun k hk => by have := hops_rank h rank hr _ _ _ hk; omega), rootInit_empty_i]
      rfl
    | succ k =>
      rw [hw.1 k hc, rootInit_empty_i]
      simp only [max_def]
      split <;> push_cast <;> omega
  -- the only tail
  have htail : ∀ t k, h.Hops p t k → h.nast t = 0 → l.last_elements = [t] := by
    intro t k ht ht0
    refine eq_singleton_of_all_eq t _ (by rw [ok.last]; exact ok.dinv.tails_nodup) ?_
      ((ok.tails_iff t).mpr ⟨hkey t k ht, ht0⟩)
    intro x hx
    obtain ⟨hxk, hx0⟩ := (ok.tails_iff x).mp hx
    obtain ⟨kx, hkx⟩ := hkeyhops x hxk
    have h1 := hops_tail_last h _ _ _ _ _ ht ht0 hkx
    have h2 := hops_tail_last h _ _ _ _ _ hkx hx0 ht
    have : kx = k := by omega
    subst this
    exact hops_node_unique h _ _ _ _ hkx ht
  -- a node of the chain has one edge
  have hone : ∀ c k, h.Hops p c k → h.nast c ≠ 0 →
      (l.tree_nodes.val (h.nast c)).predecessors.length = 1 := by
    intro c k hc hn
    have hnk := hkey _ _ (hops_step h k p c hc hn)
    have hpn : ¬ p = h.nast c := by
      intro heq
      have h0 : h.Hops p (h.nast c) 0 := (hops_zero h _ _).mpr ⟨heq.symm, hp⟩
      have := hops_index_unique h rank hr _ _ _ _ h0 (hops_step h k p c hc hn)
      omega
    have hcount : (l.tree_nodes.srcs (h.nast c)).count 0 = 0 := by
      rw [ok.same.srcs, ok.dinv.root_count _ hn]
      simp [hpn]
    have hnz : ∀ f ∈ l.tree_nodes.srcs (h.nast c), f ≠ 0 := by
      intro f hf hf0
      subst hf0
      exact (List.count_eq_zero.mp hcount) hf
    have hnd : (l.tree_nodes.srcs (h.nast c)).Nodup := by
      have := ok.graph.src_nodup (h.nast c)
      rwa [List.filter_eq_self.mpr (fun f hf => by simpa using hnz f hf)] at this
    have hall : ∀ f ∈ l.tree_nodes.srcs (h.nast c), f = c := by
      intro f hf
      obtain ⟨hfn, hfk⟩ := ok.graph.src_ok _ f hf (hnz f hf)
      obtain ⟨kf, hkf⟩ := hkeyhops f hfk
      have hstep := hops_step h kf p f hkf (by rw [hfn]; exact hn)
      rw [hfn] at hstep
      have := hops_index_unique h rank hr _ _ _ _ hstep (hops_step h k p c hc hn)
      have hkk : kf = k := by omega
      subst hkk
      exact hops_node_unique h _ _ _ _ hkf hc
    have hle := length_le_one_of_all_eq c _ hnd hall
    have hne := ok.graph.src_ne _ hnk
    have hlen : (l.tree_nodes.srcs (h.nast c)).length = 1 := by
      cases hs : l.tree_nodes.srcs (h.nast c) with
      | nil => exact absurd hs hne
      | cons x xs =>
        rw [hs] at hle
        simp only [List.length_cons] at hle ⊢
        omega
    simpa [TreeMap.srcs, TreeNode.srcs] using hlen
  -- columns and rows, from the tail backwards
  have main : ∀ (n : Nat) (c : Ptr) (k : Nat), rank c = n → h.Hops p c k →
      (l.tree_nodes.val c).i = k ∧ (l.tree_nodes.val c).j = 0 := by
    intro n
    induction n using Nat.strong_induction_on with
    | _ n ih =>
      intro c k hn hc
      have hck := hkey c k hc
      by_cases hc0 : h.nast c = 0
      · refine ⟨?_, seed_row_of_single_tail ok c (htail c k hc hc0)⟩
        rw [ok.same.tail_i c hc0]
        exact hdisc c k hc
      · have hlt := hr c (ok.graph.key_ne c hck) hc0
        rw [hn] at hlt
        obtain ⟨hi, hj⟩ := ih _ hlt (h.nast c) (k + 1) rfl (hops_step h k p c hc hc0)
        constructor
        · rw [ok.col c hck hc0, hi]
          push_cast
          ring
        · obtain ⟨e, he, -, hej⟩ := ok.edge c hck hc0
          obtain ⟨idx, hidx⟩ := List.getElem?_of_mem he
          have hlen := hone c k hc hc0
          have hidx0 : idx = 0 := by
            have := (List.getElem?_eq_some_iff.mp hidx).1
            omega
          subst hidx0
          have := ok.rows _ (ok.graph.closed c hck hc0).1 0 e hidx
          rw [← hej, this, hj]
          rfl
  exact fun k c hc => main _ c k rfl hc

/-! ## Claim C9 -/

set_option maxRecDepth 100000 in
/-- Claim C9 fails on `DRAW_LIST_DEMO`: the nodes 10, 20 and 30 are not in the
columns 1, 2 and 3, the node 10 being in column 0. -/
theorem C9_counterexample :
    ¬ ∀ l, layout demoHeap demoPointers = some l →
      (l.tree_nodes.entry 0x1020).i = 1 ∧ (l.tree_nodes.entry 0x1010).i = 2 ∧
        (l.tree_nodes.entry 0x1000).i = 3 := by
  intro hall
  have h1 : (layout demoHeap demoPointers).map (fun l => (l.tree_nodes.entry 0x1020).i)
      = some 0 := by decide
  cases hl : layout demoHeap demoPointers with
  | none => rw [hl] at h1; cases h1
  | some l =>
    rw [hl] at h1
    simp only [Option.map_some', Option.some.injEq] at h1
    have := (hall l hl).1
    rw [h1] at this
    exact absurd this (by decide)

/-- Claim C9, amended: for a single root on a finite acyclic heap, the node
met `k` hops after the root, which is the `k + 1`-th node of the chain, is
placed in column `k` of row 0. -/
theorem C9_single_chain_columns (h : Heap) (p : Ptr) (label : String) (hac : h.Acyclic) :
    ∃ l, layout h [(p, label)] = some l ∧
      ∀ (n k : Nat) (c : Ptr), (h.chain n p)[k]? = some c →
        (l.tree_nodes.entry c).i = k ∧ (l.tree_nodes.entry c).j = 0 := by
  obtain ⟨l, hl, hall⟩ := single_root_layout h hac p label
  exact ⟨l, hl, fun n k c hc => hall k c ⟨n, hc⟩⟩

set_option maxRecDepth 100000 in
/-- Claim C9, amended, on `DRAW_LIST_DEMO`: the nodes 10, 20 and 30 are in the
columns 0, 1 and 2 of row 0. -/
theorem C9_single_chain_columns_witness :
    demoHeap.Acyclic ∧
    (∃ l, layout demoHeap [(0x1020, "glowa")] = some l ∧
      ∀ (n k : Nat) (c : Ptr), (demoHeap.chain n 0x1020)[k]? = some c →
        (l.tree_nodes.entry c).i = k ∧ (l.tree_nodes.entry c).j = 0) ∧
    demoHeap.chain 3 0x1020 = [0x1020, 0x1010, 0x1000] ∧
    (layout demoHeap demoPointers).map (fun l =>
      [((l.tree_nodes.entry 0x1020).i, (l.tree_nodes.entry 0x1020).j),
       ((l.tree_nodes.entry 0x1010).i, (l.tree_nodes.entry 0x1010).j),
       ((l.tree_nodes.entry 0x1000).i, (l.tree_nodes.entry 0x1000).j)])
      = some [(0, 0), (1, 0), (2, 0)] :=
  ⟨acyclic_of_cells demoHeap id (by decide),
    C9_single_chain_columns demoHeap 0x1020 "glowa" (acyclic_of_cells demoHeap id (by decide)),
    by decide, by decide⟩

/-! ## Two chains into a common tail -/

theorem hops_pred (h : Heap) : ∀ (k : Nat) (p q : Ptr), h.Hops p q (k + 1) →
    ∃ f, h.Hops p f k ∧ h.nast f = q
  | 0, p, q, hq => by
    obtain ⟨hp, hq'⟩ := (hops_succ h p q 0).mp hq
    obtain ⟨rfl, -⟩ := (hops_zero h _ q).mp hq'
    exact ⟨p, (hops_zero h p p).mpr ⟨rfl, hp⟩, rfl⟩
  | k + 1, p, q, hq => by
    obtain ⟨hp, hq'⟩ := (hops_succ h p q (k + 1)).mp hq
    obtain ⟨f, hf, hfq⟩ := hops_pred h k _ q hq'
    exact ⟨f, (hops_succ h p f k).mpr ⟨hp, hf⟩, hfq⟩

theorem reach_tail_eq (h : Heap) {t s : Ptr} (ht : h.nast t = 0) (hs : h.Reach t s) : s = t := by
  obtain ⟨k, hk⟩ := reach_hops h hs
  cases k with
  | zero => exact ((hops_zero h t s).mp hk).1
  | succ k =>
    have := ((hops_succ h t s k).mp hk).2
    rw [ht] at this
    exact absurd this (hops_null h s k)

theorem reach_ne_zero (h : Heap) {p q : Ptr} (hq : h.Reach p q) : q ≠ 0 :=
  let ⟨n, hn⟩ := hq
  chain_ne_zero h n p q hn

theorem pred_unique (h : Heap) (rank : Ptr → Nat)
    (hr : ∀ p, p ≠ 0 → h.nast p ≠ 0 → rank (h.nast p) < rank p) {p f f' t : Ptr} (ht : t ≠ 0)
    (hf : h.Reach p f) (hft : h.nast f = t) (hf' : h.Reach p f') (hft' : h.nast f' = t) :
    f = f' := by
  obtain ⟨k, hk⟩ := reach_hops h hf
  obtain ⟨k', hk'⟩ := reach_hops h hf'
  have h1 := hops_step h k p f hk (by rw [hft]; exact ht)
  have h2 := hops_step h k' p f' hk' (by rw [hft']; exact ht)
  rw [hft] at h1
  rw [hft'] at h2
  have := hops_index_unique h rank hr _ _ _ _ h1 h2
  have hkk : k = k' := by omega
  subst hkk
  exact hops_node_unique h _ _ _ _ hk hk'

theorem exists_enter (h : Heap) {p t : Ptr} (hreach : h.Reach p t) :
    ∃ s, (p = t ∧ s = 0) ∨ (p ≠ t ∧ s ≠ 0 ∧ h.Reach p s ∧ h.nast s = t) := by
  obtain ⟨k, hk⟩ := reach_hops h hreach
  cases k with
  | zero => exact ⟨0, Or.inl ⟨((hops_zero h p t).mp hk).1.symm, rfl⟩⟩
  | succ k =>
    by_cases hpt : p = t
    · exact ⟨0, Or.inl ⟨hpt, rfl⟩⟩
    · obtain ⟨f, hf, hft⟩ := hops_pred h k p t hk
      exact ⟨f, Or.inr ⟨hpt, reach_ne_zero h (hops_reach h hf), hops_reach h hf, hft⟩⟩

theorem nodup_of_count_filter {a : Ptr} {l : List Ptr} (hc : l.count a ≤ 1)
    (hf : (l.filter (· ≠ a)).Nodup) : l.Nodup := by
  rw [List.nodup_iff_count_le_one]
  intro b
  by_cases hb : b = a
  · rw [hb]; exact hc
  · have := List.nodup_iff_count_le_one.mp hf b
    rwa [List.count_filter (by simpa using hb)] at this

theorem subject_drawEntry (h : Heap) (g : Metrics) (k : Ptr) (v : TreeNode) :
    ∀ c ∈ drawEntry h g (k, v), c.subject = k := by
  intro c hc
  unfold drawEntry at hc
  simp only [List.mem_append, List.mem_singleton, List.mem_map] at hc
  rcases hc with (hc | hc) | ⟨e, -, hc⟩
  · rw [hc]; rfl
  · split at hc
    · rw [List.mem_singleton] at hc; rw [hc]; rfl
    · cases hc
  · rw [← hc]
    unfold drawPred
    simp only
    split <;> rfl

theorem subject_drawNulls (g : Metrics) : ∀ (ps : List (Ptr × String)) (pj : Int),
    ∀ c ∈ drawNulls g ps pj, c.subject = 0
  | [], _, c, hc => by cases hc
  | pp :: rest, pj, c, hc => by
    simp only [drawNulls, List.mem_cons] at hc
    rcases hc with hc | hc
    · rw [hc]; rfl
    · exact subject_drawNulls g rest _ c hc

theorem flatten_map_single (t : Ptr) (f : Ptr → List Draw) (E : List Draw)
    (hft : f t = E) : ∀ ks : List Ptr, ks.Nodup → t ∈ ks → (∀ k ∈ ks, k ≠ t → f k = []) →
      (ks.map f).flatten = E
  | [], _, ht, _ => by cases ht
  | k :: ks, hnd, ht, hf => by
    rw [List.nodup_cons] at hnd
    simp only [List.map_cons, List.flatten_cons]
    have hrest : ∀ ks' : List Ptr, (∀ x ∈ ks', x ≠ t ∧ f x = []) → (ks'.map f).flatten = [] := by
      intro ks'
      induction ks' with
      | nil => intro _; rfl
      | cons x xs ih =>
        intro hall
        simp only [List.map_cons, List.flatten_cons, (hall x (by simp)).2, List.nil_append]
        exact ih (fun y hy => hall y (List.mem_cons_of_mem _ hy))
    by_cases hk : k = t
    · subst hk
      rw [hft, hrest ks (fun x hx => ?_), List.append_nil]
      have hxk : x ≠ k := fun heq => hnd.1 (heq ▸ hx)
      exact ⟨hxk, hf x (List.mem_cons_of_mem _ hx) hxk⟩
    · rw [hf k (by simp) hk, List.nil_append]
      rcases List.mem_cons.mp ht with ht | ht
      · exact absurd ht.symm hk
      · exact flatten_map_single t f E hft ks hnd.2 ht
          (fun x hx => hf x (List.mem_cons_of_mem _ hx))

theorem filter_subject_drawCalls (h : Heap) (l : Layout) (t : Ptr) (ht0 : t ≠ 0)
    (hnd : l.tree_nodes.keys.Nodup) (ht : t ∈ l.tree_nodes.keys) :
    (drawCalls h l).filter (fun c => c.subject = t)
      = drawEntry h (metrics h l) (t, l.tree_nodes.val t) := by
  unfold drawCalls
  simp only [List.filter_append, List.filter_flatten, List.map_map, TreeMap.toList]
  have hnull : (drawNulls (metrics h l) l.null_pointers l.nr).filter (fun c => c.subject = t)
      = [] := by
    rw [List.filter_eq_nil_iff]
    intro c hc
    rw [subject_drawNulls _ _ _ c hc]
    simpa using ht0.symm
  rw [hnull, List.append_nil]
  refine flatten_map_single t _ _ ?_ _ hnd ht ?_
  · simp only [Function.comp]
    rw [List.filter_eq_self]
    intro c hc
    simpa using subject_drawEntry h _ t _ c hc
  · intro k _ hkt
    simp only [Function.comp]
    rw [List.filter_eq_nil_iff]
    intro c hc
    rw [subject_drawEntry h _ k _ c hc]
    simpa using hkt

theorem chain_stable (h : Heap) : ∀ (N : Nat) (p : Ptr), (h.chain (N + 1) p).length ≤ N →
    ∀ n, h.chain n p ⊆ h.chain N p
  | 0, p, hl, n => by
    by_cases hp : p = 0
    · subst hp; simp
    · rw [chain_succ h 0 hp] at hl; simp at hl
  | N + 1, p, hl, n => by
    by_cases hp : p = 0
    · subst hp; simp
    · rw [chain_succ h (N + 1) hp] at hl
      have hl' : (h.chain (N + 1) (h.nast p)).length ≤ N := by
        simp only [List.length_cons] at hl; omega
      cases n with
      | zero => simp
      | succ n =>
        rw [chain_succ h n hp, chain_succ h N hp]
        exact List.cons_subset_cons _ (chain_stable h N _ hl' n)

theorem reach_root_ne_zero (h : Heap) {p q : Ptr} (hq : h.Reach p q) : p ≠ 0 := by
  rintro rfl
  obtain ⟨n, hn⟩ := hq
  simp at hn

/-! ## Claim C8 -/

/-- Claim C8: for two roots pointing at distinct nodes of a finite acyclic heap
whose chains share exactly one node, a tail `t`, the map has one entry for `t`
and one rectangle is drawn for it; the entry holds exactly two predecessor
edges, of distinct sources; the first has the row of `t` and is drawn by
`drawArrow`, a straight arrow, the second has another row and is drawn by
`drawPath`, with a path of three points. -/
theorem C8_convergence (h : Heap) (p1 p2 t : Ptr) (l1 l2 : String) (hac : h.Acyclic)
    (hne : p1 ≠ p2) (ht : h.nast t = 0) (hr1 : h.Reach p1 t) (hr2 : h.Reach p2 t)
    (hshare : ∀ x, h.Reach p1 x → h.Reach p2 x → x = t) :
    ∃ l, layout h [(p1, l1), (p2, l2)] = some l ∧
      l.tree_nodes.keys.count t = 1 ∧ (rectangles (drawCalls h l)).count t = 1 ∧
      ∃ e1 e2, (l.tree_nodes.entry t).predecessors = [e1, e2] ∧ e1.from_ ≠ e2.from_ ∧
        e1.j = (l.tree_nodes.entry t).j ∧ e2.j ≠ (l.tree_nodes.entry t).j ∧
        ∃ (x y w hh xa xb ya xs xe : Int) (path : List (Int × Int)), path.length = 3 ∧
          (drawCalls h l).filter (fun c => c.subject = t)
            = [.node x y w hh t, .tailArrow xa xb ya t, .predArrow xs xe ya t e1.label,
                .predPath path t e2.label] := by
  obtain ⟨d, l, -, hl, ok⟩ := layout_ok h hac [(p1, l1), (p2, l2)]
  obtain ⟨rank, hr⟩ := hac
  have ht0 : t ≠ 0 := reach_ne_zero h hr1
  have hp1 : p1 ≠ 0 := reach_root_ne_zero h hr1
  have hp2 : p2 ≠ 0 := reach_root_ne_zero h hr2
  have hkey1 : ∀ x, h.Reach p1 x → x ∈ l.tree_nodes.keys := fun x hx =>
    (ok.reach_iff x).mpr ⟨(p1, l1), by simp, hp1, hx⟩
  have hkey2 : ∀ x, h.Reach p2 x → x ∈ l.tree_nodes.keys := fun x hx =>
    (ok.reach_iff x).mpr ⟨(p2, l2), by simp, hp2, hx⟩
  have htk : t ∈ l.tree_nodes.keys := hkey1 t hr1
  have hnt : ∀ s, h.nast s = t → s ≠ t := by
    intro s hs hst
    rw [hst, ht] at hs
    exact ht0 hs.symm
  obtain ⟨s1, hs1⟩ := exists_enter h hr1
  obtain ⟨s2, hs2⟩ := exists_enter h hr2
  have hcount : (l.tree_nodes.srcs t).count 0
      = (if p1 = t then 1 else 0) + (if p2 = t then 1 else 0) := by
    rw [ok.same.srcs, ok.dinv.root_count t ht0]
    by_cases h1 : p1 = t <;> by_cases h2 : p2 = t <;> simp [List.filter_cons, h1, h2]
  have hzero : (0 : Ptr) ∈ l.tree_nodes.srcs t ↔ p1 = t ∨ p2 = t := by
    rw [← List.count_pos_iff, hcount]
    by_cases h1 : p1 = t <;> by_cases h2 : p2 = t <;> simp [h1, h2]
  have hmem : ∀ s, s ∈ l.tree_nodes.srcs t ↔ s = s1 ∨ s = s2 := by
    intro s
    constructor
    · intro hs
      by_cases hs0 : s = 0
      · subst hs0
        rcases hzero.mp hs with h1 | h2
        · rcases hs1 with ⟨-, h0⟩ | ⟨hc, -⟩
          · exact Or.inl h0.symm
          · exact absurd h1 hc
        · rcases hs2 with ⟨-, h0⟩ | ⟨hc, -⟩
          · exact Or.inr h0.symm
          · exact absurd h2 hc
      · obtain ⟨hst, hsk⟩ := ok.graph.src_ok t s hs hs0
        obtain ⟨pp, hpp, -, hreach⟩ := (ok.reach_iff s).mp hsk
        simp only [List.mem_cons, List.mem_singleton, List.not_mem_nil, or_false] at hpp
        rcases hpp with rfl | rfl
        · rcases hs1 with ⟨hc, -⟩ | ⟨-, -, hre, hnx⟩
          · exact absurd (reach_tail_eq h ht (hc ▸ hreach)) (hnt s hst)
          · exact Or.inl (pred_unique h rank hr ht0 hreach hst hre hnx)
        · rcases hs2 with ⟨hc, -⟩ | ⟨-, -, hre, hnx⟩
          · exact absurd (reach_tail_eq h ht (hc ▸ hreach)) (hnt s hst)
          · exact Or.inr (pred_unique h rank hr ht0 hreach hst hre hnx)
    · rintro (rfl | rfl)
      · rcases hs1 with ⟨hc, h0⟩ | ⟨-, -, hre, hnx⟩
        · rw [h0]; exact hzero.mpr (Or.inl hc)
        · have := (ok.graph.closed _ (hkey1 _ hre) (by rw [hnx]; exact ht0)).2
          rwa [hnx] at this
      · rcases hs2 with ⟨hc, h0⟩ | ⟨-, -, hre, hnx⟩
        · rw [h0]; exact hzero.mpr (Or.inr hc)
        · have := (ok.graph.closed _ (hkey2 _ hre) (by rw [hnx]; exact ht0)).2
          rwa [hnx] at this
  have hs12 : s1 ≠ s2 := by
    intro heq
    rcases hs1 with ⟨hc1, h01⟩ | ⟨-, hn1, hre1, hnx1⟩
    · rcases hs2 with ⟨hc2, -⟩ | ⟨-, hn2, -, -⟩
      · exact hne (hc1.trans hc2.symm)
      · exact hn2 (heq ▸ h01)
    · rcases hs2 with ⟨-, h02⟩ | ⟨-, -, hre2, -⟩
      · exact hn1 (heq ▸ h02)
      · exact hnt s1 hnx1 (hshare s1 hre1 (heq ▸ hre2))
  have hSnd : (l.tree_nodes.srcs t).Nodup := by
    refine nodup_of_count_filter (a := 0) ?_ (ok.graph.src_nodup t)
    rw [hcount]
    by_cases h1 : p1 = t <;> by_cases h2 : p2 = t <;> simp [h1, h2]
    exact hne (h1.trans h2.symm)
  have hperm : List.Perm (l.tree_nodes.srcs t) [s1, s2] := by
    refine (List.perm_ext_iff_of_nodup hSnd ?_).mpr ?_
    · simp [hs12]
    · intro s; rw [hmem]; simp
  have hlen : (l.tree_nodes.val t).predecessors.length = 2 := by
    have := hperm.length_eq
    simpa [TreeMap.srcs, TreeNode.srcs] using this
  obtain ⟨e1, e2, hpreds⟩ : ∃ e1 e2, (l.tree_nodes.val t).predecessors = [e1, e2] := by
    match hp : (l.tree_nodes.val t).predecessors, hlen with
    | [a, b], _ => exact ⟨a, b, rfl⟩
  have hfrom : e1.from_ ≠ e2.from_ := by
    have := hSnd
    simp only [TreeMap.srcs, TreeNode.srcs, hpreds, List.map_cons, List.map_nil,
      List.nodup_cons, List.mem_singleton, List.not_mem_nil, not_false_eq_true,
      List.nodup_nil, and_true] at this
    exact this
  have hj1 : e1.j = (l.tree_nodes.val t).j := by
    have := ok.rows t htk 0 e1 (by rw [hpreds]; rfl)
    simpa using this
  have hj2 : e2.j = (l.tree_nodes.val t).j + 1 := by
    have := ok.rows t htk 1 e2 (by rw [hpreds]; rfl)
    simpa using this
  have hc1 : ((l.tree_nodes.val t).j = e1.j) = True := by rw [hj1]; simp
  have hc2 : ((l.tree_nodes.val t).j = e2.j) = False := by
    rw [hj2]; simp
  refine ⟨l, hl, List.count_eq_one_of_mem ok.graph.keys_nodup htk, ?_, e1, e2, hpreds, hfrom,
    hj1, by rw [hj2]; simp [TreeMap.entry], ?_⟩
  · rw [rectangles_drawCalls h l ok.graph.key_ne]
    exact List.count_eq_one_of_mem ok.graph.keys_nodup htk
  · rw [filter_subject_drawCalls h l t ht0 ok.graph.keys_nodup htk]
    simp only [drawEntry, ht, if_true, hpreds, List.map_cons, List.map_nil, drawPred, hc1,
      hc2, if_false, List.cons_append, List.nil_append, List.singleton_append]
    refine ⟨_, _, _, _, _, _, _, _, _, _, ?_, rfl⟩
    rfl

set_option maxRecDepth 100000 in
/-- Claim C8 on `convergeHeap` with the roots `a` and `b`: the calls made for
the common tail are a rectangle, the terminating arrow, the straight arrow
from `a` and the elbow path from `b`. -/
theorem C8_convergence_witness :
    convergeHeap.Acyclic ∧ (0x1010 : Ptr) ≠ 0x1020 ∧ convergeHeap.nast 0x1000 = 0 ∧
    convergeHeap.Reach 0x1010 0x1000 ∧ convergeHeap.Reach 0x1020 0x1000 ∧
    (∀ x, convergeHeap.Reach 0x1010 x → convergeHeap.Reach 0x1020 x → x = 0x1000) ∧
    (∃ l, layout convergeHeap [(0x1010, "a"), (0x1020, "b")] = some l ∧
      l.tree_nodes.keys.count 0x1000 = 1 ∧ (rectangles (drawCalls convergeHeap l)).count 0x1000 = 1 ∧
      ∃ e1 e2, (l.tree_nodes.entry 0x1000).predecessors = [e1, e2] ∧ e1.from_ ≠ e2.from_ ∧
        e1.j = (l.tree_nodes.entry 0x1000).j ∧ e2.j ≠ (l.tree_nodes.entry 0x1000).j ∧
        ∃ (x y w hh xa xb ya xs xe : Int) (path : List (Int × Int)), path.length = 3 ∧
          (drawCalls convergeHeap l).filter (fun c => c.subject = 0x1000)
            = [.node x y w hh 0x1000, .tailArrow xa xb ya 0x1000,
                .predArrow xs xe ya 0x1000 e1.label, .predPath path 0x1000 e2.label]) ∧
    (layout convergeHeap [(0x1010, "a"), (0x1020, "b")]).map (fun l =>
      (drawCalls convergeHeap l).filter (fun c => c.subject = 0x1000))
      = some [.node 177 10 37 40 0x1000, .tailArrow 214 284 30 0x1000,
          .predArrow 107 177 30 0x1000 "nast",
          .predPath [(107, 90), (195, 90), (195, 50)] 0x1000 "nast"] := by
  have hac : convergeHeap.Acyclic := acyclic_of_cells convergeHeap id (by decide)
  have hr1 : convergeHeap.Reach 0x1010 0x1000 := ⟨2, by decide⟩
  have hr2 : convergeHeap.Reach 0x1020 0x1000 := ⟨2, by decide⟩
  have hshare : ∀ x, convergeHeap.Reach 0x1010 x → convergeHeap.Reach 0x1020 x → x = 0x1000 := by
    have key : ∀ x ∈ convergeHeap.chain 2 0x1010, x ∈ convergeHeap.chain 2 0x1020 → x = 0x1000 := by
      decide
    rintro x ⟨n1, h1⟩ ⟨n2, h2⟩
    exact key x (chain_stable convergeHeap 2 0x1010 (by decide) n1 h1)
      (chain_stable convergeHeap 2 0x1020 (by decide) n2 h2)
  exact ⟨hac, by decide, by decide, hr1, hr2, hshare,
    C8_convergence convergeHeap 0x1010 0x1020 0x1000 "a" "b" hac (by decide) (by decide) hr1 hr2
      hshare, by decide⟩

/-! ## The end of the returned text -/

theorem endsWithLineFeed_text (a : String) : EndsWithLineFeed (a ++ "</text>\n") :=
  ⟨a ++ "</text>", by rw [String.append_assoc]; rfl⟩

theorem endsWithLineFeed_append (a : String) {b : String} (hb : EndsWithLineFeed b) :
    EndsWithLineFeed (a ++ b) := by
  obtain ⟨t, rfl⟩ := hb
  exact ⟨a ++ t, (String.append_assoc _ _ _).symm⟩

theorem drawArrow_end (x_start x_end y : Int) (addr : Ptr) (label s : String)
    (hs : drawArrow x_start x_end y addr label = some s) : EndsWithLineFeed s := by
  unfold drawArrow at hs
  simp only [Option.map_eq_some'] at hs
  obtain ⟨a, -, rfl⟩ := hs
  exact endsWithLineFeed_text _

theorem drawPath_end (path : List (Int × Int)) (addr : Ptr) (label s : String)
    (hs : drawPath path addr label = some s) : EndsWithLineFeed s := by
  unfold drawPath at hs
  split at hs
  · simp only [Option.map_eq_some'] at hs
    obtain ⟨a, -, rfl⟩ := hs
    exact endsWithLineFeed_text _
  · cases hs

theorem emit_end (h : Heap) (d : Draw) (s : String) (hs : d.emit h = some s) :
    s = "" ∨ EndsWithLineFeed s := by
  cases d with
  | node x y w hh p =>
    simp only [Draw.emit, Option.some.injEq] at hs
    subst hs
    unfold drawNode
    split
    · exact Or.inl rfl
    · exact Or.inr (endsWithLineFeed_text _)
  | tailArrow a b c p =>
    simp only [Draw.emit] at hs
    exact Or.inr (drawArrow_end _ _ _ _ _ s hs)
  | predArrow a b c p label =>
    simp only [Draw.emit] at hs
    exact Or.inr (drawArrow_end _ _ _ _ _ s hs)
  | predPath path p label =>
    simp only [Draw.emit] at hs
    exact Or.inr (drawPath_end _ _ _ s hs)
  | nullArrow a b c label =>
    simp only [Draw.emit] at hs
    exact Or.inr (drawArrow_end _ _ _ _ _ s hs)

theorem emitAll_end (h : Heap) : ∀ (ds : List Draw) (s : String), emitAll h ds = some s →
    s = "" ∨ EndsWithLineFeed s
  | [], s, hs => by
    simp only [emitAll, Option.some.injEq] at hs
    exact Or.inl hs.symm
  | d :: rest, s, hs => by
    simp only [emitAll] at hs
    split at hs
    · rename_i a b ha hb
      simp only [Option.some.injEq] at hs
      subst hs
      rcases emitAll_end h rest b hb with rfl | hb'
      · rw [String.append_empty]
        exact emit_end h d a ha
      · exact Or.inr (endsWithLineFeed_append a hb')
    · cases hs

theorem svgHeader_end (g : Metrics) : EndsWithLineFeed (svgHeader g) := by
  have key : ∀ a : String, EndsWithLineFeed (a ++ "  </defs>\n\n") :=
    fun a => ⟨a ++ "  </defs>\n", by rw [String.append_assoc]; rfl⟩
  exact key _

/-- Whatever the input, the text `generateLinkedListSVG` returns ends with a
line feed: it never ends with `</svg>`. -/
theorem generateLinkedListSVG_end (h : Heap) (pointers : List (Ptr × String)) (s : String)
    (hs : generateLinkedListSVG h pointers = some s) :
    EndsWithLineFeed s ∧ ¬ "</svg>".data <:+ s.data := by
  have hend : EndsWithLineFeed s := by
    unfold generateLinkedListSVG at hs
    cases hl : layout h pointers with
    | none => rw [hl] at hs; cases hs
    | some l =>
      rw [hl] at hs
      simp only [Option.bind, svgText, Option.map_eq_some'] at hs
      obtain ⟨body, hbody, rfl⟩ := hs
      rcases emitAll_end h _ body hbody with rfl | hb
      · rw [String.append_empty]; exact svgHeader_end _
      · exact endsWithLineFeed_append _ hb
  refine ⟨hend, ?_⟩
  obtain ⟨t, rfl⟩ := hend
  rintro ⟨pre, hpre⟩
  have h1 := congrArg List.getLast? hpre
  rw [String.data_append] at h1
  have e1 : ("</svg>" : String).data = ['<', '/', 's', 'v', 'g', '>'] := rfl
  have e2 : ("\n" : String).data = ['\n'] := rfl
  rw [e1, e2, List.getLast?_append, List.getLast?_append] at h1
  simp at h1

/-! ## Claims C13, C14 and C17 -/

theorem edge_unique {h : Heap} {m : TreeMap} (g : Graph h m) (n : Ptr) {e e' : Edge}
    (he : e ∈ (m.val n).predecessors) (he' : e' ∈ (m.val n).predecessors)
    (h0 : e.from_ ≠ 0) (heq : e.from_ = e'.from_) : e = e' := by
  have hnd := g.src_nodup n
  unfold TreeMap.srcs TreeNode.srcs at hnd
  rw [List.filter_map] at hnd
  refine List.inj_on_of_nodup_map hnd ?_ ?_ heq
  · exact List.mem_filter.mpr ⟨he, by simpa using h0⟩
  · exact List.mem_filter.mpr ⟨he', by simpa [← heq] using h0⟩

theorem mem_drawCalls_entry (h : Heap) (l : Layout) {k : Ptr} (hk : k ∈ l.tree_nodes.keys)
    {c : Draw} (hc : c ∈ drawEntry h (metrics h l) (k, l.tree_nodes.val k)) :
    c ∈ drawCalls h l := by
  unfold drawCalls
  refine List.mem_append_left _ (List.mem_flatten.mpr ⟨_, ?_, hc⟩)
  exact List.mem_map.mpr ⟨(k, l.tree_nodes.val k),
    List.mem_map.mpr ⟨k, hk, rfl⟩, rfl⟩

/-- Claim C13: for every finite acyclic input, whatever the depths at which the
roots discovered the nodes, after row resolution the column of every node with
a successor is the column of its successor minus one, so the gap is exactly
one; hence the column of a node `n` hops before its tail is the column the
discovery gave the tail, minus `n`. -/
theorem C13_column_is_successor_minus_one (h : Heap) (pointers : List (Ptr × String))
    (hac : h.Acyclic) :
    ∃ d l, discover h (h.cells.length + 2) pointers {} = some d ∧ layout h pointers = some l ∧
      (∀ p ∈ l.tree_nodes.keys, h.nast p ≠ 0 →
        (l.tree_nodes.entry p).i = (l.tree_nodes.entry (h.nast p)).i - 1 ∧
        (l.tree_nodes.entry (h.nast p)).i - (l.tree_nodes.entry p).i = 1) ∧
      (∀ p ∈ l.tree_nodes.keys, ∀ (t : Ptr) (n : Nat), h.Hops p t n → h.nast t = 0 →
        (l.tree_nodes.entry p).i = (d.tree_nodes.entry t).i - n) := by
  obtain ⟨d, l, hd, hl, ok⟩ := layout_ok h hac pointers
  refine ⟨d, l, hd, hl, ?_, ?_⟩
  · intro p hp hn
    have := ok.col p hp hn
    simp only [TreeMap.entry]
    omega
  · intro p hp t n
    induction n generalizing p with
    | zero =>
      intro hpt ht
      obtain ⟨rfl, -⟩ := (hops_zero h p t).mp hpt
      simp only [TreeMap.entry, ok.same.tail_i t ht]
      simp
    | succ n ih =>
      intro hpt ht
      obtain ⟨-, hpt'⟩ := (hops_succ h p t n).mp hpt
      have hn : h.nast p ≠ 0 := fun h0 => hops_null h t n (h0 ▸ hpt')
      have h1 := ih (h.nast p) (ok.graph.closed p hp hn).1 hpt' ht
      have h2 := ok.col p hp hn
      simp only [TreeMap.entry] at h1 ⊢
      rw [h2, h1]
      push_cast
      ring

set_option maxRecDepth 100000 in
/-- Claim C13 on `drawList_TEST_1`, where `n3` is found two hops after `n1`
and three hops after `n4`: the chain `n1, n2, n3` ends in the columns 1, 2, 3. -/
theorem C13_column_is_successor_minus_one_witness :
    test1Heap.Acyclic ∧
    (∃ d l, discover test1Heap (test1Heap.cells.length + 2) test1Pointers {} = some d ∧
      layout test1Heap test1Pointers = some l ∧
      (∀ p ∈ l.tree_nodes.keys, test1Heap.nast p ≠ 0 →
        (l.tree_nodes.entry p).i = (l.tree_nodes.entry (test1Heap.nast p)).i - 1 ∧
        (l.tree_nodes.entry (test1Heap.nast p)).i - (l.tree_nodes.entry p).i = 1) ∧
      (∀ p ∈ l.tree_nodes.keys, ∀ (t : Ptr) (n : Nat), test1Heap.Hops p t n →
        test1Heap.nast t = 0 → (l.tree_nodes.entry p).i = (d.tree_nodes.entry t).i - n)) ∧
    (layout test1Heap test1Pointers).map (fun l =>
      [(l.tree_nodes.entry 0x1020).i, (l.tree_nodes.entry 0x1010).i,
        (l.tree_nodes.entry 0x1000).i]) = some [1, 2, 3] :=
  ⟨acyclic_of_cells test1Heap id (by decide),
    C13_column_is_successor_minus_one test1Heap test1Pointers
      (acyclic_of_cells test1Heap id (by decide)),
    by decide⟩

/-- Claim C14: for every finite acyclic input, after row resolution the `k`-th
edge (from 0, in recorded order) of the predecessor list of every grid node `n`
has the row of `n` plus `k`, and every node that is the source of an edge into
`n` has the row of that edge. -/
theorem C14_edge_rows (h : Heap) (pointers : List (Ptr × String)) (hac : h.Acyclic) :
    ∃ l, layout h pointers = some l ∧
      ∀ n ∈ l.tree_nodes.keys,
        (∀ (k : Nat) (e : Edge), (l.tree_nodes.entry n).predecessors[k]? = some e →
          e.j = (l.tree_nodes.entry n).j + k) ∧
        (∀ e ∈ (l.tree_nodes.entry n).predecessors, e.from_ ≠ 0 →
          e.from_ ∈ l.tree_nodes.keys ∧ (l.tree_nodes.entry e.from_).j = e.j) := by
  obtain ⟨d, l, -, hl, ok⟩ := layout_ok h hac pointers
  refine ⟨l, hl, fun n hn => ⟨ok.rows n hn, ?_⟩⟩
  intro e he h0
  have hsrc : e.from_ ∈ l.tree_nodes.srcs n := List.mem_map.mpr ⟨e, he, rfl⟩
  obtain ⟨hnast, hkey⟩ := ok.graph.src_ok n e.from_ hsrc h0
  refine ⟨hkey, ?_⟩
  obtain ⟨e', he', hfrom, hj⟩ := ok.edge e.from_ hkey (by rw [hnast]; exact ok.graph.key_ne n hn)
  rw [hnast] at he'
  have := edge_unique ok.graph n he he' h0 hfrom.symm
  simp only [TreeMap.entry]
  rw [← hj, this]

set_option maxRecDepth 100000 in
/-- Claim C14 on `drawList_TEST_1`: the four edges into `n3` have the rows 0 to 3. -/
theorem C14_edge_rows_witness :
    test1Heap.Acyclic ∧
    (∃ l, layout test1Heap test1Pointers = some l ∧
      ∀ n ∈ l.tree_nodes.keys,
        (∀ (k : Nat) (e : Edge), (l.tree_nodes.entry n).predecessors[k]? = some e →
          e.j = (l.tree_nodes.entry n).j + k) ∧
        (∀ e ∈ (l.tree_nodes.entry n).predecessors, e.from_ ≠ 0 →
          e.from_ ∈ l.tree_nodes.keys ∧ (l.tree_nodes.entry e.from_).j = e.j)) ∧
    (layout test1Heap test1Pointers).map (fun l =>
      ((l.tree_nodes.entry 0x1000).j,
        (l.tree_nodes.entry 0x1000).predecessors.map fun e => (e.from_, e.label, e.j)))
      = some (0, [(0x1010, "nast", 0), (0, "n3", 1), (0x1030, "nast", 2), (0, "n5", 3)]) :=
  ⟨acyclic_of_cells test1Heap id (by decide),
    C14_edge_rows test1Heap test1Pointers (acyclic_of_cells test1Heap id (by decide)),
    by decide⟩

theorem drawArrow_line (x_start x_end y : Int) (addr : Ptr) (label s : String)
    (hs : drawArrow x_start x_end y addr label = some s) :
    ("  <line x1='" ++ toString x_start ++ "' y1='" ++ toString y
      ++ "' x2='" ++ toString x_end ++ "' y2='" ++ toString y
      ++ "' stroke='black' marker-end='url(#sll_arrow)'/>\n").data <:+: s.data := by
  unfold drawArrow at hs
  simp only [Option.map_eq_some'] at hs
  obtain ⟨a, -, rfl⟩ := hs
  refine ⟨("  <text x='" ++ toString (x_start + (x_end - x_start).tdiv 2) ++ "' y='"
      ++ toString (y + 15) ++ "' text-anchor='middle' font-size='10'>" ++ a ++ "</text>\n").data,
    ("  <text x='" ++ toString (x_start + (x_end - x_start).tdiv 2) ++ "' y='"
      ++ toString (y - 10) ++ "' text-anchor='middle'>" ++ label ++ "</text>\n").data, ?_⟩
  simp only [String.data_append, List.append_assoc]

/-- Claim C17: for every finite acyclic input and every predecessor edge whose
source is a node and whose row is the row of its target, the source is a grid
node in the column before the target, on the same row, and the call made for
the edge is a `drawArrow` from the right side of the rectangle of the source to
the left side of the rectangle of the target, at mid-height of the rectangles;
the line `drawArrow` writes has the same `y` at both ends. -/
theorem C17_straight_arrow (h : Heap) (pointers : List (Ptr × String)) (hac : h.Acyclic) :
    ∃ l, layout h pointers = some l ∧
      ∀ n ∈ l.tree_nodes.keys, ∀ e ∈ (l.tree_nodes.entry n).predecessors,
        e.from_ ≠ 0 → e.j = (l.tree_nodes.entry n).j →
        e.from_ ∈ l.tree_nodes.keys ∧
        (l.tree_nodes.entry e.from_).i = (l.tree_nodes.entry n).i - 1 ∧
        (l.tree_nodes.entry e.from_).j = (l.tree_nodes.entry n).j ∧
        ∃ (xf xn y w hh : Int),
          Draw.node xf y w hh e.from_ ∈ drawCalls h l ∧
          Draw.node xn y w hh n ∈ drawCalls h l ∧
          Draw.predArrow (xf + w) xn (y + hh.tdiv 2) n e.label ∈ drawCalls h l ∧
          ∀ s, (Draw.predArrow (xf + w) xn (y + hh.tdiv 2) n e.label).emit h = some s →
            ("  <line x1='" ++ toString (xf + w) ++ "' y1='" ++ toString (y + hh.tdiv 2)
              ++ "' x2='" ++ toString xn ++ "' y2='" ++ toString (y + hh.tdiv 2)
              ++ "' stroke='black' marker-end='url(#sll_arrow)'/>\n").data <:+: s.data := by
  obtain ⟨d, l, -, hl, ok⟩ := layout_ok h hac pointers
  refine ⟨l, hl, ?_⟩
  intro n hn e he h0 hrow
  simp only [TreeMap.entry] at he hrow ⊢
  have hsrc : e.from_ ∈ l.tree_nodes.srcs n := List.mem_map.mpr ⟨e, he, rfl⟩
  obtain ⟨hnast, hkey⟩ := ok.graph.src_ok n e.from_ hsrc h0
  have hn0 : h.nast e.from_ ≠ 0 := by rw [hnast]; exact ok.graph.key_ne n hn
  obtain ⟨e', he', hfrom, hj⟩ := ok.edge e.from_ hkey hn0
  rw [hnast] at he'
  have hee := edge_unique ok.graph n he he' h0 hfrom.symm
  have hjf : (l.tree_nodes.val e.from_).j = (l.tree_nodes.val n).j := by
    rw [← hj, ← hee, hrow]
  have hif : (l.tree_nodes.val e.from_).i = (l.tree_nodes.val n).i - 1 := by
    have := ok.col e.from_ hkey hn0
    rw [hnast] at this
    exact this
  refine ⟨hkey, hif, hjf, ?_⟩
  refine ⟨(metrics h l).startX + (metrics h l).spacing
      + ((metrics h l).dataWidth + (metrics h l).spacing) * (l.tree_nodes.val e.from_).i,
    (metrics h l).startX + (metrics h l).spacing
      + ((metrics h l).dataWidth + (metrics h l).spacing) * (l.tree_nodes.val n).i,
    (metrics h l).startY + ((metrics h l).nodeHeight + 20) * (l.tree_nodes.val n).j,
    (metrics h l).dataWidth, (metrics h l).nodeHeight, ?_, ?_, ?_, ?_⟩
  · refine mem_drawCalls_entry h l hkey ?_
    unfold drawEntry
    simp only [hjf]
    simp
  · refine mem_drawCalls_entry h l hn ?_
    unfold drawEntry
    simp
  · refine mem_drawCalls_entry h l hn ?_
    unfold drawEntry
    refine List.mem_append_right _ (List.mem_map.mpr ⟨e, he, ?_⟩)
    unfold drawPred
    simp only [hrow, if_true, hif]
    congr 1 <;> ring
  · intro s hs
    simp only [Draw.emit] at hs
    exact drawArrow_line _ _ _ _ _ s hs

set_option maxRecDepth 100000 in
/-- Claim C17 on `DRAW_LIST_DEMO`: the arrow from the node 10 to the node 20
runs from `x = 114` to `x = 184` at `y = 30`. -/
theorem C17_straight_arrow_witness :
    demoHeap.Acyclic ∧
    (∃ l, layout demoHeap demoPointers = some l ∧
      ∀ n ∈ l.tree_nodes.keys, ∀ e ∈ (l.tree_nodes.entry n).predecessors,
        e.from_ ≠ 0 → e.j = (l.tree_nodes.entry n).j →
        e.from_ ∈ l.tree_nodes.keys ∧
        (l.tree_nodes.entry e.from_).i = (l.tree_nodes.entry n).i - 1 ∧
        (l.tree_nodes.entry e.from_).j = (l.tree_nodes.entry n).j ∧
        ∃ (xf xn y w hh : Int),
          Draw.node xf y w hh e.from_ ∈ drawCalls demoHeap l ∧
          Draw.node xn y w hh n ∈ drawCalls demoHeap l ∧
          Draw.predArrow (xf + w) xn (y + hh.tdiv 2) n e.label ∈ drawCalls demoHeap l ∧
          ∀ s, (Draw.predArrow (xf + w) xn (y + hh.tdiv 2) n e.label).emit demoHeap = some s →
            ("  <line x1='" ++ toString (xf + w) ++ "' y1='" ++ toString (y + hh.tdiv 2)
              ++ "' x2='" ++ toString xn ++ "' y2='" ++ toString (y + hh.tdiv 2)
              ++ "' stroke='black' marker-end='url(#sll_arrow)'/>\n").data <:+: s.data) ∧
    (layout demoHeap demoPointers).map (fun l =>
      (drawCalls demoHeap l).filter fun c => c.subject = 0x1010)
      = some [.node 184 10 44 40 0x1010, .predArrow 114 184 30 0x1010 "nast"] ∧
    (layout demoHeap demoPointers).map (fun l =>
      (drawCalls demoHeap l).filter fun c => (Draw.rectOf c = some 0x1020))
      = some [.node 70 10 44 40 0x1020] :=
  ⟨acyclic_of_cells demoHeap id (by decide),
    C17_straight_arrow demoHeap demoPointers (acyclic_of_cells demoHeap id (by decide)),
    by decide, by decide⟩

/-! ## The deepest node -/

theorem walkStep_deepest_i (h : Heap) (p : Ptr) (i : Int) (st : Discovery) :
    (walkStep h p i st).deepest_i
      = if h.nast p ≠ 0 ∧ st.deepest_i < i + 1 then i + 1 else st.deepest_i := by
  unfold walkStep
  simp only
  by_cases hn : h.nast p = 0
  · simp [hn]
  · by_cases hd : st.deepest_i < i + 1 <;> simp [hn, hd]

theorem walkStep_deepest_node (h : Heap) (p : Ptr) (i : Int) (st : Discovery) :
    (walkStep h p i st).deepest_node
      = if h.nast p ≠ 0 ∧ st.deepest_i < i + 1 then h.nast p else st.deepest_node := by
  unfold walkStep
  simp only
  by_cases hn : h.nast p = 0
  · simp [hn]
  · by_cases hd : st.deepest_i < i + 1 <;> simp [hn, hd]

theorem walkStep_i_ne (h : Heap) (p : Ptr) (i : Int) (st : Discovery) {q : Ptr}
    (hq : q ≠ h.nast p) :
    ((walkStep h p i st).tree_nodes.val q).i = (st.tree_nodes.val q).i := by
  rw [walkStep_val_ne h p i st hq]

theorem walkStep_i_mono (h : Heap) (p : Ptr) (i : Int) (st : Discovery) (q : Ptr) :
    (st.tree_nodes.val q).i ≤ ((walkStep h p i st).tree_nodes.val q).i := by
  by_cases hn : h.nast p = 0
  · rw [walkStep_tail h p i st hn]
  · by_cases hq : q = h.nast p
    · subst hq
      rw [walkStep_i_self h p i st hn]
      exact le_max_left _ _
    · rw [walkStep_i_ne h p i st hq]

theorem walkStep_keys_mono (h : Heap) (p : Ptr) (i : Int) (st : Discovery) {q : Ptr}
    (hq : q ∈ st.tree_nodes.keys) : q ∈ (walkStep h p i st).tree_nodes.keys := by
  by_cases hn : h.nast p = 0
  · rw [walkStep_tail h p i st hn]; exact hq
  · rw [walkStep_keys h p i st hn]; exact mem_setInsert.mpr (Or.inr hq)

theorem deepInv_walkStep (h : Heap) (p : Ptr) (i : Int) (st : Discovery) (hi : 0 ≤ i)
    (hnode : st.deepest_node ≠ 0) (inv : DeepInv st) : DeepInv (walkStep h p i st) := by
  obtain ⟨hdk, hdle, hd0⟩ := inv.some hnode
  by_cases hn : h.nast p = 0
  · rw [walkStep_tail h p i st hn]
    exact ⟨inv.nonneg, inv.le, inv.none, inv.some⟩
  have hdi := walkStep_deepest_i h p i st
  have hdn := walkStep_deepest_node h p i st
  refine ⟨fun q => le_trans (inv.nonneg q) (walkStep_i_mono h p i st q), ?_, ?_, ?_⟩
  · intro q
    have hle := inv.le q
    rw [le_max_iff] at hle ⊢
    have hval : ((walkStep h p i st).tree_nodes.val q).i = (st.tree_nodes.val q).i ∨
        ((walkStep h p i st).tree_nodes.val q).i = i + 1 := by
      by_cases hq : q = h.nast p
      · subst hq
        rw [walkStep_i_self h p i st hn, max_def]
        split
        · exact Or.inr rfl
        · exact Or.inl rfl
      · exact Or.inl (walkStep_i_ne h p i st hq)
    rw [hdi]
    by_cases hd : st.deepest_i < i + 1
    · simp only [ne_eq, hn, not_false_eq_true, hd, and_self, if_true]
      omega
    · simp only [hd, and_false, if_false]
      omega
  · intro h0
    rw [hdn] at h0
    split at h0
    · exact absurd h0 hn
    · exact absurd h0 hnode
  · intro _
    rw [hdn, hdi]
    by_cases hd : st.deepest_i < i + 1
    · simp only [ne_eq, hn, not_false_eq_true, hd, and_self, if_true]
      refine ⟨?_, ?_, by omega⟩
      · rw [walkStep_keys h p i st hn]; exact mem_setInsert.mpr (Or.inl rfl)
      · rw [walkStep_i_self h p i st hn]; exact le_max_right _ _
    · simp only [hd, and_false, if_false]
      exact ⟨walkStep_keys_mono h p i st hdk,
        le_trans hdle (walkStep_i_mono h p i st _), hd0⟩

theorem deepInv_walk (h : Heap) :
    ∀ (fuel : Nat) (p : Ptr) (i : Int) (st st' : Discovery), 0 ≤ i → st.deepest_node ≠ 0 →
      DeepInv st → walk h fuel p i st = some st' → DeepInv st' ∧ st'.deepest_node ≠ 0
  | 0, p, i, st, st', _, hnode, inv, hw => by
    unfold walk at hw
    split at hw
    · cases hw; exact ⟨inv, hnode⟩
    · cases hw
  | fuel + 1, p, i, st, st', hi, hnode, inv, hw => by
    unfold walk at hw
    split at hw
    · cases hw; exact ⟨inv, hnode⟩
    · refine deepInv_walk h fuel _ _ _ st' (by omega) ?_
        (deepInv_walkStep h p i st hi hnode inv) hw
      rw [walkStep_deepest_node]
      split
      · rename_i hc; exact hc.1
      · exact hnode

theorem rootInit_deepest_i (st : Discovery) (pp : Ptr × String) :
    (rootInit st pp).deepest_i = if st.deepest_node = 0 then 0 else st.deepest_i := by
  unfold rootInit
  simp only
  split <;> rfl

theorem rootInit_deepest_node (st : Discovery) (pp : Ptr × String) :
    (rootInit st pp).deepest_node = if st.deepest_node = 0 then pp.1 else st.deepest_node := by
  unfold rootInit
  simp only
  split <;> rfl

theorem rootInit_i (st : Discovery) (pp : Ptr × String) (q : Ptr) :
    ((rootInit st pp).tree_nodes.val q).i = (st.tree_nodes.val q).i := by
  by_cases hq : q = pp.1
  · subst hq; rw [rootInit_val_self]
  · rw [rootInit_val_ne _ _ hq]

theorem deepInv_rootInit (st : Discovery) (pp : Ptr × String) (hp : pp.1 ≠ 0)
    (inv : DeepInv st) : DeepInv (rootInit st pp) ∧ (rootInit st pp).deepest_node ≠ 0 := by
  have hnode : (rootInit st pp).deepest_node ≠ 0 := by
    rw [rootInit_deepest_node]
    split
    · exact hp
    · assumption
  refine ⟨⟨fun q => by rw [rootInit_i]; exact inv.nonneg q, ?_, fun h0 => absurd h0 hnode, ?_⟩,
    hnode⟩
  · intro q
    rw [rootInit_i, rootInit_deepest_i]
    have := inv.le q
    split
    · rename_i h0
      rw [(inv.none h0).1] at this
      simpa using this
    · exact this
  · intro _
    rw [rootInit_deepest_node, rootInit_deepest_i, rootInit_i, rootInit_keys]
    by_cases h0 : st.deepest_node = 0
    · simp only [h0, if_true]
      exact ⟨mem_setInsert.mpr (Or.inl rfl), inv.nonneg _, le_refl _⟩
    · simp only [h0, if_false]
      obtain ⟨h1, h2, h3⟩ := inv.some h0
      exact ⟨mem_setInsert.mpr (Or.inr h1), h2, h3⟩

theorem deepInv_init : DeepInv {} :=
  ⟨fun _ => le_refl _, fun _ => by simp, fun _ => ⟨rfl, rfl⟩, fun h0 => absurd rfl h0⟩

theorem deepInv_discover (h : Heap) (fuel : Nat) :
    ∀ (pointers : List (Ptr × String)) (st st' : Discovery),
      DeepInv st → discover h fuel pointers st = some st' → DeepInv st'
  | [], st, st', inv, hd => by
    simp only [discover, Option.some.injEq] at hd
    exact hd ▸ inv
  | pp :: rest, st, st', inv, hd => by
    simp only [discover] at hd
    cases hr : discoverRoot h fuel st pp with
    | none => rw [hr] at hd; cases hd
    | some st1 =>
      rw [hr] at hd
      refine deepInv_discover h fuel rest st1 st' ?_ hd
      by_cases hp : pp.1 = 0
      · rw [discoverRoot_null h fuel st pp hp] at hr
        cases hr
        exact ⟨inv.nonneg, inv.le, inv.none, inv.some⟩
      · rw [discoverRoot_node h fuel st pp hp] at hr
        obtain ⟨i1, i2⟩ := deepInv_rootInit st pp hp inv
        exact (deepInv_walk h fuel _ _ _ st1 (le_refl _) i2 i1 hr).1

/-! ## The order of discovery -/

@[simp] theorem visits_null (h : Heap) (n k : Nat) : h.visits n 0 k = [] := by
  cases n <;> simp [Heap.visits]

theorem visits_succ (h : Heap) (n k : Nat) {p : Ptr} (hp : p ≠ 0) :
    h.visits (n + 1) p k = (p, k) :: h.visits n (h.nast p) (k + 1) := by
  simp [Heap.visits, hp]

theorem VInv.node_ne {V : List (Ptr × Nat)} {st : Discovery} (inv : VInv V st) (hV : V ≠ []) :
    st.deepest_node ≠ 0 := by
  obtain ⟨D, -, hfind⟩ := inv.first hV
  exact inv.ne _ (List.mem_of_find?_eq_some hfind)

theorem vinv_same {V : List (Ptr × Nat)} {st st' : Discovery} (inv : VInv V st)
    (hi : st'.deepest_i = st.deepest_i) (hn : st'.deepest_node = st.deepest_node) :
    VInv V st' :=
  ⟨fun hV => by rw [hi, hn]; exact inv.empty hV, fun hV => by rw [hi, hn]; exact inv.first hV,
    fun v hv => by rw [hi]; exact inv.le v hv, inv.ne⟩

theorem vinv_step {V : List (Ptr × Nat)} {st st' : Discovery} (q : Ptr) (k : Nat)
    (inv : VInv V st) (hV : V ≠ []) (hq : q ≠ 0)
    (hi : st'.deepest_i = if st.deepest_i < (k : Int) then (k : Int) else st.deepest_i)
    (hn : st'.deepest_node = if st.deepest_i < (k : Int) then q else st.deepest_node) :
    VInv (V ++ [(q, k)]) st' := by
  obtain ⟨D, hD, hfind⟩ := inv.first hV
  refine ⟨fun hc => by simp at hc, fun _ => ?_, ?_, ?_⟩
  · by_cases hd : st.deepest_i < (k : Int)
    · refine ⟨k, by rw [hi, if_pos hd], ?_⟩
      rw [hn, if_pos hd, List.find?_append]
      have hnone : V.find? (fun v => decide (v.2 = k)) = none := by
        rw [List.find?_eq_none]
        intro v hv
        have := inv.le v hv
        simp only [decide_eq_true_eq]
        omega
      rw [hnone]
      simp
    · refine ⟨D, by rw [hi, if_neg hd, hD], ?_⟩
      rw [hn, if_neg hd, List.find?_append, hfind]
      rfl
  · intro v hv
    rw [hi]
    rcases List.mem_append.mp hv with hv | hv
    · have := inv.le v hv
      split <;> omega
    · rw [List.mem_singleton] at hv
      subst hv
      split <;> omega
  · intro v hv
    rcases List.mem_append.mp hv with hv | hv
    · exact inv.ne v hv
    · rw [List.mem_singleton] at hv
      subst hv
      exact hq

theorem vinv_walk (h : Heap) :
    ∀ (fuel : Nat) (p : Ptr) (k : Nat) (st st' : Discovery) (V : List (Ptr × Nat)),
      VInv V st → V ≠ [] → walk h fuel p (k : Int) st = some st' →
      VInv (V ++ (h.visits (fuel + 1) p k).tail) st'
  | 0, p, k, st, st', V, inv, _, hw => by
    unfold walk at hw
    split at hw
    · rename_i hp; subst hp; cases hw
      simpa using inv
    · cases hw
  | fuel + 1, p, k, st, st', V, inv, hV, hw => by
    unfold walk at hw
    split at hw
    · rename_i hp; subst hp; cases hw
      simpa using inv
    · rename_i hp
      rw [visits_succ h (fuel + 1) k hp, List.tail_cons]
      by_cases hn : h.nast p = 0
      · rw [hn, walk_null] at hw
        cases hw
        rw [hn, visits_null, List.append_nil]
        rw [walkStep_tail h p k st hn]
        exact vinv_same inv rfl rfl
      · have hstep : VInv (V ++ [(h.nast p, k + 1)]) (walkStep h p k st) := by
          refine vinv_step (h.nast p) (k + 1) inv hV hn ?_ ?_
          · rw [walkStep_deepest_i]
            simp [hn]
          · rw [walkStep_deepest_node]
            simp [hn]
        have ih := vinv_walk h fuel (h.nast p) (k + 1) (walkStep h p k st) st'
          (V ++ [(h.nast p, k + 1)]) hstep (by simp) (by exact_mod_cast hw)
        rw [visits_succ h fuel (k + 1) hn]
        rw [visits_succ h fuel (k + 1) hn, List.tail_cons] at ih
        simpa using ih

theorem vinv_rootInit {V : List (Ptr × Nat)} {st : Discovery} (pp : Ptr × String)
    (hp : pp.1 ≠ 0) (inv : VInv V st) : VInv (V ++ [(pp.1, 0)]) (rootInit st pp) := by
  by_cases hV : V = []
  · subst hV
    obtain ⟨h0, h1⟩ := inv.empty rfl
    refine ⟨fun hc => by simp at hc, fun _ => ⟨0, ?_, ?_⟩, ?_, ?_⟩
    · rw [rootInit_deepest_i, if_pos h0]; rfl
    · rw [rootInit_deepest_node, if_pos h0]; simp
    · intro v hv
      simp only [List.nil_append, List.mem_singleton] at hv
      subst hv
      rw [rootInit_deepest_i, if_pos h0]
      simp
    · intro v hv
      simp only [List.nil_append, List.mem_singleton] at hv
      subst hv
      exact hp
  · have hnode := inv.node_ne hV
    obtain ⟨D, hD, -⟩ := inv.first hV
    refine vinv_step pp.1 0 inv hV hp ?_ ?_
    · rw [rootInit_deepest_i, if_neg hnode]
      have : ¬ st.deepest_i < ((0 : Nat) : Int) := by rw [hD]; simp
      rw [if_neg this]
    · rw [rootInit_deepest_node, if_neg hnode]
      have : ¬ st.deepest_i < ((0 : Nat) : Int) := by rw [hD]; simp
      rw [if_neg this]

theorem vinv_discover (h : Heap) (fuel : Nat) :
    ∀ (pointers : List (Ptr × String)) (st st' : Discovery) (V : List (Ptr × Nat)),
      VInv V st → discover h fuel pointers st = some st' →
      VInv (V ++ (pointers.map fun pp => h.visits (fuel + 1) pp.1 0).flatten) st'
  | [], st, st', V, inv, hd => by
    simp only [discover, Option.some.injEq] at hd
    subst hd
    simpa using inv
  | pp :: rest, st, st', V, inv, hd => by
    simp only [discover] at hd
    cases hr : discoverRoot h fuel st pp with
    | none => rw [hr] at hd; cases hd
    | some st1 =>
      rw [hr] at hd
      have h1 : VInv (V ++ h.visits (fuel + 1) pp.1 0) st1 := by
        by_cases hp : pp.1 = 0
        · rw [discoverRoot_null h fuel st pp hp] at hr
          cases hr
          rw [hp, visits_null, List.append_nil]
          exact vinv_same inv rfl rfl
        · rw [discoverRoot_node h fuel st pp hp] at hr
          have := vinv_walk h fuel pp.1 0 (rootInit st pp) st1 (V ++ [(pp.1, 0)])
            (vinv_rootInit pp hp inv) (by simp) (by exact_mod_cast hr)
          rw [visits_succ h fuel 0 hp] at this ⊢
          simpa using this
      have := vinv_discover h fuel rest st1 st' _ h1 hd
      simpa using this

theorem vinv_init : VInv [] {} :=
  ⟨fun _ => ⟨rfl, rfl⟩, fun hc => absurd rfl hc, fun v hv => (by cases hv),
    fun v hv => (by cases hv)⟩

/-! ## The columns after the discovery -/

theorem colInv_discoverRoot (h : Heap) (rank : Ptr → Nat)
    (hr : ∀ p, p ≠ 0 → h.nast p ≠ 0 → rank (h.nast p) < rank p) (fuel : Nat)
    (R : List (Ptr × String)) (st st' : Discovery) (pp : Ptr × String)
    (hnn : ∀ q, 0 ≤ (st.tree_nodes.val q).i) (inv : ColInv h R st)
    (hd : discoverRoot h fuel st pp = some st') : ColInv h (R ++ [pp]) st' := by
  by_cases hp : pp.1 = 0
  · rw [discoverRoot_null h fuel st pp hp] at hd
    cases hd
    refine ⟨fun r hr' hr0 q k hk => ?_, fun q => ?_⟩
    · rcases List.mem_append.mp hr' with hr' | hr'
      · exact inv.upper r hr' hr0 q k hk
      · rw [List.mem_singleton] at hr'
        subst hr'
        exact absurd hp hr0
    · rcases inv.attained q with h0 | ⟨r, hr', hr0, k, hk, hcol⟩
      · exact Or.inl h0
      · exact Or.inr ⟨r, List.mem_append_left _ hr', hr0, k, hk, hcol⟩
  · rw [discoverRoot_node h fuel st pp hp] at hd
    have hw := walk_col h rank hr fuel pp.1 0 (rootInit st pp) st' hd
    have hcases : ∀ q, (∃ k : Nat, h.Hops pp.1 q (k + 1) ∧
          (st'.tree_nodes.val q).i = max (st.tree_nodes.val q).i ((k : Int) + 1)) ∨
        ((∀ k, ¬ h.Hops pp.1 q (k + 1)) ∧ (st'.tree_nodes.val q).i = (st.tree_nodes.val q).i) := by
      intro q
      by_cases hex : ∃ k, h.Hops pp.1 q (k + 1)
      · obtain ⟨k, hk⟩ := hex
        left
        refine ⟨k, hk, ?_⟩
        rw [(hw q).1 k hk, rootInit_i]
        simp
      · right
        have hno : ∀ k, ¬ h.Hops pp.1 q (k + 1) := fun k hk => hex ⟨k, hk⟩
        exact ⟨hno, by rw [(hw q).2 hno, rootInit_i]⟩
    have hmono : ∀ q, (st.tree_nodes.val q).i ≤ (st'.tree_nodes.val q).i := by
      intro q
      rcases hcases q with ⟨k, -, hcol⟩ | ⟨-, hcol⟩
      · rw [hcol]; exact le_max_left _ _
      · rw [hcol]
    refine ⟨fun r hr' hr0 q k hk => ?_, fun q => ?_⟩
    · rcases List.mem_append.mp hr' with hr' | hr'
      · exact le_trans (inv.upper r hr' hr0 q k hk) (hmono q)
      · rw [List.mem_singleton] at hr'
        subst hr'
        cases k with
        | zero => exact le_trans (hnn q) (hmono q)
        | succ k =>
          rcases hcases q with ⟨k', hk', hcol⟩ | ⟨hno, -⟩
          · have := hops_index_unique h rank hr _ _ _ _ hk hk'
            rw [hcol]
            have hkk : k = k' := by omega
            subst hkk
            push_cast
            exact le_max_right _ _
          · exact absurd hk (hno k)
    · rcases hcases q with ⟨k, hk, hcol⟩ | ⟨-, hcol⟩
      · rw [hcol, max_def]
        split
        · exact Or.inr ⟨pp, by simp, hp, k + 1, hk, by push_cast; rfl⟩
        · rcases inv.attained q with h0 | ⟨r, hr', hr0, k', hk', hcol'⟩
          · exact Or.inl h0
          · exact Or.inr ⟨r, List.mem_append_left _ hr', hr0, k', hk', hcol'⟩
      · rw [hcol]
        rcases inv.attained q with h0 | ⟨r, hr', hr0, k', hk', hcol'⟩
        · exact Or.inl h0
        · exact Or.inr ⟨r, List.mem_append_left _ hr', hr0, k', hk', hcol'⟩

theorem colInv_discover (h : Heap) (rank : Ptr → Nat)
    (hr : ∀ p, p ≠ 0 → h.nast p ≠ 0 → rank (h.nast p) < rank p) (fuel : Nat) :
    ∀ (pointers R : List (Ptr × String)) (st st' : Discovery),
      DeepInv st → ColInv h R st → discover h fuel pointers st = some st' →
      ColInv h (R ++ pointers) st'
  | [], R, st, st', _, inv, hd => by
    simp only [discover, Option.some.injEq] at hd
    subst hd
    simpa using inv
  | pp :: rest, R, st, st', dinv, inv, hd => by
    simp only [discover] at hd
    cases hr' : discoverRoot h fuel st pp with
    | none => rw [hr'] at hd; cases hd
    | some st1 =>
      rw [hr'] at hd
      have d1 : DeepInv st1 := by
        refine deepInv_discover h fuel [pp] st st1 dinv ?_
        simp [discover, hr']
      have := colInv_discover h rank hr fuel rest (R ++ [pp]) st1 st' d1
        (colInv_discoverRoot h rank hr fuel R st st1 pp dinv.nonneg inv hr') hd
      simpa using this

theorem colInv_init (h : Heap) : ColInv h [] {} :=
  ⟨fun pp hpp => (by cases hpp), fun _ => Or.inl rfl⟩

/-- What the discovery establishes about the columns and the deepest node. -/
theorem discover_depths (h : Heap) (hac : h.Acyclic) (pointers : List (Ptr × String))
    (d : Discovery) (hd : discover h (h.cells.length + 2) pointers {} = some d) :
    DeepInv d ∧ ColInv h pointers d ∧ VInv (discoveryOrder h pointers) d := by
  obtain ⟨rank, hr⟩ := hac
  refine ⟨deepInv_discover h _ pointers {} d deepInv_init hd, ?_, ?_⟩
  · simpa using colInv_discover h rank hr _ pointers [] {} d deepInv_init (colInv_init h) hd
  · simpa [discoveryOrder] using vinv_discover h _ pointers {} d [] vinv_init hd

/-! ## Claim C12 -/

/-- Claim C12: for every finite acyclic input, when the discovery is over the
column of every entry is the greatest number of successor hops from a non-null
root to its node (so 0 for a node reached only as a root); and, when there is
a node, `deepest_i` is the greatest column, it is the column of
`deepest_node`, and `deepest_node` is the first node of the order of discovery
met at that depth.  With no node, `deepest_i` is still -1. -/
theorem C12_discovery_depths (h : Heap) (pointers : List (Ptr × String)) (hac : h.Acyclic) :
    ∃ d, discover h (h.cells.length + 2) pointers {} = some d ∧
      (∀ q ∈ d.tree_nodes.keys,
        (∃ pp ∈ pointers, pp.1 ≠ 0 ∧ ∃ k : Nat, h.Hops pp.1 q k ∧
          (d.tree_nodes.entry q).i = k) ∧
        (∀ pp ∈ pointers, pp.1 ≠ 0 → ∀ k : Nat, h.Hops pp.1 q k →
          (k : Int) ≤ (d.tree_nodes.entry q).i)) ∧
      (d.tree_nodes.keys = [] → d.deepest_i = -1 ∧ d.deepest_node = 0) ∧
      (d.tree_nodes.keys ≠ [] →
        (∀ q ∈ d.tree_nodes.keys, (d.tree_nodes.entry q).i ≤ d.deepest_i) ∧
        d.deepest_node ∈ d.tree_nodes.keys ∧
        (d.tree_nodes.entry d.deepest_node).i = d.deepest_i ∧
        ∃ D : Nat, d.deepest_i = D ∧
          (discoveryOrder h pointers).find? (fun v => v.2 = D) = some (d.deepest_node, D)) := by
  obtain ⟨d, l, hd, -, ok⟩ := layout_ok h hac pointers
  obtain ⟨deep, col, vis⟩ := discover_depths h hac pointers d hd
  refine ⟨d, hd, ?_, ?_, ?_⟩
  · intro q hq
    simp only [TreeMap.entry]
    refine ⟨?_, fun pp hpp hpp0 k hk => col.upper pp hpp hpp0 q k hk⟩
    rcases col.attained q with h0 | hex
    · obtain ⟨pp, hpp, hpp0, hreach⟩ := ok.dinv.reach q hq
      obtain ⟨k, hk⟩ := reach_hops h hreach
      have := col.upper pp hpp hpp0 q k hk
      rw [h0] at this
      have hk0 : k = 0 := by omega
      subst hk0
      exact ⟨pp, hpp, hpp0, 0, hk, by rw [h0]; rfl⟩
    · exact hex
  · intro hkeys
    have hnode : d.deepest_node = 0 := by
      by_contra hne
      have := (deep.some hne).1
      rw [hkeys] at this
      cases this
    exact ⟨(deep.none hnode).1, hnode⟩
  · intro hkeys
    have hnode : d.deepest_node ≠ 0 := fun h0 => hkeys (deep.none h0).2
    obtain ⟨hdk, hdle, hd0⟩ := deep.some hnode
    have hle : ∀ q, (d.tree_nodes.val q).i ≤ d.deepest_i := by
      intro q
      have := deep.le q
      rwa [max_eq_left hd0] at this
    refine ⟨fun q _ => hle q, hdk, le_antisymm (hle _) hdle, ?_⟩
    refine vis.first ?_
    intro hV
    exact hnode (vis.empty hV).1

set_option maxRecDepth 100000 in
/-- Claim C12 on `drawList_TEST_1`: after the discovery `n1, n2, n3` have the
columns 0, 1, 3 and `30, 40, 50` the columns 0, 1, 2; the deepest depth 3 is
first reached at `n3`, by the walk from `n4`. -/
theorem C12_discovery_depths_witness :
    test1Heap.Acyclic ∧
    (∃ d, discover test1Heap (test1Heap.cells.length + 2) test1Pointers {} = some d ∧
      (∀ q ∈ d.tree_nodes.keys,
        (∃ pp ∈ test1Pointers, pp.1 ≠ 0 ∧ ∃ k : Nat, test1Heap.Hops pp.1 q k ∧
          (d.tree_nodes.entry q).i = k) ∧
        (∀ pp ∈ test1Pointers, pp.1 ≠ 0 → ∀ k : Nat, test1Heap.Hops pp.1 q k →
          (k : Int) ≤ (d.tree_nodes.entry q).i)) ∧
      (d.tree_nodes.keys = [] → d.deepest_i = -1 ∧ d.deepest_node = 0) ∧
      (d.tree_nodes.keys ≠ [] →
        (∀ q ∈ d.tree_nodes.keys, (d.tree_nodes.entry q).i ≤ d.deepest_i) ∧
        d.deepest_node ∈ d.tree_nodes.keys ∧
        (d.tree_nodes.entry d.deepest_node).i = d.deepest_i ∧
        ∃ D : Nat, d.deepest_i = D ∧
          (discoveryOrder test1Heap test1Pointers).find? (fun v => v.2 = D)
            = some (d.deepest_node, D))) ∧
    (discover test1Heap (test1Heap.cells.length + 2) test1Pointers {}).map (fun d =>
      (d.tree_nodes.keys.map fun q => (q, (d.tree_nodes.entry q).i), d.deepest_node,
        d.deepest_i))
      = some ([(0x1000, 3), (0x1010, 1), (0x1020, 0), (0x1030, 2), (0x1040, 1), (0x1050, 0)],
          0x1000, 3) ∧
    discoveryOrder test1Heap test1Pointers
      = [(0x1020, 0), (0x1010, 1), (0x1000, 2), (0x1020, 0), (0x1010, 1), (0x1000, 2),
          (0x1010, 0), (0x1000, 1), (0x1000, 0),
          (0x1050, 0), (0x1040, 1), (0x1030, 2), (0x1000, 3), (0x1000, 0)] :=
  ⟨acyclic_of_cells test1Heap id (by decide),
    C12_discovery_depths test1Heap test1Pointers (acyclic_of_cells test1Heap id (by decide)),
    by decide, by decide⟩

/-! ## Row resolution: the rows a sweep consumes -/

theorem pushed_ge : ∀ (es : List Edge) (r : Int) (x : Int × Ptr), x ∈ pushed es r → r ≤ x.1
  | [], _, x, hx => by simp [pushed] at hx
  | e :: es, r, x, hx => by
    simp only [pushed] at hx
    rcases List.mem_append.mp hx with hx | hx
    · by_cases he : e.from_ = 0
      · simp [he] at hx
      · simp only [ne_eq, he, not_false_eq_true, if_true, List.mem_singleton] at hx
        subst hx
        exact le_refl _
    · have := pushed_ge es (r + 1) x hx
      omega

theorem reach_pred (h : Heap) {f p t : Ptr} (hf : f ≠ 0) (hfp : h.nast f = p)
    (hp : h.Reach p t) : h.Reach f t :=
  let ⟨n, hn⟩ := hp
  ⟨n + 1, by rw [chain_succ h n hf, hfp]; exact List.mem_cons_of_mem _ hn⟩

theorem assignRows_length (es : List Edge) (r : Int) (q : Queue) :
    (assignRows es r q).1.length = es.length := by
  have := congrArg List.length (assignRows_skel es r q)
  simpa using this

theorem pushEvents_eq : ∀ (es : List Edge),
    pushEvents es = ((es.map (·.from_)).filter (· ≠ 0)).map Event.push
  | [] => rfl
  | e :: es => by
    simp only [pushEvents, List.map_cons, List.filter_cons]
    rw [pushEvents_eq es]
    by_cases he : e.from_ = 0 <;> simp [he]

theorem popEvents_same {h : Heap} {m m' : TreeMap} (s : Same h m m') :
    popEvents h m' = popEvents h m := by
  funext p
  have := s.srcs p
  simp only [TreeMap.srcs, TreeNode.srcs] at this
  simp only [popEvents, TreeMap.entry, pushEvents_eq, this]

theorem sweep_full (h : Heap) (rank : Ptr → Nat)
    (hr : ∀ p, p ≠ 0 → h.nast p ≠ 0 → rank (h.nast p) < rank p) (T : List (Int × Ptr))
    (t : Ptr) (lo : Int) :
    ∀ (fuel : Nat) (q : Queue) (m : TreeMap) (pj_max : Int) (D : List Ptr),
      Graph h m → SInv h m T D q → m.keys.length + 1 ≤ fuel + D.length →
      (∀ x ∈ q, lo ≤ x.1 ∧ h.Reach x.2 t) →
      ∃ m' r N, sweep h fuel q m pj_max = some (m', r) ∧ Same h m m' ∧
        SInv h m' T (N ++ D) [] ∧ (∀ x ∈ q, x.2 ∈ N) ∧ (∀ x, x ∉ N → m'.val x = m.val x) ∧
        pj_max ≤ r ∧
        (∀ x ∈ N, h.Reach x t ∧ lo ≤ (m'.val x).j ∧
          (m'.val x).j + (m'.val x).predecessors.length ≤ r) ∧
        (r = pj_max ∨ ∃ x ∈ N, (m'.val x).j + (m'.val x).predecessors.length = r) ∧
        sweepEvents h fuel q m pj_max = N.reverse.flatMap (popEvents h m)
  | fuel, [], m, pj_max, D, _, inv, _, _ =>
    ⟨m, pj_max, [], sweep_nil h fuel m pj_max, Same.refl h m, (by simpa using inv),
      fun x hx => (by cases hx), fun _ _ => rfl, le_refl _, fun x hx => (by cases hx),
      Or.inl rfl, (by cases fuel <;> rfl)⟩
  | 0, (pjp, p) :: q, m, pj_max, D, g, inv, hfuel, _ => by
    exfalso
    have hle := (List.subperm_of_subset inv.d_nodup (fun x hx => inv.d_keys x hx)).length_le
    omega
  | fuel + 1, (pjp, p) :: q, m, pj_max, D, g, inv, hfuel, hq => by
    obtain ⟨hpk, hpD, -, -⟩ := inv.q_ok (pjp, p) (List.mem_cons_self _ _)
    simp only at hpk hpD
    have hp0 : p ≠ 0 := g.key_ne p hpk
    have hnp : h.nast p ≠ p := by
      intro heq
      have hn0 : h.nast p ≠ 0 := by rw [heq]; exact hp0
      have := hr p hp0 hn0
      rw [heq] at this
      exact lt_irrefl _ this
    obtain ⟨hplo, hpt⟩ := hq (pjp, p) (List.mem_cons_self _ _)
    simp only at hplo hpt
    have hs := popStep_same h pjp p q m pj_max g hpk hnp
    have inv' := sinv_popStep h rank hr pjp p q m pj_max T D g inv
    have hfuel' : (popStep h pjp p q m pj_max).2.1.keys.length + 1 ≤ fuel + (p :: D).length := by
      rw [hs.keys]; simp only [List.length_cons]; omega
    have hperm : List.Perm (popStep h pjp p q m pj_max).1
        (pushed (m.val p).predecessors pjp ++ q) := by
      rw [popStep_queue]; exact assignRows_queue _ _ _
    have hq' : ∀ x ∈ (popStep h pjp p q m pj_max).1, lo ≤ x.1 ∧ h.Reach x.2 t := by
      intro x hx
      rcases List.mem_append.mp (hperm.mem_iff.mp hx) with hx | hx
      · have hge := pushed_ge _ _ x hx
        have hmem : x.2 ∈ (pushed (m.val p).predecessors pjp).map Prod.snd :=
          List.mem_map_of_mem _ hx
        rw [pushed_snd] at hmem
        have h2 := List.mem_filter.mp hmem
        have hx0 : x.2 ≠ 0 := by simpa using h2.2
        have hnx := (g.src_ok p x.2 h2.1 hx0).1
        exact ⟨by omega, reach_pred h hx0 hnx hpt⟩
      · exact hq x (List.mem_cons_of_mem _ hx)
    obtain ⟨m', r, N, hsw, hs', hinv', hqN, hframe, hmax, hown, htop, hev⟩ :=
      sweep_full h rank hr T t lo fuel _ _ (popStep h pjp p q m pj_max).2.2 (p :: D)
        (g.same hs) inv' hfuel' hq'
    have hpN : p ∉ N := by
      have := hinv'.d_nodup
      rw [List.nodup_append] at this
      exact fun hmem => this.2.2 hmem (List.mem_cons_self _ _)
    have hpval : m'.val p = { predecessors := (assignRows (m.val p).predecessors pjp q).1
                              p := (m.val p).p
                              i := if h.nast p ≠ 0 then (m.val (h.nast p)).i - 1 else (m.val p).i
                              j := pjp } := by
      rw [hframe p hpN, popStep_val_self h pjp p q m pj_max hnp]
    have hpm := popStep_max h pjp p q m pj_max
    have hprow : (m'.val p).j = pjp := by rw [hpval]
    have hplen : (m'.val p).predecessors.length = (m.val p).predecessors.length := by
      rw [hpval]; exact assignRows_length _ _ _
    refine ⟨m', r, N ++ [p], ?_, hs.trans hs', ?_, ?_, ?_, ?_, ?_, ?_, ?_⟩
    · simp only [sweep]; exact hsw
    · simpa using hinv'
    · intro x hx
      rcases List.mem_cons.mp hx with rfl | hx
      · simp
      · exact List.mem_append_left _ (hqN x (hperm.mem_iff.mpr (List.mem_append_right _ hx)))
    · intro x hx
      simp only [List.mem_append, List.mem_singleton, not_or] at hx
      rw [hframe x hx.1, popStep_val_ne h pjp p q m pj_max hx.2]
    · split_ifs at hpm <;> omega
    · intro x hx
      rcases List.mem_append.mp hx with hx | hx
      · exact hown x hx
      · rw [List.mem_singleton] at hx
        subst hx
        refine ⟨hpt, by omega, ?_⟩
        rw [hprow, hplen]
        split_ifs at hpm <;> omega
    · rcases htop with htop | ⟨x, hx, hxr⟩
      · by_cases hgt : pjp + (m.val p).predecessors.length > pj_max
        · right
          refine ⟨p, by simp, ?_⟩
          rw [hprow, hplen, htop, hpm, if_pos hgt]
        · left
          rw [htop, hpm, if_neg hgt]
      · exact Or.inr ⟨x, List.mem_append_left _ hx, hxr⟩
    · simp only [sweepEvents, hev, popEvents_same hs, List.reverse_append, List.reverse_cons,
        List.reverse_nil, List.nil_append, List.singleton_append, List.flatMap_cons]

/-! ## Row resolution: the rows all sweeps consume -/

theorem Graph.len_pos {h : Heap} {m : TreeMap} (g : Graph h m) {k : Ptr} (hk : k ∈ m.keys) :
    1 ≤ (m.val k).predecessors.length := by
  have := g.src_ne k hk
  simp only [TreeMap.srcs, TreeNode.srcs, ne_eq, List.map_eq_nil_iff] at this
  exact List.length_pos.mpr this

theorem resolveTails_full (h : Heap) (rank : Ptr → Nat)
    (hr : ∀ p, p ≠ 0 → h.nast p ≠ 0 → rank (h.nast p) < rank p) :
    ∀ (pairs : List (Int × Ptr)) (m : TreeMap) (pj : Int) (T : List (Int × Ptr))
      (D : List Ptr),
      Graph h m → SInv h m T D [] → (pairs.map Prod.snd).Nodup →
      (∀ t ∈ pairs.map Prod.snd, t ∈ m.keys ∧ h.nast t = 0 ∧ t ∉ T.map Prod.snd) → 0 ≤ pj →
      ∃ m' E iv N, resolveTails h pairs m pj pj = some (m', E) ∧ Same h m m' ∧
        SInv h m' (T ++ iv.map (fun x => (x.2.1, x.1))) (N ++ D) [] ∧
        iv.map (·.1) = pairs.map Prod.snd ∧ Stacked pj iv E ∧
        (∀ x, x ∉ N → m'.val x = m.val x) ∧ (∀ x ∈ iv, x.1 ∈ N) ∧
        (∀ k ∈ N, ∃ x ∈ iv, h.Reach k x.1 ∧ x.2.1 ≤ (m'.val k).j ∧
          (m'.val k).j + (m'.val k).predecessors.length ≤ x.2.2) ∧
        (∀ x ∈ iv, ∃ k ∈ N, h.Reach k x.1 ∧
          (m'.val k).j + (m'.val k).predecessors.length = x.2.2) ∧
        List.Perm (resolveEvents h pairs m pj pj)
          (pairs.map (fun pp => Event.push pp.2) ++ N.flatMap (popEvents h m))
  | [], m, pj, T, D, _, inv, _, _, _ =>
    ⟨m, pj, [], [], rfl, Same.refl h m, (by simpa using inv), rfl, rfl, fun _ _ => rfl,
      fun x hx => (by cases hx), fun k hk => (by cases hk), fun x hx => (by cases hx),
      List.Perm.refl _⟩
  | pp :: rest, m, pj, T, D, g, inv, hnd, hts, hpj => by
    simp only [List.map_cons, List.nodup_cons] at hnd
    obtain ⟨htk, ht0, htT⟩ := hts pp.2 (by simp)
    have inv0 := sinv_seed h m T D pj pp.2 inv htk ht0 htT
    obtain ⟨m1, r, N1, hsw, hs1, inv1, hq1, hframe1, -, hown1, htop1, hev1⟩ :=
      sweep_full h rank hr (T ++ [(pj, pp.2)]) pp.2 pj (m.keys.length + 1) [(pj, pp.2)] m 0 D
        g inv0 (by omega)
        (by
          intro x hx
          rw [List.mem_singleton] at hx
          subst hx
          exact ⟨le_refl _, reach_refl h (g.key_ne _ htk)⟩)
    have htN : pp.2 ∈ N1 := hq1 (pj, pp.2) (List.mem_singleton.mpr rfl)
    have g1 := g.same hs1
    have hgt : pj < r := by
      obtain ⟨-, h1, h2⟩ := hown1 _ htN
      have := g1.len_pos (by rw [hs1.keys]; exact htk : pp.2 ∈ m1.keys)
      omega
    have hts' : ∀ t ∈ rest.map Prod.snd,
        t ∈ m1.keys ∧ h.nast t = 0 ∧ t ∉ (T ++ [(pj, pp.2)]).map Prod.snd := by
      intro t ht
      obtain ⟨h1, h2, h3⟩ := hts t (by simp only [List.map_cons]; exact List.mem_cons_of_mem _ ht)
      refine ⟨by rw [hs1.keys]; exact h1, h2, ?_⟩
      simp only [List.map_append, List.map_cons, List.map_nil, List.mem_append,
        List.mem_singleton, not_or]
      exact ⟨h3, fun heq => hnd.1 (heq ▸ ht)⟩
    obtain ⟨m2, E, iv, N2, hres, hs2, inv2, hiv, hst, hframe2, hivN, hown2, htop2, hev2⟩ :=
      resolveTails_full h rank hr rest m1 r (T ++ [(pj, pp.2)]) (N1 ++ D) g1 inv1 hnd.2 hts'
        (by omega)
    have hdisj : ∀ x ∈ N1, x ∉ N2 := by
      intro x hx hx2
      have := inv2.d_nodup
      rw [List.nodup_append] at this
      exact this.2.2 hx2 (List.mem_append_left _ hx)
    refine ⟨m2, E, (pp.2, pj, r) :: iv, N2 ++ N1, ?_, hs1.trans hs2, ?_, ?_, ?_, ?_, ?_, ?_, ?_,
      ?_⟩
    · simp only [resolveTails, hsw, gt_iff_lt, hgt, if_true]; exact hres
    · simpa using inv2
    · simp [hiv]
    · exact ⟨rfl, hgt, hst⟩
    · intro x hx
      simp only [List.mem_append, not_or] at hx
      rw [hframe2 x hx.1, hframe1 x hx.2]
    · intro x hx
      rcases List.mem_cons.mp hx with rfl | hx
      · exact List.mem_append_right _ htN
      · exact List.mem_append_left _ (hivN x hx)
    · intro k hk
      rcases List.mem_append.mp hk with hk | hk
      · obtain ⟨x, hx, h1⟩ := hown2 k hk
        exact ⟨x, List.mem_cons_of_mem _ hx, h1⟩
      · refine ⟨(pp.2, pj, r), List.mem_cons_self _ _, ?_⟩
        rw [hframe2 k (hdisj k hk)]
        exact hown1 k hk
    · intro x hx
      rcases List.mem_cons.mp hx with rfl | hx
      · rcases htop1 with h0 | ⟨k, hk, hkr⟩
        · omega
        · refine ⟨k, List.mem_append_right _ hk, (hown1 k hk).1, ?_⟩
          rw [hframe2 k (hdisj k hk)]
          exact hkr
      · obtain ⟨k, hk, h1⟩ := htop2 x hx
        exact ⟨k, List.mem_append_left _ hk, h1⟩
    · simp only [resolveEvents, hsw, gt_iff_lt, hgt, if_true, hev1, List.map_cons,
        List.cons_append, List.flatMap_append]
      refine List.Perm.cons _ ?_
      rw [popEvents_same hs1] at hev2
      refine (((List.reverse_perm N1).flatMap_right _).append hev2).trans ?_
      refine List.perm_append_comm.trans ?_
      rw [List.append_assoc]

theorem sortDesc_self (f : Ptr → Int) (ts : List Ptr) :
    ((sortDesc (ts.map fun t => (f t, t))).map Prod.snd).map (fun t => (f t, t))
      = sortDesc (ts.map fun t => (f t, t)) := by
  rw [List.map_map]
  conv_rhs => rw [← List.map_id (sortDesc (ts.map fun t => (f t, t)))]
  refine List.map_congr_left ?_
  intro s hs
  have := (sortDesc_perm _).mem_iff.mp hs
  obtain ⟨t, -, rfl⟩ := List.mem_map.mp this
  rfl

theorem layout_rows (h : Heap) (hac : h.Acyclic) (pointers : List (Ptr × String)) :
    ∃ d l iv N, discover h (h.cells.length + 2) pointers {} = some d ∧
      layout h pointers = some l ∧ LayoutOK h pointers d l ∧ RowsOK h pointers d l iv N := by
  obtain ⟨d, l, hd, hl, ok⟩ := layout_ok h hac pointers
  have dinv := ok.dinv
  have g := dinv.graph
  obtain ⟨rank, hr⟩ := hac
  have hdp := depthPairs_eq d.last_elements d.tree_nodes (fun p hp => (dinv.tails_ok p hp).1)
  simp only [layout, hd, Option.bind] at hl
  by_cases hl0 : d.last_elements = []
  · have hkeys : ∀ k ∈ d.tree_nodes.keys, k ∈ ([] : List Ptr) := by
      refine all_popped h rank hr d.tree_nodes [] g ?_ ?_
      · intro t ht ht0
        have := dinv.tails_all t ht (dinv.key_ne t ht) ht0
        rwa [hl0] at this
      · intro k _ _ hk
        cases hk
    simp only [resolveRows, hl0, ne_eq, not_true_eq_false, if_false, Option.some.injEq] at hl
    subst hl
    refine ⟨d, _, [], [], hd, ?_, ok, ?_⟩
    · simp [layout, hd, resolveRows, hl0]
    · exact {
        order := by simp [hl0, depthPairs, sortDesc]
        stacked := rfl
        seed := fun x hx => by cases hx
        own := fun k hk => by cases hkeys k hk
        top := fun x hx => by cases hx
        nodup := List.nodup_nil
        popped := fun k => ⟨fun hk => (by cases hk), fun hk => hkeys k hk⟩
        events := by
          have : d.tree_nodes.keys = [] :=
            List.eq_nil_iff_forall_not_mem.mpr (fun k hk => by cases hkeys k hk)
          simp [layoutEvents, hd, hl0, this] }
  · have hperm : List.Perm
        ((sortDesc (d.last_elements.map fun p => ((d.tree_nodes.val p).i, p))).map Prod.snd)
        d.last_elements := by
      refine ((sortDesc_perm _).map Prod.snd).trans ?_
      simp [List.map_map, Function.comp_def]
    obtain ⟨m', E, iv, N, hres, hs, inv, hiv, hst, -, hivN, hown, htop, hev⟩ :=
      resolveTails_full h rank hr
        (sortDesc (d.last_elements.map fun p => ((d.tree_nodes.val p).i, p)))
        d.tree_nodes 0 [] [] g (sinv_init h _) (hperm.nodup_iff.mpr dinv.tails_nodup)
        (fun t ht => ⟨(dinv.tails_ok t (hperm.mem_iff.mp ht)).1,
          (dinv.tails_ok t (hperm.mem_iff.mp ht)).2, by simp⟩) (le_refl _)
    simp only [List.nil_append, List.append_nil] at inv
    simp only [resolveRows, ne_eq, hl0, not_false_eq_true, if_true, hdp, hres,
      Option.some.injEq] at hl
    subst hl
    have g' := g.same hs
    have hall : ∀ k ∈ m'.keys, k ∈ N := by
      refine all_popped h rank hr m' N g' ?_ ?_
      · intro t ht ht0
        rw [hs.keys] at ht
        have := dinv.tails_all t ht (dinv.key_ne t ht) ht0
        have h2 : t ∈ iv.map (·.1) := by rw [hiv]; exact hperm.mem_iff.mpr this
        obtain ⟨x, hx, rfl⟩ := List.mem_map.mp h2
        exact hivN x hx
      · intro k hk hk0 hkD
        rcases inv.q_all k hk hk0 hkD with hD | hq
        · exact hD
        · simp at hq
    have hivnd : (iv.map (·.1)).Nodup := by
      rw [hiv]; exact hperm.nodup_iff.mpr dinv.tails_nodup
    refine ⟨d, _, iv, N, hd, ?_, ok, ?_⟩
    · simp only [layout, hd, Option.bind, resolveRows, ne_eq, hl0, not_false_eq_true, if_true,
        hdp, hres]
    · exact {
        order := by
          rw [hdp]
          have := sortDesc_self (fun t => (d.tree_nodes.val t).i) d.last_elements
          rw [← hiv, List.map_map] at this
          exact this
        stacked := hst
        seed := fun x hx => by
          have hx1 : x.1 ∈ d.last_elements := by
            refine hperm.mem_iff.mp ?_
            rw [← hiv]
            exact List.mem_map_of_mem _ hx
          have hseed := inv.d_seed x.1 (hivN x hx) (dinv.tails_ok _ hx1).2
          obtain ⟨y, hy, hyx⟩ := List.mem_map.mp hseed
          have hyx1 : y.1 = x.1 := congrArg Prod.snd hyx
          have hyeq : y = x := List.inj_on_of_nodup_map hivnd hy hx hyx1
          have := congrArg Prod.fst hyx
          simp only at this
          rw [← this, hyeq]
        own := fun k hk => hown k (hall k hk)
        top := fun x hx => by
          obtain ⟨k, hk, h1⟩ := htop x hx
          exact ⟨k, inv.d_keys k hk, h1⟩
        nodup := inv.d_nodup
        popped := fun k => ⟨fun hk => inv.d_keys k hk, fun hk => hall k hk⟩
        events := by
          simp only [layoutEvents, hd, ne_eq, hl0, not_false_eq_true, if_true, hdp]
          refine hev.trans (List.Perm.append ?_ ?_)
          · have := hperm.map Event.push
            rwa [List.map_map] at this
          · rw [popEvents_same hs]
            refine List.Perm.flatMap_right _ ?_
            exact (List.perm_ext_iff_of_nodup inv.d_nodup g'.keys_nodup).mpr
              (fun k => ⟨fun hk => inv.d_keys k hk, fun hk => hall k hk⟩) }

/-! ## Stacked intervals -/

theorem stacked_mem : ∀ (iv : List (Ptr × Int × Int)) (s e : Int), Stacked s iv e →
    s ≤ e ∧ ∀ x ∈ iv, s ≤ x.2.1 ∧ x.2.1 < x.2.2 ∧ x.2.2 ≤ e
  | [], s, e, hst => by
    simp only [Stacked] at hst
    exact ⟨le_of_eq hst, fun x hx => by cases hx⟩
  | y :: iv, s, e, hst => by
    obtain ⟨h1, h2, h3⟩ := hst
    obtain ⟨h4, h5⟩ := stacked_mem iv _ e h3
    refine ⟨by omega, ?_⟩
    intro x hx
    rcases List.mem_cons.mp hx with rfl | hx
    · exact ⟨by omega, by omega, h4⟩
    · have := h5 x hx
      exact ⟨by omega, this.2.1, this.2.2⟩

theorem stacked_pairwise : ∀ (iv : List (Ptr × Int × Int)) (s e : Int), Stacked s iv e →
    iv.Pairwise (fun a b => a.2.2 ≤ b.2.1)
  | [], _, _, _ => List.Pairwise.nil
  | y :: iv, s, e, hst => by
    obtain ⟨-, -, h3⟩ := hst
    refine List.Pairwise.cons ?_ (stacked_pairwise iv _ e h3)
    intro x hx
    exact ((stacked_mem iv _ e h3).2 x hx).1

theorem stacked_sum : ∀ (iv : List (Ptr × Int × Int)) (s e : Int), Stacked s iv e →
    e = s + (iv.map fun x => x.2.2 - x.2.1).sum
  | [], s, e, hst => by
    simp only [Stacked] at hst
    simp [hst]
  | y :: iv, s, e, hst => by
    obtain ⟨h1, -, h3⟩ := hst
    have := stacked_sum iv _ e h3
    simp only [List.map_cons, List.sum_cons]
    omega

theorem stacked_last : ∀ (iv : List (Ptr × Int × Int)) (s e : Int), Stacked s iv e →
    iv ≠ [] → ∃ x ∈ iv, x.2.2 = e
  | [], _, _, _, hne => absurd rfl hne
  | y :: iv, s, e, hst, _ => by
    obtain ⟨-, -, h3⟩ := hst
    by_cases hiv : iv = []
    · subst hiv
      simp only [Stacked] at h3
      exact ⟨y, List.mem_cons_self _ _, h3⟩
    · obtain ⟨x, hx, hxe⟩ := stacked_last iv _ e h3 hiv
      exact ⟨x, List.mem_cons_of_mem _ hx, hxe⟩

/-! ## The order of the sweeps -/

theorem sortDesc_sorted (l : List (Int × Ptr)) :
    (sortDesc l).Pairwise (fun a b => pairLe b a) := by
  haveI : IsTotal (Int × Ptr) (fun a b => pairLe b a) :=
    ⟨fun a b => by
      unfold pairLe
      rcases lt_trichotomy a.1 b.1 with h1 | h1 | h1
      · exact Or.inr (Or.inl h1)
      · rcases le_total a.2 b.2 with h2 | h2
        · exact Or.inr (Or.inr ⟨h1, h2⟩)
        · exact Or.inl (Or.inr ⟨h1.symm, h2⟩)
      · exact Or.inl (Or.inl h1)⟩
  haveI : IsTrans (Int × Ptr) (fun a b => pairLe b a) :=
    ⟨fun a b c => by
      unfold pairLe
      intro h1 h2
      rcases h1 with h1 | ⟨h1, h1'⟩ <;> rcases h2 with h2 | ⟨h2, h2'⟩
      · exact Or.inl (by omega)
      · exact Or.inl (by omega)
      · exact Or.inl (by omega)
      · exact Or.inr ⟨by omega, le_trans h2' h1'⟩⟩
  exact List.sorted_insertionSort _ l

theorem tail_unique (h : Heap) {k t1 t2 : Ptr} (h1 : h.Reach k t1) (h2 : h.Reach k t2)
    (ht1 : h.nast t1 = 0) (ht2 : h.nast t2 = 0) : t1 = t2 := by
  obtain ⟨a, ha⟩ := reach_hops h h1
  obtain ⟨b, hb⟩ := reach_hops h h2
  have hba := hops_tail_last h a b k t1 t2 ha ht1 hb
  have hab := hops_tail_last h b a k t2 t1 hb ht2 ha
  have : a = b := by omega
  subst this
  exact hops_node_unique h a k t1 t2 ha hb

/-! ## What the intervals give -/

theorem RowsOK.tails {h : Heap} {pointers : List (Ptr × String)} {d : Discovery} {l : Layout}
    {iv : List (Ptr × Int × Int)} {N : List Ptr} (ok : LayoutOK h pointers d l)
    (rk : RowsOK h pointers d l iv N) : List.Perm (iv.map (·.1)) d.last_elements := by
  have hdp := depthPairs_eq d.last_elements d.tree_nodes (fun p hp => (ok.dinv.tails_ok p hp).1)
  have h1 := congrArg (List.map Prod.snd) rk.order
  rw [hdp] at h1
  simp only [List.map_map, Function.comp_def] at h1
  rw [h1]
  refine ((sortDesc_perm _).map Prod.snd).trans ?_
  simp [List.map_map, Function.comp_def]

theorem RowsOK.tail_ok {h : Heap} {pointers : List (Ptr × String)} {d : Discovery} {l : Layout}
    {iv : List (Ptr × Int × Int)} {N : List Ptr} (ok : LayoutOK h pointers d l)
    (rk : RowsOK h pointers d l iv N) {x : Ptr × Int × Int} (hx : x ∈ iv) :
    x.1 ∈ d.last_elements ∧ h.nast x.1 = 0 := by
  have h1 : x.1 ∈ d.last_elements := (rk.tails ok).mem_iff.mp (List.mem_map_of_mem _ hx)
  exact ⟨h1, (ok.dinv.tails_ok _ h1).2⟩

theorem RowsOK.of_tail {h : Heap} {pointers : List (Ptr × String)} {d : Discovery} {l : Layout}
    {iv : List (Ptr × Int × Int)} {N : List Ptr} (ok : LayoutOK h pointers d l)
    (rk : RowsOK h pointers d l iv N) {t : Ptr} (ht : t ∈ d.last_elements) :
    ∃ x ∈ iv, x.1 = t := by
  have := (rk.tails ok).mem_iff.mpr ht
  obtain ⟨x, hx, hxt⟩ := List.mem_map.mp this
  exact ⟨x, hx, hxt⟩

theorem RowsOK.interval {h : Heap} {pointers : List (Ptr × String)} {d : Discovery}
    {l : Layout} {iv : List (Ptr × Int × Int)} {N : List Ptr} (ok : LayoutOK h pointers d l)
    (rk : RowsOK h pointers d l iv N) {x : Ptr × Int × Int} (hx : x ∈ iv) {k : Ptr}
    (hk : k ∈ l.tree_nodes.keys) (hkx : h.Reach k x.1) :
    x.2.1 ≤ (l.tree_nodes.val k).j ∧
      (l.tree_nodes.val k).j + (l.tree_nodes.val k).predecessors.length ≤ x.2.2 := by
  obtain ⟨y, hy, hky, hb⟩ := rk.own k hk
  have hyx : y.1 = x.1 := tail_unique h hky hkx (rk.tail_ok ok hy).2 (rk.tail_ok ok hx).2
  have hnd : (iv.map (·.1)).Nodup := (rk.tails ok).nodup_iff.mpr ok.dinv.tails_nodup
  have : y = x := List.inj_on_of_nodup_map hnd hy hx hyx
  rw [← this]
  exact hb

theorem RowsOK.bounds {h : Heap} {pointers : List (Ptr × String)} {d : Discovery} {l : Layout}
    {iv : List (Ptr × Int × Int)} {N : List Ptr} (rk : RowsOK h pointers d l iv N) {k : Ptr}
    (hk : k ∈ l.tree_nodes.keys) :
    0 ≤ (l.tree_nodes.val k).j ∧
      (l.tree_nodes.val k).j + (l.tree_nodes.val k).predecessors.length ≤ l.nr := by
  obtain ⟨x, hx, -, h1, h2⟩ := rk.own k hk
  have := (stacked_mem iv 0 l.nr rk.stacked).2 x hx
  omega

theorem RowsOK.sorted {h : Heap} {pointers : List (Ptr × String)} {d : Discovery} {l : Layout}
    {iv : List (Ptr × Int × Int)} {N : List Ptr} (rk : RowsOK h pointers d l iv N) :
    iv.Pairwise (fun a b => a.2.2 ≤ b.2.1 ∧ (d.tree_nodes.val b.1).i ≤ (d.tree_nodes.val a.1).i)
    := by
  have h1 := sortDesc_sorted (depthPairs d.last_elements d.tree_nodes).1
  rw [← rk.order, List.pairwise_map] at h1
  have h2 := stacked_pairwise iv 0 l.nr rk.stacked
  refine (h2.and h1).imp ?_
  rintro a b ⟨hab, hle⟩
  refine ⟨hab, ?_⟩
  unfold pairLe at hle
  simp only at hle
  omega

theorem RowsOK.apart {h : Heap} {pointers : List (Ptr × String)} {d : Discovery} {l : Layout}
    {iv : List (Ptr × Int × Int)} {N : List Ptr} (rk : RowsOK h pointers d l iv N)
    {a b : Ptr × Int × Int} (ha : a ∈ iv) (hb : b ∈ iv) (hab : a.1 ≠ b.1) :
    (a.2.2 ≤ b.2.1 ∧ (d.tree_nodes.val b.1).i ≤ (d.tree_nodes.val a.1).i) ∨
      (b.2.2 ≤ a.2.1 ∧ (d.tree_nodes.val a.1).i ≤ (d.tree_nodes.val b.1).i) := by
  have hp := rk.sorted.imp (S := fun a b : Ptr × Int × Int =>
    (a.2.2 ≤ b.2.1 ∧ (d.tree_nodes.val b.1).i ≤ (d.tree_nodes.val a.1).i) ∨
      (b.2.2 ≤ a.2.1 ∧ (d.tree_nodes.val a.1).i ≤ (d.tree_nodes.val b.1).i))
    (fun hR => Or.inl hR)
  exact hp.forall (fun x y hxy => hxy.symm) ha hb (fun heq => hab (heq ▸ rfl))

/-! ## Claim C15 -/

/-- Claim C15: on every finite acyclic input the sweeps run through the tails
in descending order of column, the first sweep starts at row 0 and each next
one at the row where the rows consumed by the sweep before it end (`iv` lists
the tails in sweep order, each with the rows `lo, ..., hi - 1` its sweep
consumed: the tail is on row `lo`, every node leading to it and every edge
into such a node is on these rows, and row `hi - 1` is used).  So two nodes
that lead to different tails never share a row, and when the tail `t1` has a
greater column than the tail `t2`, every node leading to `t1` has a strictly
smaller row than every node leading to `t2`. -/
theorem C15_stacked_sweeps (h : Heap) (pointers : List (Ptr × String)) (hac : h.Acyclic) :
    ∃ d l, discover h (h.cells.length + 2) pointers {} = some d ∧ layout h pointers = some l ∧
      (∃ iv : List (Ptr × Int × Int),
        iv.map (fun x => ((l.tree_nodes.entry x.1).i, x.1))
          = sortDesc (depthPairs d.last_elements d.tree_nodes).1 ∧
        List.Perm (iv.map (·.1)) l.last_elements ∧
        iv.Pairwise (fun a b => (l.tree_nodes.entry b.1).i ≤ (l.tree_nodes.entry a.1).i) ∧
        Stacked 0 iv l.nr ∧
        ∀ x ∈ iv, (l.tree_nodes.entry x.1).j = x.2.1 ∧
          (∀ k ∈ l.tree_nodes.keys, h.Reach k x.1 →
            x.2.1 ≤ (l.tree_nodes.entry k).j ∧
            (l.tree_nodes.entry k).j + (l.tree_nodes.entry k).predecessors.length ≤ x.2.2) ∧
          ∃ k ∈ l.tree_nodes.keys, h.Reach k x.1 ∧
            (l.tree_nodes.entry k).j + (l.tree_nodes.entry k).predecessors.length = x.2.2) ∧
      (∀ k1 ∈ l.tree_nodes.keys, ∀ k2 ∈ l.tree_nodes.keys,
        ∀ t1 ∈ l.last_elements, ∀ t2 ∈ l.last_elements, h.Reach k1 t1 → h.Reach k2 t2 →
        t1 ≠ t2 → (l.tree_nodes.entry k1).j ≠ (l.tree_nodes.entry k2).j) ∧
      (∀ k1 ∈ l.tree_nodes.keys, ∀ k2 ∈ l.tree_nodes.keys,
        ∀ t1 ∈ l.last_elements, ∀ t2 ∈ l.last_elements, h.Reach k1 t1 → h.Reach k2 t2 →
        (l.tree_nodes.entry t2).i < (l.tree_nodes.entry t1).i →
        (l.tree_nodes.entry k1).j < (l.tree_nodes.entry k2).j) := by
  obtain ⟨d, l, iv, N, hd, hl, ok, rk⟩ := layout_rows h hac pointers
  have hcol : ∀ x ∈ iv, (l.tree_nodes.val x.1).i = (d.tree_nodes.val x.1).i :=
    fun x hx => ok.same.tail_i x.1 (rk.tail_ok ok hx).2
  have key : ∀ k1 ∈ l.tree_nodes.keys, ∀ k2 ∈ l.tree_nodes.keys,
      ∀ t1 ∈ l.last_elements, ∀ t2 ∈ l.last_elements, h.Reach k1 t1 → h.Reach k2 t2 →
      t1 ≠ t2 →
      ((l.tree_nodes.val k1).j < (l.tree_nodes.val k2).j ∧
        (l.tree_nodes.val t2).i ≤ (l.tree_nodes.val t1).i) ∨
      ((l.tree_nodes.val k2).j < (l.tree_nodes.val k1).j ∧
        (l.tree_nodes.val t1).i ≤ (l.tree_nodes.val t2).i) := by
    intro k1 hk1 k2 hk2 t1 ht1 t2 ht2 hr1 hr2 hne
    rw [ok.last] at ht1 ht2
    obtain ⟨x1, hx1, rfl⟩ := rk.of_tail ok ht1
    obtain ⟨x2, hx2, rfl⟩ := rk.of_tail ok ht2
    have b1 := rk.interval ok hx1 hk1 hr1
    have b2 := rk.interval ok hx2 hk2 hr2
    have l1 := ok.graph.len_pos hk1
    have l2 := ok.graph.len_pos hk2
    rw [hcol x1 hx1, hcol x2 hx2]
    rcases rk.apart hx1 hx2 hne with ⟨h1, h2⟩ | ⟨h1, h2⟩
    · exact Or.inl ⟨by omega, h2⟩
    · exact Or.inr ⟨by omega, h2⟩
  refine ⟨d, l, hd, hl, ⟨iv, ?_, ?_, ?_, rk.stacked, ?_⟩, ?_, ?_⟩
  · rw [← rk.order]
    refine List.map_congr_left ?_
    intro x hx
    simp only [TreeMap.entry]
    rw [hcol x hx]
  · rw [ok.last]; exact rk.tails ok
  · have := rk.sorted
    rw [List.pairwise_iff_forall_sublist] at this ⊢
    intro a b hab
    have ha : a ∈ iv := hab.subset (by simp)
    have hb : b ∈ iv := hab.subset (by simp)
    simp only [TreeMap.entry]
    rw [hcol a ha, hcol b hb]
    exact (this hab).2
  · intro x hx
    refine ⟨rk.seed x hx, fun k hk hkx => rk.interval ok hx hk hkx, rk.top x hx⟩
  · intro k1 hk1 k2 hk2 t1 ht1 t2 ht2 hr1 hr2 hne
    simp only [TreeMap.entry]
    rcases key k1 hk1 k2 hk2 t1 ht1 t2 ht2 hr1 hr2 hne with h1 | h1 <;> omega
  · intro k1 hk1 k2 hk2 t1 ht1 t2 ht2 hr1 hr2 hlt
    simp only [TreeMap.entry] at hlt ⊢
    have hne : t1 ≠ t2 := by
      rintro rfl
      exact lt_irrefl _ hlt
    rcases key k1 hk1 k2 hk2 t1 ht1 t2 ht2 hr1 hr2 hne with h1 | h1 <;> omega

set_option maxRecDepth 100000 in
/-- Claim C15 on two chains, `b -> B -> A` and `e -> E -> D -> C` with a second
pointer `d` to `D`: the tail `C`, of column 2, is swept first and its chain
takes the rows 0 and 1; the tail `A`, of column 1, and `B` are on row 2. -/
theorem C15_stacked_sweeps_witness :
    stackHeap.Acyclic ∧
    (∃ d l, discover stackHeap (stackHeap.cells.length + 2) stackPointers {} = some d ∧
      layout stackHeap stackPointers = some l ∧
      (∃ iv : List (Ptr × Int × Int),
        iv.map (fun x => ((l.tree_nodes.entry x.1).i, x.1))
          = sortDesc (depthPairs d.last_elements d.tree_nodes).1 ∧
        List.Perm (iv.map (·.1)) l.last_elements ∧
        iv.Pairwise (fun a b => (l.tree_nodes.entry b.1).i ≤ (l.tree_nodes.entry a.1).i) ∧
        Stacked 0 iv l.nr ∧
        ∀ x ∈ iv, (l.tree_nodes.entry x.1).j = x.2.1 ∧
          (∀ k ∈ l.tree_nodes.keys, stackHeap.Reach k x.1 →
            x.2.1 ≤ (l.tree_nodes.entry k).j ∧
            (l.tree_nodes.entry k).j + (l.tree_nodes.entry k).predecessors.length ≤ x.2.2) ∧
          ∃ k ∈ l.tree_nodes.keys, stackHeap.Reach k x.1 ∧
            (l.tree_nodes.entry k).j + (l.tree_nodes.entry k).predecessors.length = x.2.2) ∧
      (∀ k1 ∈ l.tree_nodes.keys, ∀ k2 ∈ l.tree_nodes.keys,
        ∀ t1 ∈ l.last_elements, ∀ t2 ∈ l.last_elements, stackHeap.Reach k1 t1 →
        stackHeap.Reach k2 t2 →
        t1 ≠ t2 → (l.tree_nodes.entry k1).j ≠ (l.tree_nodes.entry k2).j) ∧
      (∀ k1 ∈ l.tree_nodes.keys, ∀ k2 ∈ l.tree_nodes.keys,
        ∀ t1 ∈ l.last_elements, ∀ t2 ∈ l.last_elements, stackHeap.Reach k1 t1 →
        stackHeap.Reach k2 t2 →
        (l.tree_nodes.entry t2).i < (l.tree_nodes.entry t1).i →
        (l.tree_nodes.entry k1).j < (l.tree_nodes.entry k2).j)) ∧
    (layout stackHeap stackPointers).map (fun l =>
      (l.tree_nodes.keys.map fun k => (k, (l.tree_nodes.entry k).i, (l.tree_nodes.entry k).j),
        l.last_elements, l.nr))
      = some ([(0x1000, 1, 2), (0x1010, 0, 2), (0x1020, 2, 0), (0x1030, 1, 0), (0x1040, 0, 0)],
          [0x1000, 0x1020], 3) ∧
    (discover stackHeap (stackHeap.cells.length + 2) stackPointers {}).map (fun d =>
      sortDesc (depthPairs d.last_elements d.tree_nodes).1) = some [(2, 0x1020), (1, 0x1000)] :=
  ⟨acyclic_of_cells stackHeap id (by decide),
    C15_stacked_sweeps stackHeap stackPointers (acyclic_of_cells stackHeap id (by decide)),
    by decide, by decide⟩

/-! ## The size of the canvas -/

theorem dataLength_spec (h : Heap) : ∀ (ks : List Ptr) (a : Int),
    a ≤ dataLength h ks a ∧
    (∀ k ∈ ks, ((h.dane k).utf8ByteSize : Int) ≤ dataLength h ks a) ∧
    (dataLength h ks a = a ∨ ∃ k ∈ ks, ((h.dane k).utf8ByteSize : Int) = dataLength h ks a)
  | [], a => ⟨le_refl _, fun k hk => (by cases hk), Or.inl rfl⟩
  | p :: rest, a => by
    simp only [dataLength]
    have hv : a ≤ (if ((h.dane p).utf8ByteSize : Int) > a then ((h.dane p).utf8ByteSize : Int) else a)
        ∧ ((h.dane p).utf8ByteSize : Int)
          ≤ (if ((h.dane p).utf8ByteSize : Int) > a then ((h.dane p).utf8ByteSize : Int) else a)
        ∧ ((if ((h.dane p).utf8ByteSize : Int) > a then ((h.dane p).utf8ByteSize : Int) else a) = a
          ∨ (if ((h.dane p).utf8ByteSize : Int) > a then ((h.dane p).utf8ByteSize : Int) else a)
            = ((h.dane p).utf8ByteSize : Int)) := by
      split_ifs <;> omega
    generalize (if ((h.dane p).utf8ByteSize : Int) > a then ((h.dane p).utf8ByteSize : Int)
      else a) = v at hv
    obtain ⟨h1, h2, h3⟩ := dataLength_spec h rest v
    refine ⟨by omega, ?_, ?_⟩
    · intro k hk
      rcases List.mem_cons.mp hk with rfl | hk
      · omega
      · exact h2 k hk
    · rcases h3 with h3 | ⟨k, hk, hkeq⟩
      · rcases hv.2.2 with hva | hvp
        · left; rw [h3, hva]
        · right
          exact ⟨p, List.mem_cons_self _ _, by rw [h3, hvp]⟩
      · exact Or.inr ⟨k, List.mem_cons_of_mem _ hk, hkeq⟩

theorem dataLength_zero (h : Heap) (ks : List Ptr) :
    0 ≤ dataLength h ks 0 ∧ (∀ k ∈ ks, ((h.dane k).utf8ByteSize : Int) ≤ dataLength h ks 0) ∧
    (ks = [] → dataLength h ks 0 = 0) ∧
    (ks ≠ [] → ∃ k ∈ ks, ((h.dane k).utf8ByteSize : Int) = dataLength h ks 0) := by
  obtain ⟨h1, h2, h3⟩ := dataLength_spec h ks 0
  refine ⟨h1, h2, fun hnil => by rw [hnil]; rfl, fun hne => ?_⟩
  rcases h3 with h3 | h3
  · cases ks with
    | nil => exact absurd rfl hne
    | cons k ks =>
      refine ⟨k, List.mem_cons_self _ _, ?_⟩
      have := h2 k (List.mem_cons_self _ _)
      have hk0 : (0 : Int) ≤ ((h.dane k).utf8ByteSize : Int) := Int.natCast_nonneg _
      omega
  · exact h3

theorem deepest_spec (h : Heap) (hac : h.Acyclic) (pointers : List (Ptr × String))
    (d : Discovery) (hd : discover h (h.cells.length + 2) pointers {} = some d)
    (dinv : DInv h pointers 0 d) :
    (∀ q, 0 ≤ (d.tree_nodes.val q).i) ∧
    (d.tree_nodes.keys ≠ [] → 0 ≤ d.deepest_i ∧ ∀ q, (d.tree_nodes.val q).i ≤ d.deepest_i) ∧
    (∀ pp ∈ pointers, pp.1 ≠ 0 → ∀ (q : Ptr) (k : Nat), h.Hops pp.1 q k →
      (k : Int) ≤ d.deepest_i) ∧
    ((∃ pp ∈ pointers, pp.1 ≠ 0) →
      ∃ pp ∈ pointers, pp.1 ≠ 0 ∧ ∃ (q : Ptr) (k : Nat), h.Hops pp.1 q k ∧ d.deepest_i = k) ∧
    ((∀ pp ∈ pointers, pp.1 = 0) → d.deepest_i = -1) := by
  obtain ⟨deep, col, -⟩ := discover_depths h hac pointers d hd
  have hne : d.tree_nodes.keys ≠ [] → d.deepest_node ≠ 0 := fun hk h0 => hk (deep.none h0).2
  have hle : d.tree_nodes.keys ≠ [] → 0 ≤ d.deepest_i ∧ ∀ q, (d.tree_nodes.val q).i ≤ d.deepest_i
      := by
    intro hk
    obtain ⟨-, -, hd0⟩ := deep.some (hne hk)
    refine ⟨hd0, fun q => ?_⟩
    have := deep.le q
    rwa [max_eq_left hd0] at this
  have hroot : ∀ pp ∈ pointers, pp.1 ≠ 0 → d.tree_nodes.keys ≠ [] :=
    fun pp hpp hpp0 => List.ne_nil_of_mem (dinv.roots pp hpp hpp0)
  refine ⟨deep.nonneg, hle, ?_, ?_, ?_⟩
  · intro pp hpp hpp0 q k hk
    exact le_trans (col.upper pp hpp hpp0 q k hk) ((hle (hroot pp hpp hpp0)).2 q)
  · rintro ⟨pp, hpp, hpp0⟩
    have hk := hroot pp hpp hpp0
    obtain ⟨-, hdle, -⟩ := deep.some (hne hk)
    have heq : (d.tree_nodes.val d.deepest_node).i = d.deepest_i :=
      le_antisymm ((hle hk).2 _) hdle
    rcases col.attained d.deepest_node with h0 | ⟨pp', hpp', hpp0', k, hk', hcol⟩
    · refine ⟨pp, hpp, hpp0, pp.1, 0, (hops_zero h pp.1 pp.1).mpr ⟨rfl, hpp0⟩, ?_⟩
      rw [← heq, h0]; rfl
    · exact ⟨pp', hpp', hpp0', d.deepest_node, k, hk', by rw [← heq, hcol]⟩
  · intro hall
    have hkeys : d.tree_nodes.keys = [] := by
      by_contra hk
      obtain ⟨k, hk'⟩ := List.exists_mem_of_ne_nil _ hk
      obtain ⟨pp, hpp, hpp0, -⟩ := dinv.reach k hk'
      exact hpp0 (hall pp hpp)
    have hnode : d.deepest_node = 0 := by
      by_contra hn
      have := (deep.some hn).1
      rw [hkeys] at this
      cases this
    exact (deep.none hnode).1

theorem generateLinkedListSVG_header (h : Heap) (pointers : List (Ptr × String)) (l : Layout)
    (hl : layout h pointers = some l) (s : String) (hs : generateLinkedListSVG h pointers = some s)
    : ∃ body, s = svgHeader (metrics h l) ++ body := by
  simp only [generateLinkedListSVG, hl, Option.bind, svgText, Option.map_eq_some'] at hs
  obtain ⟨body, -, rfl⟩ := hs
  exact ⟨body, rfl⟩

/-! ## Claim C16 -/

/-- Claim C16: on every finite acyclic input the size written in the `<svg>`
tag is `height = (R + N) * 60` and `width = (max(D, 1) + 2) * (100 + 7 * L)`,
where `N` is the number of null roots; `R = nr` is the total of the rows
consumed by the sweeps (the sweep of a tail consumes the rows from the row of
the tail to the greatest row of an edge into a node leading to it; all rows of
nodes and edges are below `R`); `D = deepest_i` is the greatest number of hops
from a non-null root to a node (-1 when there is no non-null root); and `L`
is the greatest length of the printed value of a node (0 when there is no
node). -/
theorem C16_canvas_size (h : Heap) (pointers : List (Ptr × String)) (hac : h.Acyclic) :
    ∃ l, layout h pointers = some l ∧
      (∀ s, generateLinkedListSVG h pointers = some s →
        ∃ body, s = svgHeader (metrics h l) ++ body) ∧
      (metrics h l).height
        = (l.nr + ((pointers.filter fun pp => pp.1 = 0).length : Int)) * 60 ∧
      (metrics h l).width
        = (max l.deepest_i 1 + 2) * (100 + 7 * dataLength h l.tree_nodes.keys 0) ∧
      -- the rows
      (∃ iv : List (Ptr × Int × Int), List.Perm (iv.map (·.1)) l.last_elements ∧
        (∀ x ∈ iv, (l.tree_nodes.entry x.1).j = x.2.1 ∧
          (∀ k ∈ l.tree_nodes.keys, h.Reach k x.1 →
            x.2.1 ≤ (l.tree_nodes.entry k).j ∧
            (l.tree_nodes.entry k).j + (l.tree_nodes.entry k).predecessors.length ≤ x.2.2) ∧
          ∃ k ∈ l.tree_nodes.keys, h.Reach k x.1 ∧
            (l.tree_nodes.entry k).j + (l.tree_nodes.entry k).predecessors.length = x.2.2) ∧
        l.nr = (iv.map fun x => x.2.2 - x.2.1).sum) ∧
      (∀ k ∈ l.tree_nodes.keys, 0 ≤ (l.tree_nodes.entry k).j ∧
        ∀ e ∈ (l.tree_nodes.entry k).predecessors, (l.tree_nodes.entry k).j ≤ e.j ∧ e.j < l.nr) ∧
      (l.tree_nodes.keys = [] → l.nr = 0) ∧
      -- the depth
      (∀ pp ∈ pointers, pp.1 ≠ 0 → ∀ (q : Ptr) (k : Nat), h.Hops pp.1 q k →
        (k : Int) ≤ l.deepest_i) ∧
      ((∃ pp ∈ pointers, pp.1 ≠ 0) →
        ∃ pp ∈ pointers, pp.1 ≠ 0 ∧ ∃ (q : Ptr) (k : Nat), h.Hops pp.1 q k ∧ l.deepest_i = k) ∧
      ((∀ pp ∈ pointers, pp.1 = 0) → l.deepest_i = -1) ∧
      -- the longest value
      (∀ k ∈ l.tree_nodes.keys,
        ((h.dane k).utf8ByteSize : Int) ≤ dataLength h l.tree_nodes.keys 0) ∧
      (l.tree_nodes.keys = [] → dataLength h l.tree_nodes.keys 0 = 0) ∧
      (l.tree_nodes.keys ≠ [] →
        ∃ k ∈ l.tree_nodes.keys,
          ((h.dane k).utf8ByteSize : Int) = dataLength h l.tree_nodes.keys 0) := by
  obtain ⟨d, l, iv, N, hd, hl, ok, rk⟩ := layout_rows h hac pointers
  obtain ⟨-, -, hup, hat, hnone⟩ := deepest_spec h hac pointers d hd ok.dinv
  obtain ⟨-, hL1, hL2, hL3⟩ := dataLength_zero h l.tree_nodes.keys
  refine ⟨l, hl, fun s hs => generateLinkedListSVG_header h pointers l hl s hs, ?_, ?_,
    ⟨iv, ?_, ?_, ?_⟩, ?_, ?_, ?_, ?_, ?_, hL1, hL2, hL3⟩
  · simp only [metrics]
    rw [ok.nullp, ok.dinv.nulls]
    norm_num
  · simp only [metrics]
    rw [ok.nc, ok.deepest]
    have : (if d.deepest_i > 1 then d.deepest_i else 1) = max d.deepest_i 1 := by
      split_ifs with hgt
      · exact (max_eq_left (le_of_lt hgt)).symm
      · exact (max_eq_right (by omega)).symm
    rw [this]
    ring
  · rw [ok.last]; exact rk.tails ok
  · intro x hx
    exact ⟨rk.seed x hx, fun k hk hkx => rk.interval ok hx hk hkx, rk.top x hx⟩
  · have := stacked_sum iv 0 l.nr rk.stacked
    omega
  · intro k hk
    obtain ⟨h0, h1⟩ := rk.bounds hk
    refine ⟨h0, fun e he => ?_⟩
    simp only [TreeMap.entry] at he
    obtain ⟨idx, hidx⟩ := List.getElem?_of_mem he
    have hrow := ok.rows k hk idx e hidx
    have hlt : idx < (l.tree_nodes.val k).predecessors.length := by
      by_contra hge
      rw [List.getElem?_eq_none (by omega)] at hidx
      cases hidx
    simp only [TreeMap.entry]
    omega
  · intro hkeys
    cases hiv : iv with
    | nil =>
      have := rk.stacked
      rw [hiv] at this
      simp only [Stacked] at this
      exact this.symm
    | cons x xs =>
      obtain ⟨k, hk, -⟩ := rk.top x (by rw [hiv]; exact List.mem_cons_self _ _)
      rw [hkeys] at hk
      cases hk
  · rw [ok.deepest]; exact hup
  · rw [ok.deepest]; exact hat
  · rw [ok.deepest]; exact hnone

set_option maxRecDepth 100000 in
/-- Claim C16 on the two chains of `stackHeap` with a null pointer: three rows,
one null root, depth 2 and values of one character give the height
`(3 + 1) * 60 = 240` and the width `(2 + 2) * (100 + 7) = 428`. -/
theorem C16_canvas_size_witness :
    stackHeap.Acyclic ∧
    (∃ l, layout stackHeap stackPointers = some l ∧
      (∀ s, generateLinkedListSVG stackHeap stackPointers = some s →
        ∃ body, s = svgHeader (metrics stackHeap l) ++ body) ∧
      (metrics stackHeap l).height
        = (l.nr + ((stackPointers.filter fun pp => pp.1 = 0).length : Int)) * 60 ∧
      (metrics stackHeap l).width
        = (max l.deepest_i 1 + 2) * (100 + 7 * dataLength stackHeap l.tree_nodes.keys 0) ∧
      (∃ iv : List (Ptr × Int × Int), List.Perm (iv.map (·.1)) l.last_elements ∧
        (∀ x ∈ iv, (l.tree_nodes.entry x.1).j = x.2.1 ∧
          (∀ k ∈ l.tree_nodes.keys, stackHeap.Reach k x.1 →
            x.2.1 ≤ (l.tree_nodes.entry k).j ∧
            (l.tree_nodes.entry k).j + (l.tree_nodes.entry k).predecessors.length ≤ x.2.2) ∧
          ∃ k ∈ l.tree_nodes.keys, stackHeap.Reach k x.1 ∧
            (l.tree_nodes.entry k).j + (l.tree_nodes.entry k).predecessors.length = x.2.2) ∧
        l.nr = (iv.map fun x => x.2.2 - x.2.1).sum) ∧
      (∀ k ∈ l.tree_nodes.keys, 0 ≤ (l.tree_nodes.entry k).j ∧
        ∀ e ∈ (l.tree_nodes.entry k).predecessors, (l.tree_nodes.entry k).j ≤ e.j ∧ e.j < l.nr) ∧
      (l.tree_nodes.keys = [] → l.nr = 0) ∧
      (∀ pp ∈ stackPointers, pp.1 ≠ 0 → ∀ (q : Ptr) (k : Nat), stackHeap.Hops pp.1 q k →
        (k : Int) ≤ l.deepest_i) ∧
      ((∃ pp ∈ stackPointers, pp.1 ≠ 0) →
        ∃ pp ∈ stackPointers, pp.1 ≠ 0 ∧
          ∃ (q : Ptr) (k : Nat), stackHeap.Hops pp.1 q k ∧ l.deepest_i = k) ∧
      ((∀ pp ∈ stackPointers, pp.1 = 0) → l.deepest_i = -1) ∧
      (∀ k ∈ l.tree_nodes.keys,
        ((stackHeap.dane k).utf8ByteSize : Int) ≤ dataLength stackHeap l.tree_nodes.keys 0) ∧
      (l.tree_nodes.keys = [] → dataLength stackHeap l.tree_nodes.keys 0 = 0) ∧
      (l.tree_nodes.keys ≠ [] →
        ∃ k ∈ l.tree_nodes.keys,
          ((stackHeap.dane k).utf8ByteSize : Int) = dataLength stackHeap l.tree_nodes.keys 0)) ∧
    (layout stackHeap stackPointers).map (fun l =>
      ((metrics stackHeap l).width, (metrics stackHeap l).height, l.nr, l.deepest_i,
        dataLength stackHeap l.tree_nodes.keys 0)) = some (428, 240, 3, 2, 1) ∧
    (generateLinkedListSVG stackHeap stackPointers).map (fun s =>
      decide ("<svg xmlns='http://www.w3.org/2000/svg' width='428' height='240'>\n".data
        <+: s.data)) = some true :=
  ⟨acyclic_of_cells stackHeap id (by decide),
    C16_canvas_size stackHeap stackPointers (acyclic_of_cells stackHeap id (by decide)),
    by decide, by rfl⟩

/-! ## The rows of the null arrows -/

theorem RowsOK.edge_bounds {h : Heap} {pointers : List (Ptr × String)} {d : Discovery}
    {l : Layout} {iv : List (Ptr × Int × Int)} {N : List Ptr} (ok : LayoutOK h pointers d l)
    (rk : RowsOK h pointers d l iv N) {k : Ptr} (hk : k ∈ l.tree_nodes.keys) {e : Edge}
    (he : e ∈ (l.tree_nodes.val k).predecessors) :
    (l.tree_nodes.val k).j ≤ e.j ∧ e.j < l.nr := by
  obtain ⟨-, h1⟩ := rk.bounds hk
  obtain ⟨idx, hidx⟩ := List.getElem?_of_mem he
  have hrow := ok.rows k hk idx e hidx
  have hlt : idx < (l.tree_nodes.val k).predecessors.length := by
    by_contra hge
    rw [List.getElem?_eq_none (by omega)] at hidx
    cases hidx
  omega

theorem RowsOK.empty {h : Heap} {pointers : List (Ptr × String)} {d : Discovery} {l : Layout}
    {iv : List (Ptr × Int × Int)} {N : List Ptr} (rk : RowsOK h pointers d l iv N)
    (hkeys : l.tree_nodes.keys = []) : l.nr = 0 := by
  cases hiv : iv with
  | nil =>
    have := rk.stacked
    rw [hiv] at this
    simp only [Stacked] at this
    exact this.symm
  | cons x xs =>
    obtain ⟨k, hk, -⟩ := rk.top x (by rw [hiv]; exact List.mem_cons_self _ _)
    rw [hkeys] at hk
    cases hk

theorem RowsOK.last_row {h : Heap} {pointers : List (Ptr × String)} {d : Discovery}
    {l : Layout} {iv : List (Ptr × Int × Int)} {N : List Ptr} (ok : LayoutOK h pointers d l)
    (rk : RowsOK h pointers d l iv N) (hkeys : l.tree_nodes.keys ≠ []) :
    ∃ k ∈ l.tree_nodes.keys, ∃ e ∈ (l.tree_nodes.val k).predecessors, e.j = l.nr - 1 := by
  have hiv : iv ≠ [] := by
    rintro rfl
    obtain ⟨k, hk⟩ := List.exists_mem_of_ne_nil _ hkeys
    obtain ⟨x, hx, -⟩ := rk.own k hk
    cases hx
  obtain ⟨x, hx, hxe⟩ := stacked_last iv 0 l.nr rk.stacked hiv
  obtain ⟨k, hk, -, htop⟩ := rk.top x hx
  have hpos := ok.graph.len_pos hk
  have hlt : (l.tree_nodes.val k).predecessors.length - 1
      < (l.tree_nodes.val k).predecessors.length := by omega
  refine ⟨k, hk, (l.tree_nodes.val k).predecessors.get ⟨_, hlt⟩, List.get_mem _ _ _, ?_⟩
  have := ok.rows k hk ((l.tree_nodes.val k).predecessors.length - 1) _
    (List.getElem?_eq_getElem hlt)
  simp only [List.get_eq_getElem]
  rw [this]
  omega

theorem drawNulls_get (g : Metrics) : ∀ (ps : List (Ptr × String)) (pj : Int) (k : Nat)
    (pp : Ptr × String), ps[k]? = some pp →
    (drawNulls g ps pj)[k]? = some (Draw.nullArrow g.startX (g.startX + g.spacing)
      (g.startY + (g.nodeHeight + 20) * (pj + k) + g.nodeHeight.tdiv 2) pp.2)
  | [], _, k, pp, hk => by simp at hk
  | p :: ps, pj, 0, pp, hk => by
    simp only [List.getElem?_cons_zero, Option.some.injEq] at hk
    subst hk
    simp [drawNulls]
  | p :: ps, pj, k + 1, pp, hk => by
    simp only [List.getElem?_cons_succ] at hk
    simp only [drawNulls, List.getElem?_cons_succ]
    rw [drawNulls_get g ps (pj + 1) k pp hk]
    push_cast
    congr 3
    ring

theorem drawNulls_length (g : Metrics) : ∀ (ps : List (Ptr × String)) (pj : Int),
    (drawNulls g ps pj).length = ps.length
  | [], _ => rfl
  | p :: ps, pj => by simp [drawNulls, drawNulls_length g ps]

theorem nullLabel_drawEntry (h : Heap) (g : Metrics) (pp : Ptr × TreeNode) :
    ∀ c ∈ drawEntry h g pp, c.nullLabel = none := by
  intro c hc
  simp only [drawEntry, List.mem_append, List.mem_singleton, List.mem_map] at hc
  rcases hc with (hc | hc) | ⟨e, -, hc⟩
  · subst hc; rfl
  · split_ifs at hc
    · rw [List.mem_singleton] at hc
      subst hc; rfl
    · cases hc
  · subst hc
    unfold drawPred
    split_ifs <;> rfl

/-! ## Claim C18 -/

/-- Claim C18: on every finite acyclic input the null arrows are drawn after
all the calls made for the nodes, one for each null root in input order, and
the one of the `k`-th null root (counting from 0) is drawn on row `R + k`: it
runs from `x = 0` to `x = 70` at `y = 10 + 60 * (R + k) + 20`.  Here `R = nr`
is the number of rows of the node grid: every node and every predecessor edge
has a row from `0` to `R - 1`, row `R - 1` holds an edge when there is a node
and `R = 0` when there is none; so `R + k` is strictly greater than the row of
every node and of every predecessor edge. -/
theorem C18_null_rows (h : Heap) (pointers : List (Ptr × String)) (hac : h.Acyclic) :
    ∃ l, layout h pointers = some l ∧
      (∃ pre nulls, drawCalls h l = pre ++ nulls ∧ (∀ c ∈ pre, c.nullLabel = none) ∧
        nulls.length = (pointers.filter fun pp => pp.1 = 0).length ∧
        ∀ (k : Nat) (pp : Ptr × String),
          (pointers.filter fun pp => pp.1 = 0)[k]? = some pp →
          nulls[k]? = some (Draw.nullArrow 0 70 (10 + 60 * (l.nr + k) + 20) pp.2)) ∧
      (∀ q ∈ l.tree_nodes.keys, 0 ≤ (l.tree_nodes.entry q).j ∧
        ∀ e ∈ (l.tree_nodes.entry q).predecessors, 0 ≤ e.j) ∧
      (∀ (k : Nat), ∀ q ∈ l.tree_nodes.keys, (l.tree_nodes.entry q).j < l.nr + k ∧
        ∀ e ∈ (l.tree_nodes.entry q).predecessors, e.j < l.nr + k) ∧
      (l.tree_nodes.keys = [] → l.nr = 0) ∧
      (l.tree_nodes.keys ≠ [] →
        ∃ q ∈ l.tree_nodes.keys, ∃ e ∈ (l.tree_nodes.entry q).predecessors, e.j = l.nr - 1) := by
  obtain ⟨d, l, iv, N, hd, hl, ok, rk⟩ := layout_rows h hac pointers
  refine ⟨l, hl, ⟨(l.tree_nodes.toList.map (drawEntry h (metrics h l))).flatten,
    drawNulls (metrics h l) l.null_pointers l.nr, rfl, ?_, ?_, ?_⟩, ?_, ?_, rk.empty,
    rk.last_row ok⟩
  · intro c hc
    obtain ⟨cs, hcs, hc'⟩ := List.mem_flatten.mp hc
    obtain ⟨pp, -, rfl⟩ := List.mem_map.mp hcs
    exact nullLabel_drawEntry h _ pp c hc'
  · rw [drawNulls_length, ok.nullp, ok.dinv.nulls]
  · intro k pp hk
    rw [← ok.dinv.nulls, ← ok.nullp] at hk
    rw [drawNulls_get (metrics h l) l.null_pointers l.nr k pp hk]
    have h40 : Int.tdiv 40 2 = 20 := by decide
    simp only [metrics, h40]
    norm_num
  · intro q hq
    simp only [TreeMap.entry]
    have hb := rk.bounds hq
    exact ⟨hb.1, fun e he => by have := rk.edge_bounds ok hq he; omega⟩
  · intro k q hq
    simp only [TreeMap.entry]
    have hb := rk.bounds hq
    have hlen := ok.graph.len_pos hq
    exact ⟨by omega, fun e he => by have := rk.edge_bounds ok hq he; omega⟩

set_option maxRecDepth 100000 in
/-- Claim C18 on the list of the demonstration drawn with the pointers
`x = nullptr`, `glowa`, `y = nullptr`: the three nodes are on row 0, `R = 1`,
and the null arrows of `x` and `y` are drawn last, on the rows 1 and 2
(`y = 90` and `y = 150`). -/
theorem C18_null_rows_witness :
    demoHeap.Acyclic ∧
    (∃ l, layout demoHeap demoNullPointers = some l ∧
      (∃ pre nulls, drawCalls demoHeap l = pre ++ nulls ∧ (∀ c ∈ pre, c.nullLabel = none) ∧
        nulls.length = (demoNullPointers.filter fun pp => pp.1 = 0).length ∧
        ∀ (k : Nat) (pp : Ptr × String),
          (demoNullPointers.filter fun pp => pp.1 = 0)[k]? = some pp →
          nulls[k]? = some (Draw.nullArrow 0 70 (10 + 60 * (l.nr + k) + 20) pp.2)) ∧
      (∀ q ∈ l.tree_nodes.keys, 0 ≤ (l.tree_nodes.entry q).j ∧
        ∀ e ∈ (l.tree_nodes.entry q).predecessors, 0 ≤ e.j) ∧
      (∀ (k : Nat), ∀ q ∈ l.tree_nodes.keys, (l.tree_nodes.entry q).j < l.nr + k ∧
        ∀ e ∈ (l.tree_nodes.entry q).predecessors, e.j < l.nr + k) ∧
      (l.tree_nodes.keys = [] → l.nr = 0) ∧
      (l.tree_nodes.keys ≠ [] →
        ∃ q ∈ l.tree_nodes.keys, ∃ e ∈ (l.tree_nodes.entry q).predecessors,
          e.j = l.nr - 1)) ∧
    (layout demoHeap demoNullPointers).map (fun l =>
      (l.nr, l.tree_nodes.keys.map fun q => (l.tree_nodes.entry q).j,
        (drawCalls demoHeap l).drop 7))
      = some (1, [0, 0, 0], [Draw.nullArrow 0 70 90 "x", Draw.nullArrow 0 70 150 "y"]) :=
  ⟨acyclic_of_cells demoHeap id (by decide),
    C18_null_rows demoHeap demoNullPointers (acyclic_of_cells demoHeap id (by decide)),
    by decide⟩

/-! ## Counting the statements of the sweeps -/

theorem count_flatMap_zero {α β : Type} [DecidableEq β] (f : α → List β) (x : β) :
    ∀ (l : List α), (∀ p ∈ l, (f p).count x = 0) → (l.flatMap f).count x = 0
  | [], _ => rfl
  | p :: l, hz => by
    rw [List.flatMap_cons, List.count_append, hz p (List.mem_cons_self _ _),
      count_flatMap_zero f x l (fun q hq => hz q (List.mem_cons_of_mem _ hq))]

theorem count_flatMap_nodup {α β : Type} [DecidableEq β] (f : α → List β) (x : β) (a : α) :
    ∀ (l : List α), l.Nodup → a ∈ l → (∀ p ∈ l, p ≠ a → (f p).count x = 0) →
      (l.flatMap f).count x = (f a).count x
  | [], _, ha, _ => by cases ha
  | p :: l, hnd, ha, hz => by
    rw [List.nodup_cons] at hnd
    rw [List.flatMap_cons, List.count_append]
    by_cases hpa : p = a
    · subst hpa
      rw [count_flatMap_zero f x l (fun q hq => hz q (List.mem_cons_of_mem _ hq)
        (fun hqp => hnd.1 (hqp ▸ hq)))]
      rfl
    · have hal : a ∈ l := by
        rcases List.mem_cons.mp ha with rfl | ha
        · exact absurd rfl hpa
        · exact ha
      rw [hz p (List.mem_cons_self _ _) hpa,
        count_flatMap_nodup f x a l hnd.2 hal (fun q hq => hz q (List.mem_cons_of_mem _ hq))]
      simp

theorem push_injective : Function.Injective Event.push := fun a b hab => by
  cases hab; rfl

theorem count_pop_popEvents (h : Heap) (m : TreeMap) (p k : Ptr) :
    (popEvents h m p).count (Event.pop k) = if p = k then 1 else 0 := by
  have h1 : (pushEvents (m.entry p).predecessors).count (Event.pop k) = 0 := by
    rw [pushEvents_eq]
    refine List.count_eq_zero_of_not_mem ?_
    simp
  simp only [popEvents, List.count_append, h1]
  rcases eq_or_ne p k with rfl | hpk <;> by_cases hn : h.nast p = 0 <;>
    simp [hn, List.count_cons, *]

theorem count_row_popEvents (h : Heap) (m : TreeMap) (p k : Ptr) :
    (popEvents h m p).count (Event.row k) = if p = k then 1 else 0 := by
  have h1 : (pushEvents (m.entry p).predecessors).count (Event.row k) = 0 := by
    rw [pushEvents_eq]
    refine List.count_eq_zero_of_not_mem ?_
    simp
  simp only [popEvents, List.count_append, h1]
  rcases eq_or_ne p k with rfl | hpk <;> by_cases hn : h.nast p = 0 <;>
    simp [hn, List.count_cons, *]

theorem count_col_popEvents (h : Heap) (m : TreeMap) (p k : Ptr) :
    (popEvents h m p).count (Event.col k) = if p = k ∧ h.nast p ≠ 0 then 1 else 0 := by
  have h1 : (pushEvents (m.entry p).predecessors).count (Event.col k) = 0 := by
    rw [pushEvents_eq]
    refine List.count_eq_zero_of_not_mem ?_
    simp
  simp only [popEvents, List.count_append, h1]
  rcases eq_or_ne p k with rfl | hpk <;> by_cases hn : h.nast p = 0 <;>
    simp [hn, List.count_cons, *]

theorem count_push_popEvents (h : Heap) (m : TreeMap) (p k : Ptr) :
    (popEvents h m p).count (Event.push k) = ((m.srcs p).filter (· ≠ 0)).count k := by
  have h1 : (pushEvents (m.entry p).predecessors).count (Event.push k)
      = ((m.srcs p).filter (· ≠ 0)).count k := by
    rw [pushEvents_eq, List.count_map_of_injective _ _ push_injective]
    rfl
  simp only [popEvents, List.count_append, h1]
  by_cases hn : h.nast p = 0 <;> simp [hn, List.count_cons]

theorem count_push_key {h : Heap} {m : TreeMap} (g : Graph h m) {k : Ptr} (hk : k ∈ m.keys) :
    (m.keys.flatMap (popEvents h m)).count (Event.push k) = if h.nast k ≠ 0 then 1 else 0 := by
  have hk0 := g.key_ne k hk
  by_cases hn : h.nast k = 0
  · simp only [hn, ne_eq, not_true_eq_false, if_false]
    refine count_flatMap_zero _ _ _ ?_
    intro p hp
    rw [count_push_popEvents]
    refine List.count_eq_zero_of_not_mem ?_
    intro hmem
    have := (g.src_ok p k (List.mem_filter.mp hmem).1 hk0).1
    rw [hn] at this
    exact g.key_ne p hp this.symm
  · simp only [ne_eq, hn, not_false_eq_true, if_true]
    obtain ⟨hnk, hsrc⟩ := g.closed k hk hn
    rw [count_flatMap_nodup _ _ (h.nast k) _ g.keys_nodup hnk, count_push_popEvents]
    · exact List.count_eq_one_of_mem (g.src_nodup _)
        (List.mem_filter.mpr ⟨hsrc, by simpa using hk0⟩)
    · intro p _ hpn
      rw [count_push_popEvents]
      refine List.count_eq_zero_of_not_mem ?_
      intro hmem
      exact hpn (g.src_ok p k (List.mem_filter.mp hmem).1 hk0).1.symm

theorem count_key_flatMap {h : Heap} {m : TreeMap} (g : Graph h m) {k : Ptr} (hk : k ∈ m.keys) :
    (m.keys.flatMap (popEvents h m)).count (Event.pop k) = 1 ∧
    (m.keys.flatMap (popEvents h m)).count (Event.row k) = 1 ∧
    (m.keys.flatMap (popEvents h m)).count (Event.col k) = if h.nast k ≠ 0 then 1 else 0 := by
  refine ⟨?_, ?_, ?_⟩
  · rw [count_flatMap_nodup _ _ k _ g.keys_nodup hk, count_pop_popEvents, if_pos rfl]
    intro p _ hpk
    rw [count_pop_popEvents, if_neg hpk]
  · rw [count_flatMap_nodup _ _ k _ g.keys_nodup hk, count_row_popEvents, if_pos rfl]
    intro p _ hpk
    rw [count_row_popEvents, if_neg hpk]
  · rw [count_flatMap_nodup _ _ k _ g.keys_nodup hk, count_col_popEvents]
    · simp
    · intro p _ hpk
      rw [count_col_popEvents, if_neg (fun hc => hpk hc.1)]

/-! ## Claim C19 -/

set_option maxRecDepth 100000 in
/-- Claim C19 fails on `DRAW_LIST_DEMO`: the tail `n3` is popped once and gets
its row, but its column is not corrected, the correction being made under the
guard `if(p->nast)`. -/
theorem C19_counterexample :
    ¬ ∀ l, layout demoHeap demoPointers = some l → ∀ k ∈ l.tree_nodes.keys,
      (layoutEvents demoHeap demoPointers).count (Event.pop k) = 1 ∧
      (layoutEvents demoHeap demoPointers).count (Event.row k) = 1 ∧
      (layoutEvents demoHeap demoPointers).count (Event.col k) = 1 := by
  intro hall
  have h1 : (layout demoHeap demoPointers).map (fun l => decide (0x1000 ∈ l.tree_nodes.keys))
      = some true := by decide
  have h2 : (layoutEvents demoHeap demoPointers).count (Event.col 0x1000) = 0 := by decide
  cases hl : layout demoHeap demoPointers with
  | none => rw [hl] at h1; cases h1
  | some l =>
    rw [hl] at h1
    simp only [Option.map_some', Option.some.injEq, decide_eq_true_eq] at h1
    have := (hall l hl 0x1000 h1).2.2
    rw [h2] at this
    exact absurd this (by decide)

/-- Claim C19, amended: for every finite acyclic input the discovery and the
row resolution return, and the statements the sweeps execute are, up to their
order, one push for each tail (the seed of its sweep) and, for each node of
the grid, one pop, one row assignment, one column correction if the node has
a successor and none if it is a tail, and one push for each source node of its
predecessor edges.  So every node of the grid is pushed once (by its
successor, or as the seed of its own sweep when it is a tail), popped once and
gets one row assignment; every node with a successor gets one column
correction and a tail gets none; and no statement is executed for anything
but a node of the grid. -/
theorem C19_popped_once (h : Heap) (pointers : List (Ptr × String)) (hac : h.Acyclic) :
    ∃ d l, discover h (h.cells.length + 2) pointers {} = some d ∧ layout h pointers = some l ∧
      List.Perm (layoutEvents h pointers)
        (l.last_elements.map Event.push
          ++ l.tree_nodes.keys.flatMap (popEvents h l.tree_nodes)) ∧
      (∀ k ∈ l.tree_nodes.keys,
        (layoutEvents h pointers).count (Event.push k) = 1 ∧
        (layoutEvents h pointers).count (Event.pop k) = 1 ∧
        (layoutEvents h pointers).count (Event.row k) = 1 ∧
        (layoutEvents h pointers).count (Event.col k) = if h.nast k ≠ 0 then 1 else 0) ∧
      (∀ k ∈ l.tree_nodes.keys, h.nast k ≠ 0 → h.nast k ∈ l.tree_nodes.keys ∧
        (popEvents h l.tree_nodes (h.nast k)).count (Event.push k) = 1) ∧
      (∀ k ∈ l.tree_nodes.keys, h.nast k = 0 →
        (l.last_elements.map Event.push).count (Event.push k) = 1) ∧
      (∀ e ∈ layoutEvents h pointers, ∃ k ∈ l.tree_nodes.keys,
        e = Event.push k ∨ e = Event.pop k ∨ e = Event.row k ∨ e = Event.col k) := by
  obtain ⟨d, l, iv, N, hd, hl, ok, rk⟩ := layout_rows h hac pointers
  have g := ok.graph
  have hev : List.Perm (layoutEvents h pointers)
      (l.last_elements.map Event.push
        ++ l.tree_nodes.keys.flatMap (popEvents h l.tree_nodes)) := by
    rw [ok.last]; exact rk.events
  have htail : ∀ k ∈ l.tree_nodes.keys,
      (l.last_elements.map Event.push).count (Event.push k) = if h.nast k ≠ 0 then 0 else 1 := by
    intro k hk
    rw [List.count_map_of_injective _ _ push_injective]
    by_cases hn : h.nast k = 0
    · simp only [hn, ne_eq, not_true_eq_false, if_false]
      refine List.count_eq_one_of_mem ?_ ((ok.tails_iff k).mpr ⟨hk, hn⟩)
      rw [ok.last]
      exact ok.dinv.tails_nodup
    · simp only [ne_eq, hn, not_false_eq_true, if_true]
      exact List.count_eq_zero_of_not_mem (fun hmem => hn ((ok.tails_iff k).mp hmem).2)
  have hno : ∀ (e : Event), (∀ t, e ≠ Event.push t) →
      (l.last_elements.map Event.push).count e = 0 := by
    intro e he
    refine List.count_eq_zero_of_not_mem ?_
    intro hmem
    obtain ⟨t, -, ht⟩ := List.mem_map.mp hmem
    exact he t ht.symm
  refine ⟨d, l, hd, hl, hev, ?_, ?_, ?_, ?_⟩
  · intro k hk
    obtain ⟨c1, c2, c3⟩ := count_key_flatMap g hk
    refine ⟨?_, ?_, ?_, ?_⟩
    · rw [hev.count_eq, List.count_append, htail k hk, count_push_key g hk]
      by_cases hn : h.nast k = 0 <;> simp [hn]
    · rw [hev.count_eq, List.count_append, hno _ (fun t ht => by cases ht), c1]
    · rw [hev.count_eq, List.count_append, hno _ (fun t ht => by cases ht), c2]
    · rw [hev.count_eq, List.count_append, hno _ (fun t ht => by cases ht), c3, zero_add]
  · intro k hk hn
    obtain ⟨hnk, hsrc⟩ := g.closed k hk hn
    refine ⟨hnk, ?_⟩
    rw [count_push_popEvents]
    exact List.count_eq_one_of_mem (g.src_nodup _)
      (List.mem_filter.mpr ⟨hsrc, by simpa using g.key_ne k hk⟩)
  · intro k hk hn
    rw [htail k hk]
    simp [hn]
  · intro e he
    rcases List.mem_append.mp (hev.mem_iff.mp he) with he | he
    · obtain ⟨t, ht, rfl⟩ := List.mem_map.mp he
      exact ⟨t, ((ok.tails_iff t).mp ht).1, Or.inl rfl⟩
    · obtain ⟨p, hp, hep⟩ := List.mem_flatMap.mp he
      simp only [popEvents, List.mem_append, List.mem_cons, List.mem_singleton,
        List.not_mem_nil, or_false] at hep
      rcases hep with ((rfl | rfl) | hep) | hep
      · exact ⟨p, hp, Or.inr (Or.inl rfl)⟩
      · exact ⟨p, hp, Or.inr (Or.inr (Or.inl rfl))⟩
      · split_ifs at hep
        · rw [List.mem_singleton] at hep
          exact ⟨p, hp, Or.inr (Or.inr (Or.inr hep))⟩
        · cases hep
      · rw [pushEvents_eq] at hep
        obtain ⟨f, hf, rfl⟩ := List.mem_map.mp hep
        have hf' := List.mem_filter.mp hf
        have hf0 : f ≠ 0 := by simpa using hf'.2
        exact ⟨f, (g.src_ok p f hf'.1 hf0).2, Or.inl rfl⟩

set_option maxRecDepth 100000 in
/-- Claim C19, amended, on the two chains of `stackHeap`: the sweep of the
tail `C` pops `C`, `D`, `E`, the sweep of the tail `A` pops `A`, `B`; the
tails `C` and `A` get no column correction. -/
theorem C19_popped_once_witness :
    stackHeap.Acyclic ∧
    (∃ d l, discover stackHeap (stackHeap.cells.length + 2) stackPointers {} = some d ∧
      layout stackHeap stackPointers = some l ∧
      List.Perm (layoutEvents stackHeap stackPointers)
        (l.last_elements.map Event.push
          ++ l.tree_nodes.keys.flatMap (popEvents stackHeap l.tree_nodes)) ∧
      (∀ k ∈ l.tree_nodes.keys,
        (layoutEvents stackHeap stackPointers).count (Event.push k) = 1 ∧
        (layoutEvents stackHeap stackPointers).count (Event.pop k) = 1 ∧
        (layoutEvents stackHeap stackPointers).count (Event.row k) = 1 ∧
        (layoutEvents stackHeap stackPointers).count (Event.col k)
          = if stackHeap.nast k ≠ 0 then 1 else 0) ∧
      (∀ k ∈ l.tree_nodes.keys, stackHeap.nast k ≠ 0 → stackHeap.nast k ∈ l.tree_nodes.keys ∧
        (popEvents stackHeap l.tree_nodes (stackHeap.nast k)).count (Event.push k) = 1) ∧
      (∀ k ∈ l.tree_nodes.keys, stackHeap.nast k = 0 →
        (l.last_elements.map Event.push).count (Event.push k) = 1) ∧
      (∀ e ∈ layoutEvents stackHeap stackPointers, ∃ k ∈ l.tree_nodes.keys,
        e = Event.push k ∨ e = Event.pop k ∨ e = Event.row k ∨ e = Event.col k)) ∧
    layoutEvents stackHeap stackPointers
      = [Event.push 0x1020, Event.pop 0x1020, Event.row 0x1020, Event.push 0x1030,
          Event.pop 0x1030, Event.row 0x1030, Event.col 0x1030, Event.push 0x1040,
          Event.pop 0x1040, Event.row 0x1040, Event.col 0x1040,
          Event.push 0x1000, Event.pop 0x1000, Event.row 0x1000, Event.push 0x1010,
          Event.pop 0x1010, Event.row 0x1010, Event.col 0x1010] :=
  ⟨acyclic_of_cells stackHeap id (by decide),
    C19_popped_once stackHeap stackPointers (acyclic_of_cells stackHeap id (by decide)),
    by decide⟩

/-! ## The final columns -/

theorem hops_trans (h : Heap) : ∀ (a : Nat) (r k t : Ptr) (b : Nat),
    h.Hops r k a → h.Hops k t b → h.Hops r t (a + b)
  | 0, r, k, t, b, h1, h2 => by
    obtain ⟨rfl, -⟩ := (hops_zero h r k).mp h1
    simpa using h2
  | a + 1, r, k, t, b, h1, h2 => by
    obtain ⟨hr0, h1'⟩ := (hops_succ h r k a).mp h1
    have := hops_trans h a _ k t b h1' h2
    have heq : a + 1 + b = (a + b) + 1 := by omega
    rw [heq]
    exact (hops_succ h r t (a + b)).mpr ⟨hr0, this⟩

theorem col_hops {h : Heap} {pointers : List (Ptr × String)} {d : Discovery} {l : Layout}
    (ok : LayoutOK h pointers d l) : ∀ (n : Nat) (k q : Ptr), k ∈ l.tree_nodes.keys →
    h.Hops k q n → (l.tree_nodes.val k).i = (l.tree_nodes.val q).i - n
  | 0, k, q, _, hq => by
    obtain ⟨rfl, -⟩ := (hops_zero h k q).mp hq
    simp
  | n + 1, k, q, hk, hq => by
    obtain ⟨-, hq'⟩ := (hops_succ h k q n).mp hq
    have hn0 : h.nast k ≠ 0 := fun h0 => hops_null h q n (h0 ▸ hq')
    have h1 := ok.col k hk hn0
    have h2 := col_hops ok n _ q (ok.graph.closed k hk hn0).1 hq'
    rw [h1, h2]
    push_cast
    ring

theorem col_bounds (h : Heap) (hac : h.Acyclic) (pointers : List (Ptr × String))
    (d : Discovery) (l : Layout) (iv : List (Ptr × Int × Int)) (N : List Ptr)
    (hd : discover h (h.cells.length + 2) pointers {} = some d) (ok : LayoutOK h pointers d l)
    (rk : RowsOK h pointers d l iv N) {k : Ptr} (hk : k ∈ l.tree_nodes.keys) :
    0 ≤ (l.tree_nodes.val k).i ∧ (l.tree_nodes.val k).i ≤ l.deepest_i ∧ 0 ≤ l.deepest_i := by
  obtain ⟨-, hle, -, -, -⟩ := deepest_spec h hac pointers d hd ok.dinv
  obtain ⟨-, col, -⟩ := discover_depths h hac pointers d hd
  have hkd : k ∈ d.tree_nodes.keys := by rw [← ok.same.keys]; exact hk
  obtain ⟨hD0, hDle⟩ := hle (List.ne_nil_of_mem hkd)
  obtain ⟨x, hx, hkx, -⟩ := rk.own k hk
  obtain ⟨-, ht0⟩ := rk.tail_ok ok hx
  obtain ⟨b, hb⟩ := reach_hops h hkx
  obtain ⟨pp, hpp, hpp0, hreach⟩ := ok.dinv.reach k hkd
  obtain ⟨a, ha⟩ := reach_hops h hreach
  have hab := col.upper pp hpp hpp0 x.1 (a + b) (hops_trans h a pp.1 k x.1 b ha hb)
  have hcol := col_hops ok b k x.1 hk hb
  have htail := ok.same.tail_i x.1 ht0
  have hup := hDle x.1
  rw [ok.deepest]
  push_cast at hab
  refine ⟨by omega, by omega, hD0⟩

/-! ## The points drawn are on the canvas -/

theorem arrowPoints_bounds (x_start x_end y W H : Int) (h1 : 0 ≤ x_start)
    (h2 : x_start ≤ x_end) (h3 : x_end ≤ W) (h4 : 10 ≤ y) (h5 : y + 15 ≤ H) :
    ∀ pt ∈ arrowPoints x_start x_end y, 0 ≤ pt.1 ∧ pt.1 ≤ W ∧ 0 ≤ pt.2 ∧ pt.2 ≤ H := by
  intro pt hpt
  have hdiv : (x_end - x_start).tdiv 2 = (x_end - x_start) / 2 :=
    Int.tdiv_eq_ediv (by omega) (by decide)
  simp only [arrowPoints, hdiv, List.mem_cons, List.mem_singleton, List.not_mem_nil,
    or_false] at hpt
  rcases hpt with rfl | rfl | rfl | rfl <;> refine ⟨?_, ?_, ?_, ?_⟩ <;> simp only <;> omega

theorem pathPoints_bounds (a b y1 y2 W H : Int) (h1 : 0 ≤ a) (h2 : a ≤ b) (h3 : b ≤ W)
    (h4 : 10 ≤ y1) (h5 : y1 + 15 ≤ H) (h6 : 0 ≤ y2) (h7 : y2 ≤ H) :
    ∀ pt ∈ pathPoints [(a, y1), (b, y1), (b, y2)],
      0 ≤ pt.1 ∧ pt.1 ≤ W ∧ 0 ≤ pt.2 ∧ pt.2 ≤ H := by
  intro pt hpt
  have hdiv : (b - a).tdiv 2 = (b - a) / 2 := Int.tdiv_eq_ediv (by omega) (by decide)
  simp only [pathPoints, List.head?_cons, List.getLast?_cons_cons, List.getLast?_singleton,
    hdiv, List.cons_append, List.nil_append, List.mem_cons, List.mem_singleton,
    List.not_mem_nil, or_false] at hpt
  rcases hpt with rfl | rfl | rfl | rfl | rfl <;> refine ⟨?_, ?_, ?_, ?_⟩ <;> simp only <;>
    omega

theorem drawEntry_bounds (h : Heap) (g : Metrics) (p : Ptr) (t : TreeNode) (P : Int)
    (hnh : g.nodeHeight = 40) (hsp : g.spacing = 70) (hsx : g.startX = 0) (hsy : g.startY = 10)
    (hw : 30 ≤ g.dataWidth) (hP : (g.dataWidth + 70) * t.i = P) (hP0 : 0 ≤ P)
    (hPW : P + 2 * g.dataWidth + 140 ≤ g.width) (hr0 : 0 ≤ t.j) (hrH : 60 * t.j + 60 ≤ g.height)
    (he : ∀ e ∈ t.predecessors, t.j ≤ e.j ∧ 60 * e.j + 60 ≤ g.height) :
    ∀ c ∈ drawEntry h g (p, t), ∀ pt ∈ c.points,
      0 ≤ pt.1 ∧ pt.1 ≤ g.width ∧ 0 ≤ pt.2 ∧ pt.2 ≤ g.height := by
  intro c hc
  have h40 : Int.tdiv 40 2 = 20 := by decide
  have hwd : g.dataWidth.tdiv 2 = g.dataWidth / 2 := Int.tdiv_eq_ediv (by omega) (by decide)
  simp only [drawEntry, hnh, hsp, hsx, hsy, hP, h40, List.mem_append, List.mem_singleton,
    List.mem_map] at hc
  rcases hc with (hc | hc) | ⟨e, hemem, hc⟩
  · subst hc
    intro pt hpt
    simp only [Draw.points, hwd, h40] at hpt
    split_ifs at hpt
    · cases hpt
    · simp only [List.mem_cons, List.mem_singleton, List.not_mem_nil, or_false] at hpt
      rcases hpt with rfl | rfl | rfl <;> refine ⟨?_, ?_, ?_, ?_⟩ <;> simp only <;> omega
  · split_ifs at hc
    · rw [List.mem_singleton] at hc
      subst hc
      exact arrowPoints_bounds _ _ _ _ _ (by omega) (by omega) (by omega) (by omega) (by omega)
    · cases hc
  · obtain ⟨he1, he2⟩ := he e hemem
    subst hc
    simp only [drawPred, hnh, hsp, hsx, hsy, hP, h40, hwd]
    split_ifs
    · exact arrowPoints_bounds _ _ _ _ _ (by omega) (by omega) (by omega) (by omega) (by omega)
    · exact pathPoints_bounds _ _ _ _ _ _ (by omega) (by omega) (by omega) (by omega)
        (by omega) (by omega) (by omega)

theorem mem_drawNulls (g : Metrics) (ps : List (Ptr × String)) (pj : Int) (c : Draw)
    (hc : c ∈ drawNulls g ps pj) : ∃ (k : Nat) (pp : Ptr × String), k < ps.length ∧
      c = Draw.nullArrow g.startX (g.startX + g.spacing)
        (g.startY + (g.nodeHeight + 20) * (pj + k) + g.nodeHeight.tdiv 2) pp.2 := by
  obtain ⟨k, hk⟩ := List.getElem?_of_mem hc
  have hlt : k < ps.length := by
    rw [← drawNulls_length g ps pj]
    by_contra hge
    rw [List.getElem?_eq_none (by omega)] at hk
    cases hk
  have := drawNulls_get g ps pj k _ (List.getElem?_eq_getElem hlt)
  rw [hk] at this
  exact ⟨k, _, hlt, Option.some.inj this⟩

/-! ## Claim C20 -/

/-- Claim C20: on every finite acyclic input every node has a final column `c`
with `0 ≤ c ≤ max(D, 1)` and a row `r` with `0 ≤ r < R`, where `D` is
`deepest_i` and `R` is `nr`; and every point a call of `drawNode`,
`drawArrow` or `drawPath` writes (the corners of a rectangle, the ends of an
arrow, the points of a path, the anchors of the texts) has `x` in
`[0, width]` and `y` in `[0, height]`. -/
theorem C20_inside_canvas (h : Heap) (pointers : List (Ptr × String)) (hac : h.Acyclic) :
    ∃ l, layout h pointers = some l ∧
      (∀ k ∈ l.tree_nodes.keys,
        0 ≤ (l.tree_nodes.entry k).i ∧ (l.tree_nodes.entry k).i ≤ max l.deepest_i 1 ∧
        0 ≤ (l.tree_nodes.entry k).j ∧ (l.tree_nodes.entry k).j < l.nr) ∧
      (∀ c ∈ drawCalls h l, ∀ pt ∈ c.points,
        0 ≤ pt.1 ∧ pt.1 ≤ (metrics h l).width ∧ 0 ≤ pt.2 ∧ pt.2 ≤ (metrics h l).height) := by
  obtain ⟨d, l, iv, N, hd, hl, ok, rk⟩ := layout_rows h hac pointers
  have hcol : ∀ k ∈ l.tree_nodes.keys,
      0 ≤ (l.tree_nodes.val k).i ∧ (l.tree_nodes.val k).i ≤ max l.deepest_i 1 := by
    intro k hk
    obtain ⟨h1, h2, -⟩ := col_bounds h hac pointers d l iv N hd ok rk hk
    exact ⟨h1, le_trans h2 (le_max_left _ _)⟩
  have hrow : ∀ k ∈ l.tree_nodes.keys,
      0 ≤ (l.tree_nodes.val k).j ∧ (l.tree_nodes.val k).j < l.nr := by
    intro k hk
    obtain ⟨h1, h2⟩ := rk.bounds hk
    have := ok.graph.len_pos hk
    exact ⟨h1, by omega⟩
  refine ⟨l, hl, fun k hk => ⟨(hcol k hk).1, (hcol k hk).2, (hrow k hk).1, (hrow k hk).2⟩, ?_⟩
  have hL := (dataLength_zero h l.tree_nodes.keys).1
  have hnc : l.nc = max l.deepest_i 1 := by
    rw [ok.nc, ok.deepest]
    split_ifs with hgt
    · exact (max_eq_left (le_of_lt hgt)).symm
    · exact (max_eq_right (by omega)).symm
  have hnc1 : 1 ≤ l.nc := by rw [hnc]; exact le_max_right _ _
  have hN : (0 : Int) ≤ (l.null_pointers.length : Int) := Int.natCast_nonneg _
  have hnr : 0 ≤ l.nr := (stacked_mem iv 0 l.nr rk.stacked).1
  have hwidth : (metrics h l).width
      = ((metrics h l).dataWidth + 70) * l.nc + 2 * (metrics h l).dataWidth + 140 := by
    simp only [metrics]
    ring
  have hheight : (metrics h l).height = 60 * l.nr + 60 * (l.null_pointers.length : Int) := by
    simp only [metrics]
    ring
  have hdw : 30 ≤ (metrics h l).dataWidth := by
    simp only [metrics]
    omega
  intro c hc
  simp only [drawCalls] at hc
  rcases List.mem_append.mp hc with hc | hc
  · obtain ⟨cs, hcs, hc'⟩ := List.mem_flatten.mp hc
    obtain ⟨pp, hpp, rfl⟩ := List.mem_map.mp hcs
    simp only [TreeMap.toList, List.mem_map] at hpp
    obtain ⟨k, hk, rfl⟩ := hpp
    obtain ⟨hc0, hc1⟩ := hcol k hk
    obtain ⟨hr0, hr1⟩ := hrow k hk
    have hP0 : 0 ≤ ((metrics h l).dataWidth + 70) * (l.tree_nodes.val k).i :=
      mul_nonneg (by omega) hc0
    have hP1 : ((metrics h l).dataWidth + 70) * (l.tree_nodes.val k).i
        ≤ ((metrics h l).dataWidth + 70) * l.nc :=
      mul_le_mul_of_nonneg_left (by rw [hnc]; exact hc1) (by omega)
    refine drawEntry_bounds h (metrics h l) k (l.tree_nodes.val k) _ rfl rfl rfl rfl hdw rfl
      hP0 (by rw [hwidth]; omega) hr0 (by rw [hheight]; omega) ?_ c hc'
    intro e he
    have := rk.edge_bounds ok hk he
    exact ⟨this.1, by rw [hheight]; omega⟩
  · obtain ⟨k, pp, hk, rfl⟩ := mem_drawNulls _ _ _ c hc
    have h40 : Int.tdiv 40 2 = 20 := by decide
    have hk' : ((k : Int)) + 1 ≤ (l.null_pointers.length : Int) := by omega
    have hQ : 0 ≤ ((metrics h l).dataWidth + 70) * l.nc := mul_nonneg (by omega) (by omega)
    have e1 : (metrics h l).startX = 0 := rfl
    have e2 : (metrics h l).spacing = 70 := rfl
    have e3 : (metrics h l).startY = 10 := rfl
    have e4 : (metrics h l).nodeHeight = 40 := rfl
    simp only [Draw.points, e1, e2, e3, e4, h40]
    exact arrowPoints_bounds _ _ _ _ _ (by omega) (by omega) (by rw [hwidth]; omega) (by omega)
      (by rw [hheight]; omega)

set_option maxRecDepth 100000 in
/-- Claim C20 on the two chains of `stackHeap`, whose canvas is 428 wide and
240 high: the points of the path drawn for the pointer `d` and of the null
arrow of `z`. -/
theorem C20_inside_canvas_witness :
    stackHeap.Acyclic ∧
    (∃ l, layout stackHeap stackPointers = some l ∧
      (∀ k ∈ l.tree_nodes.keys,
        0 ≤ (l.tree_nodes.entry k).i ∧ (l.tree_nodes.entry k).i ≤ max l.deepest_i 1 ∧
        0 ≤ (l.tree_nodes.entry k).j ∧ (l.tree_nodes.entry k).j < l.nr) ∧
      (∀ c ∈ drawCalls stackHeap l, ∀ pt ∈ c.points,
        0 ≤ pt.1 ∧ pt.1 ≤ (metrics stackHeap l).width ∧
        0 ≤ pt.2 ∧ pt.2 ≤ (metrics stackHeap l).height)) ∧
    (layout stackHeap stackPointers).map (fun l =>
      ((metrics stackHeap l).width, (metrics stackHeap l).height,
        ((drawCalls stackHeap l).drop 10).map Draw.points))
      = some (428, 240,
          [[(151, 105), (107, 90), (195, 90), (195, 50), (151, 80)],
           [(70, 10), (107, 50), (88, 35)],
           [(35, 45), (0, 30), (70, 30), (35, 20)],
           [(35, 225), (0, 210), (70, 210), (35, 200)]]) :=
  ⟨acyclic_of_cells stackHeap id (by decide),
    C20_inside_canvas stackHeap stackPointers (acyclic_of_cells stackHeap id (by decide)),
    by decide⟩

/-! ## The text depends on the reachable nodes only -/

theorem walkStep_congr (h1 h2 : Heap) (p : Ptr) (i : Int) (st : Discovery)
    (hn : h2.nast p = h1.nast p) : walkStep h2 p i st = walkStep h1 p i st := by
  unfold walkStep
  rw [hn]

theorem walk_congr (h1 h2 : Heap) : ∀ (f1 f2 : Nat) (p : Ptr) (i : Int) (st s1 s2 : Discovery),
    (∀ q, h1.Reach p q → h2.nast q = h1.nast q) →
    walk h1 f1 p i st = some s1 → walk h2 f2 p i st = some s2 → s2 = s1
  | 0, f2, p, i, st, s1, s2, _, e1, e2 => by
    by_cases hp : p = 0
    · subst hp
      rw [walk_null] at e1 e2
      cases e1; cases e2; rfl
    · simp [walk, hp] at e1
  | f1 + 1, 0, p, i, st, s1, s2, _, e1, e2 => by
    by_cases hp : p = 0
    · subst hp
      rw [walk_null] at e1 e2
      cases e1; cases e2; rfl
    · simp [walk, hp] at e2
  | f1 + 1, f2 + 1, p, i, st, s1, s2, hag, e1, e2 => by
    by_cases hp : p = 0
    · subst hp
      rw [walk_null] at e1 e2
      cases e1; cases e2; rfl
    · simp only [walk, hp, if_false] at e1 e2
      have hn : h2.nast p = h1.nast p := hag p (reach_refl h1 hp)
      rw [hn, walkStep_congr h1 h2 p i st hn] at e2
      exact walk_congr h1 h2 f1 f2 (h1.nast p) (i + 1) _ s1 s2
        (fun q hq => hag q (reach_pred h1 hp rfl hq)) e1 e2

theorem discover_congr (h1 h2 : Heap) (f1 f2 : Nat) :
    ∀ (pointers : List (Ptr × String)) (st d1 d2 : Discovery),
      (∀ pp ∈ pointers, pp.1 ≠ 0 → ∀ q, h1.Reach pp.1 q → h2.nast q = h1.nast q) →
      discover h1 f1 pointers st = some d1 → discover h2 f2 pointers st = some d2 → d2 = d1
  | [], st, d1, d2, _, e1, e2 => by
    simp only [discover, Option.some.injEq] at e1 e2
    rw [← e1, ← e2]
  | pp :: rest, st, d1, d2, hag, e1, e2 => by
    simp only [discover, Option.bind_eq_some] at e1 e2
    obtain ⟨a1, ha1, e1⟩ := e1
    obtain ⟨a2, ha2, e2⟩ := e2
    have ha : a2 = a1 := by
      by_cases hp : pp.1 = 0
      · rw [discoverRoot_null _ _ _ _ hp] at ha1 ha2
        cases ha1; cases ha2; rfl
      · rw [discoverRoot_node _ _ _ _ hp] at ha1 ha2
        exact walk_congr h1 h2 f1 f2 pp.1 0 _ a1 a2
          (hag pp (List.mem_cons_self _ _) hp) ha1 ha2
    subst ha
    exact discover_congr h1 h2 f1 f2 rest a2 d1 d2
      (fun x hx => hag x (List.mem_cons_of_mem _ hx)) e1 e2

theorem popStep_congr (h1 h2 : Heap) (pjp : Int) (p : Ptr) (q : Queue) (m : TreeMap)
    (pj_max : Int) (hn : h2.nast p = h1.nast p) :
    popStep h2 pjp p q m pj_max = popStep h1 pjp p q m pj_max := by
  unfold popStep
  rw [hn]

theorem popStep_queue_keys (h : Heap) (pjp : Int) (p : Ptr) (q : Queue) (m : TreeMap)
    (pj_max : Int) (g : Graph h m) (hq : ∀ x ∈ q, x.2 ∈ m.keys) :
    ∀ x ∈ (popStep h pjp p q m pj_max).1, x.2 ∈ m.keys := by
  intro x hx
  have hperm : List.Perm (popStep h pjp p q m pj_max).1
      (pushed (m.val p).predecessors pjp ++ q) := by
    rw [popStep_queue]; exact assignRows_queue _ _ _
  rcases List.mem_append.mp (hperm.mem_iff.mp hx) with hx | hx
  · have hmem : x.2 ∈ (pushed (m.val p).predecessors pjp).map Prod.snd :=
      List.mem_map_of_mem _ hx
    rw [pushed_snd] at hmem
    have h2 := List.mem_filter.mp hmem
    exact (g.src_ok p x.2 h2.1 (by simpa using h2.2)).2
  · exact hq x hx

theorem nast_ne_self (h : Heap) (rank : Ptr → Nat)
    (hr : ∀ p, p ≠ 0 → h.nast p ≠ 0 → rank (h.nast p) < rank p) {p : Ptr} (hp : p ≠ 0) :
    h.nast p ≠ p := by
  intro heq
  have hn0 : h.nast p ≠ 0 := by rw [heq]; exact hp
  have := hr p hp hn0
  rw [heq] at this
  exact lt_irrefl _ this

theorem sweep_same (h : Heap) (rank : Ptr → Nat)
    (hr : ∀ p, p ≠ 0 → h.nast p ≠ 0 → rank (h.nast p) < rank p) :
    ∀ (fuel : Nat) (q : Queue) (m : TreeMap) (pj_max : Int) (m' : TreeMap) (r : Int),
      Graph h m → (∀ x ∈ q, x.2 ∈ m.keys) → sweep h fuel q m pj_max = some (m', r) →
      Same h m m'
  | fuel, [], m, pj_max, m', r, _, _, e => by
    rw [sweep_nil] at e
    cases e
    exact Same.refl h m
  | 0, _ :: _, m, pj_max, m', r, _, _, e => by simp [sweep] at e
  | fuel + 1, (pjp, p) :: q, m, pj_max, m', r, g, hq, e => by
    have hpk : p ∈ m.keys := hq (pjp, p) (List.mem_cons_self _ _)
    have hs := popStep_same h pjp p q m pj_max g hpk (nast_ne_self h rank hr (g.key_ne p hpk))
    simp only [sweep] at e
    refine hs.trans (sweep_same h rank hr fuel _ _ _ m' r (g.same hs) ?_ e)
    intro x hx
    rw [hs.keys]
    exact popStep_queue_keys h pjp p q m pj_max g
      (fun y hy => hq y (List.mem_cons_of_mem _ hy)) x hx

theorem sweep_congr (h1 h2 : Heap) (rank : Ptr → Nat)
    (hr : ∀ p, p ≠ 0 → h1.nast p ≠ 0 → rank (h1.nast p) < rank p) :
    ∀ (fuel : Nat) (q : Queue) (m : TreeMap) (pj_max : Int),
      Graph h1 m → (∀ k ∈ m.keys, h2.nast k = h1.nast k) → (∀ x ∈ q, x.2 ∈ m.keys) →
      sweep h2 fuel q m pj_max = sweep h1 fuel q m pj_max
  | fuel, [], m, pj_max, _, _, _ => by rw [sweep_nil, sweep_nil]
  | 0, _ :: _, m, pj_max, _, _, _ => rfl
  | fuel + 1, (pjp, p) :: q, m, pj_max, g, hag, hq => by
    have hpk : p ∈ m.keys := hq (pjp, p) (List.mem_cons_self _ _)
    have hs := popStep_same h1 pjp p q m pj_max g hpk
      (nast_ne_self h1 rank hr (g.key_ne p hpk))
    simp only [sweep]
    rw [popStep_congr h1 h2 pjp p q m pj_max (hag p hpk)]
    refine sweep_congr h1 h2 rank hr fuel _ _ _ (g.same hs) ?_ ?_
    · rw [hs.keys]; exact hag
    · intro x hx
      rw [hs.keys]
      exact popStep_queue_keys h1 pjp p q m pj_max g
        (fun y hy => hq y (List.mem_cons_of_mem _ hy)) x hx

theorem resolveTails_congr (h1 h2 : Heap) (rank : Ptr → Nat)
    (hr : ∀ p, p ≠ 0 → h1.nast p ≠ 0 → rank (h1.nast p) < rank p) :
    ∀ (pairs : List (Int × Ptr)) (m : TreeMap) (pj nr : Int),
      Graph h1 m → (∀ k ∈ m.keys, h2.nast k = h1.nast k) →
      (∀ t ∈ pairs.map Prod.snd, t ∈ m.keys) →
      resolveTails h2 pairs m pj nr = resolveTails h1 pairs m pj nr
  | [], m, pj, nr, _, _, _ => rfl
  | pp :: rest, m, pj, nr, g, hag, ht => by
    have hpp : pp.2 ∈ m.keys := ht pp.2 (by simp)
    have hq : ∀ x ∈ [(pj, pp.2)], x.2 ∈ m.keys := by
      intro x hx
      rw [List.mem_singleton] at hx
      subst hx
      exact hpp
    simp only [resolveTails]
    rw [sweep_congr h1 h2 rank hr _ _ m 0 g hag hq]
    cases hsw : sweep h1 (m.keys.length + 1) [(pj, pp.2)] m 0 with
    | none => rfl
    | some res =>
      obtain ⟨m1, r⟩ := res
      have hs := sweep_same h1 rank hr _ _ m 0 m1 r g hq hsw
      simp only
      refine resolveTails_congr h1 h2 rank hr rest m1 _ _ (g.same hs) ?_ ?_
      · rw [hs.keys]; exact hag
      · intro t htr
        rw [hs.keys]
        exact ht t (by simp only [List.map_cons]; exact List.mem_cons_of_mem _ htr)

theorem resolveRows_congr (h1 h2 : Heap) (hac : h1.Acyclic) (pointers : List (Ptr × String))
    (d : Discovery) (dinv : DInv h1 pointers 0 d)
    (hag : ∀ k ∈ d.tree_nodes.keys, h2.nast k = h1.nast k) :
    resolveRows h2 d = resolveRows h1 d := by
  obtain ⟨rank, hr⟩ := hac
  have hdp := depthPairs_eq d.last_elements d.tree_nodes (fun p hp => (dinv.tails_ok p hp).1)
  unfold resolveRows
  by_cases hl0 : d.last_elements = []
  · simp [hl0]
  · simp only [ne_eq, hl0, not_false_eq_true, if_true, hdp]
    rw [resolveTails_congr h1 h2 rank hr _ d.tree_nodes 0 0 dinv.graph hag]
    intro t ht
    obtain ⟨x, hx, rfl⟩ := List.mem_map.mp ht
    have := (sortDesc_perm _).mem_iff.mp hx
    obtain ⟨t', ht', rfl⟩ := List.mem_map.mp this
    exact (dinv.tails_ok t' ht').1

theorem dataLength_congr (h1 h2 : Heap) : ∀ (ks : List Ptr) (a : Int),
    (∀ k ∈ ks, h2.dane k = h1.dane k) → dataLength h2 ks a = dataLength h1 ks a
  | [], _, _ => rfl
  | k :: ks, a, hag => by
    simp only [dataLength]
    rw [hag k (List.mem_cons_self _ _)]
    exact dataLength_congr h1 h2 ks _ (fun x hx => hag x (List.mem_cons_of_mem _ hx))

theorem emitAll_congr (h1 h2 : Heap) : ∀ (cs : List Draw),
    (∀ c ∈ cs, c.emit h2 = c.emit h1) → emitAll h2 cs = emitAll h1 cs
  | [], _ => rfl
  | c :: cs, hag => by
    simp only [emitAll]
    rw [hag c (List.mem_cons_self _ _),
      emitAll_congr h1 h2 cs (fun x hx => hag x (List.mem_cons_of_mem _ hx))]

theorem svgText_congr (h1 h2 : Heap) (l : Layout)
    (hn : ∀ k ∈ l.tree_nodes.keys, h2.nast k = h1.nast k)
    (hd : ∀ k ∈ l.tree_nodes.keys, h2.dane k = h1.dane k) :
    svgText h2 l = svgText h1 l := by
  have hm : metrics h2 l = metrics h1 l := by
    simp only [metrics]
    rw [dataLength_congr h1 h2 _ 0 hd]
  have hentry : ∀ pp ∈ l.tree_nodes.toList,
      drawEntry h2 (metrics h1 l) pp = drawEntry h1 (metrics h1 l) pp := by
    intro pp hpp
    simp only [TreeMap.toList, List.mem_map] at hpp
    obtain ⟨k, hk, rfl⟩ := hpp
    simp only [drawEntry]
    rw [hn k hk]
  have hc : drawCalls h2 l = drawCalls h1 l := by
    simp only [drawCalls, hm]
    rw [List.map_congr_left hentry]
  have hemit : ∀ c ∈ drawCalls h1 l, c.emit h2 = c.emit h1 := by
    intro c hc
    simp only [drawCalls] at hc
    rcases List.mem_append.mp hc with hc | hc
    · obtain ⟨cs, hcs, hc'⟩ := List.mem_flatten.mp hc
      obtain ⟨pp, hpp, rfl⟩ := List.mem_map.mp hcs
      simp only [TreeMap.toList, List.mem_map] at hpp
      obtain ⟨k, hk, rfl⟩ := hpp
      simp only [drawEntry, List.mem_append, List.mem_singleton, List.mem_map] at hc'
      rcases hc' with (hc' | hc') | ⟨e, -, hc'⟩
      · subst hc'
        simp only [Draw.emit, drawNode]
        rw [hd k hk]
      · split_ifs at hc'
        · rw [List.mem_singleton] at hc'
          subst hc'
          simp only [Draw.emit]
          rw [hn k hk]
        · cases hc'
      · subst hc'
        unfold drawPred
        split_ifs <;> rfl
    · obtain ⟨k, pp, -, rfl⟩ := mem_drawNulls _ _ _ c hc
      rfl
  simp only [svgText, hc, hm]
  rw [emitAll_congr h1 h2 _ hemit]

theorem generateLinkedListSVG_congr (h1 h2 : Heap) (pointers : List (Ptr × String))
    (hac1 : h1.Acyclic) (hac2 : h2.Acyclic)
    (hsame : ∀ pp ∈ pointers, pp.1 ≠ 0 → ∀ q, h1.Reach pp.1 q → h2.deref q = h1.deref q) :
    layout h2 pointers = layout h1 pointers ∧
      generateLinkedListSVG h2 pointers = generateLinkedListSVG h1 pointers := by
  obtain ⟨d, l, hd1, hl, ok⟩ := layout_ok h1 hac1 pointers
  obtain ⟨d2, hd2⟩ := discover_some h2 hac2 pointers {}
  have hnast : ∀ pp ∈ pointers, pp.1 ≠ 0 → ∀ q, h1.Reach pp.1 q → h2.nast q = h1.nast q :=
    fun pp hpp hpp0 q hq => by
      simp only [Heap.nast]
      rw [hsame pp hpp hpp0 q hq]
  have hdd : d2 = d := discover_congr h1 h2 _ _ pointers {} d d2 hnast hd1 hd2
  subst hdd
  have hkn : ∀ k ∈ d2.tree_nodes.keys, h2.nast k = h1.nast k := by
    intro k hk
    obtain ⟨pp, hpp, hpp0, hreach⟩ := ok.dinv.reach k hk
    exact hnast pp hpp hpp0 k hreach
  have hkd : ∀ k ∈ d2.tree_nodes.keys, h2.dane k = h1.dane k := by
    intro k hk
    obtain ⟨pp, hpp, hpp0, hreach⟩ := ok.dinv.reach k hk
    simp only [Heap.dane]
    rw [hsame pp hpp hpp0 k hreach]
  have hlay : layout h2 pointers = layout h1 pointers := by
    simp only [layout, hd1, hd2, Option.bind]
    exact resolveRows_congr h1 h2 hac1 pointers d2 ok.dinv hkn
  refine ⟨hlay, ?_⟩
  simp only [generateLinkedListSVG, hlay, hl, Option.bind]
  refine svgText_congr h1 h2 l ?_ ?_
  · rw [ok.same.keys]; exact hkn
  · rw [ok.same.keys]; exact hkd

theorem demo_unchanged : ∀ pp ∈ demoPointers, pp.1 ≠ 0 →
    ∀ q, demoHeap.Reach pp.1 q → demoHeapLater.deref q = demoHeap.deref q := by
  intro pp hpp _ q hq
  simp only [demoPointers, List.mem_singleton] at hpp
  subst hpp
  obtain ⟨n, hn⟩ := hq
  have hmem := chain_stable demoHeap 3 0x1020 (by decide) n hn
  have hch : demoHeap.chain 3 0x1020 = [0x1020, 0x1010, 0x1000] := by decide
  rw [hch] at hmem
  simp only [List.mem_cons, List.mem_singleton, List.not_mem_nil, or_false] at hmem
  rcases hmem with rfl | rfl | rfl <;> decide

/-! ## Claim C11 -/

/-- Claim C11: `generateLinkedListSVG` reads nothing but its arguments and the
nodes reached from the roots.  Two calls with the same list of roots, made in
two states of the memory, both finite and acyclic, in which every node reached
from a non-null root has the same value and the same successor, return the
same text (or both fail): the result does not depend on the order or number
of the cells of the memory, on the nodes no root leads to, or on an earlier
call. -/
theorem C11_deterministic (h1 h2 : Heap) (pointers : List (Ptr × String))
    (hac1 : h1.Acyclic) (hac2 : h2.Acyclic)
    (hsame : ∀ pp ∈ pointers, pp.1 ≠ 0 → ∀ q, h1.Reach pp.1 q → h2.deref q = h1.deref q) :
    generateLinkedListSVG h2 pointers = generateLinkedListSVG h1 pointers :=
  (generateLinkedListSVG_congr h1 h2 pointers hac1 hac2 hsame).2

set_option maxRecDepth 100000 in
/-- Claim C11 on `DRAW_LIST_DEMO`: the call made while the memory holds two
more nodes, the cells being met in another order, returns the text of the
first call. -/
theorem C11_deterministic_witness :
    demoHeap.Acyclic ∧ demoHeapLater.Acyclic ∧
    (∀ pp ∈ demoPointers, pp.1 ≠ 0 →
      ∀ q, demoHeap.Reach pp.1 q → demoHeapLater.deref q = demoHeap.deref q) ∧
    generateLinkedListSVG demoHeapLater demoPointers
      = generateLinkedListSVG demoHeap demoPointers ∧
    generateLinkedListSVG demoHeap demoPointers = some demoOutput ∧
    generateLinkedListSVG demoHeapLater demoPointers = some demoOutput :=
  ⟨acyclic_of_cells demoHeap id (by decide), acyclic_of_cells demoHeapLater id (by decide),
    demo_unchanged,
    C11_deterministic demoHeap demoHeapLater demoPointers
      (acyclic_of_cells demoHeap id (by decide)) (acyclic_of_cells demoHeapLater id (by decide))
      demo_unchanged,
    by rfl, by rfl⟩

end DrawList
